import Mathlib

/-!
Verification of the tree-sitter highlight core (`highlight/src/lib.rs`).

This file gives a shallow embedding of the highlight engine:

* byte buffers are `List Nat` (each entry a byte value);
* `Range` becomes `SRange` (byte offsets plus row/column points, as in the
  source; only the byte fields take part in comparisons, as in the source);
* syntax trees are `STree`, a node carrying its range, kind id, the
  `Properties` record the property cursor would yield for it, and its
  children.  The property-sheet machinery of the external `tree_sitter`
  crate resolves per-state properties; the embedding carries the resolved
  record on each node, which is what `cursor.node_properties()` observes;
* the tree cursor becomes a zipper (`SCursor`);
* the parser and language registry become an oracle (`Registry`) mapping an
  injection-name byte string to a possible language entry, whose `parse`
  function returns the tree the external parser would produce for a given
  included-ranges vector.  Panics (`expect`, `unimplemented!`) are modelled
  by `Option`/dedicated result constructors.

Machine integers: byte values and offsets are `Nat` (Rust `usize` values in
the source never overflow on these paths); the single place the source
performs a wrapping cast (`(child_count as isize + index) as usize` in
`process_tree_step`) is modelled with an explicit `% 2 ^ 64`.
-/

/-! ## UTF-8: Rust `str::from_utf8` error semantics -/

/-- Classification of the first UTF-8 sequence of a byte list, following
Rust's `core::str` validation: `valid n` (first `n` bytes form a valid
character), `invalid n` (maximal invalid subpart of length `n`), or
`incomplete` (the buffer ends in a proper prefix of a valid sequence, i.e.
`Utf8Error::error_len` would be `None`). -/
inductive Utf8Class where
  | valid (n : Nat)
  | invalid (n : Nat)
  | incomplete
deriving DecidableEq, Repr

/-- Continuation byte test (`0x80..=0xBF`). -/
def contByte (b : Nat) : Bool := 0x80 ≤ b && b ≤ 0xBF

/-- First-sequence classification, byte-range cases exactly as in Rust's
UTF-8 validation automaton. -/
def utf8Seq : List Nat → Utf8Class
  | [] => .incomplete
  | b0 :: rest =>
    if b0 < 0x80 then .valid 1
    else if b0 < 0xC2 then .invalid 1
    else if b0 ≤ 0xDF then
      match rest with
      | [] => .incomplete
      | b1 :: _ => if contByte b1 then .valid 2 else .invalid 1
    else if b0 ≤ 0xEF then
      let lo := if b0 = 0xE0 then 0xA0 else 0x80
      let hi := if b0 = 0xED then 0x9F else 0xBF
      match rest with
      | [] => .incomplete
      | b1 :: rest1 =>
        if lo ≤ b1 && b1 ≤ hi then
          match rest1 with
          | [] => .incomplete
          | b2 :: _ => if contByte b2 then .valid 3 else .invalid 2
        else .invalid 1
    else if b0 ≤ 0xF4 then
      let lo := if b0 = 0xF0 then 0x90 else 0x80
      let hi := if b0 = 0xF4 then 0x8F else 0xBF
      match rest with
      | [] => .incomplete
      | b1 :: rest1 =>
        if lo ≤ b1 && b1 ≤ hi then
          match rest1 with
          | [] => .incomplete
          | b2 :: rest2 =>
            if contByte b2 then
              match rest2 with
              | [] => .incomplete
              | b3 :: _ => if contByte b3 then .valid 4 else .invalid 3
            else .invalid 2
        else .invalid 1
    else .invalid 1

theorem utf8Seq_valid_bounds (bs : List Nat) (n : Nat) (h : utf8Seq bs = .valid n) :
    1 ≤ n ∧ n ≤ bs.length := by
  cases bs with
  | nil => simp [utf8Seq] at h
  | cons b0 rest =>
    simp only [utf8Seq] at h
    repeat' split at h
    all_goals cases h
    all_goals simp

theorem utf8Seq_invalid_bounds (bs : List Nat) (n : Nat) (h : utf8Seq bs = .invalid n) :
    1 ≤ n ∧ n ≤ bs.length := by
  cases bs with
  | nil => simp [utf8Seq] at h
  | cons b0 rest =>
    simp only [utf8Seq] at h
    repeat' split at h
    all_goals cases h
    all_goals simp

/-- The bytes of `"\u{FFFD}"`. -/
def replacementChar : List Nat := [0xEF, 0xBF, 0xBD]

/-- Lossy decoding, fuel-structured so that it reduces definitionally: each
maximal invalid subpart (including a truncated final sequence) is replaced
by the replacement character, per the substitution-of-maximal-subparts
policy that Rust implements.  Each step consumes at least one byte
(`utf8Seq_valid_bounds` / `utf8Seq_invalid_bounds`), so a fuel of
`bs.length + 1` never runs out. -/
def utf8LossyGo : Nat → List Nat → List Nat
  | 0, _ => []
  | fuel + 1, bs =>
    if bs.isEmpty then []
    else
      match utf8Seq bs with
      | .valid n => bs.take n ++ utf8LossyGo fuel (bs.drop n)
      | .invalid n => replacementChar ++ utf8LossyGo fuel (bs.drop n)
      | .incomplete => replacementChar

/-- Lossy decoding at the byte level (`String::from_utf8_lossy`). -/
def utf8Lossy (bs : List Nat) : List Nat := utf8LossyGo (bs.length + 1) bs

/-- `str::from_utf8` outcome, fuel-structured: `none` when the bytes are
valid, otherwise `some (valid_up_to, error_len)` where `error_len = none`
models `Utf8Error::error_len() == None` (incomplete sequence at the end). -/
def utf8ValidateGo : Nat → List Nat → Option (Nat × Option Nat)
  | 0, _ => none
  | fuel + 1, bs =>
    if bs.isEmpty then none
    else
      match utf8Seq bs with
      | .valid n =>
        match utf8ValidateGo fuel (bs.drop n) with
        | none => none
        | some (v, e) => some (n + v, e)
      | .invalid n => some (0, some n)
      | .incomplete => some (0, none)

/-- `str::from_utf8` outcome on a byte list. -/
def utf8Validate (bs : List Nat) : Option (Nat × Option Nat) :=
  utf8ValidateGo (bs.length + 1) bs

/-- The byte slice `src[a..b]`. -/
def byteSlice (src : List Nat) (a b : Nat) : List Nat := (src.take b).drop a

/-! ## Data model: ranges, scopes, tree steps, properties, trees -/

/-- `tree_sitter::Range`: byte offsets and row/column points. -/
structure SRange where
  start_byte : Nat
  start_point : Nat × Nat
  end_byte : Nat
  end_point : Nat × Nat
deriving DecidableEq, Repr

/-- `usize::MAX`. -/
def usizeMax : Nat := 2 ^ 64 - 1

/-- The `Scope` enumeration of `highlight/src/lib.rs`. -/
inductive Scope where
  | Attribute | Comment | Constant | ConstantBuiltin | Constructor
  | ConstructorBuiltin | Embedded | Escape | Function | FunctionBuiltin
  | Keyword | Number | Operator | Property | PropertyBuiltin
  | Punctuation | PunctuationBracket | PunctuationDelimiter
  | PunctuationSpecial | String | StringSpecial | Tag | Type | TypeBuiltin
  | Variable | VariableBuiltin | Unknown
deriving DecidableEq, Repr

/-- `TreeStep`: one navigation step of a compiled tree path.  `index` is a
Rust `isize`; `kinds` an optional vector of kind ids. -/
inductive TreeStep where
  | child (index : Int) (kinds : Option (List Nat))
  | children (kinds : Option (List Nat))
  | next (kinds : Option (List Nat))
deriving DecidableEq, Repr

/-- `InjectionLanguage`: a literal name (kept as its UTF-8 bytes) or a tree
path naming a node whose text is the language name. -/
inductive InjectionLanguage where
  | literal (s : List Nat)
  | treePath (steps : List TreeStep)
deriving DecidableEq, Repr

/-- `Injection`: language specifier plus content tree path. -/
structure SInjection where
  language : InjectionLanguage
  content : List TreeStep
deriving DecidableEq, Repr

/-- `Properties`: resolved per-state record (optional scope, injections). -/
structure SProperties where
  scope : Option Scope
  injections : List SInjection
deriving DecidableEq, Repr

/-- A syntax-tree node: range, kind id, the `Properties` the property cursor
yields at this node, and the child nodes in order. -/
inductive STree where
  | node (rng : SRange) (kind_id : Nat) (props : SProperties) (children : List STree)

def STree.rng : STree → SRange
  | .node r _ _ _ => r

def STree.kind_id : STree → Nat
  | .node _ k _ _ => k

def STree.props : STree → SProperties
  | .node _ _ p _ => p

def STree.childList : STree → List STree
  | .node _ _ _ cs => cs

def STree.start_byte (t : STree) : Nat := t.rng.start_byte

def STree.end_byte (t : STree) : Nat := t.rng.end_byte

/-! ## Tree cursor (zipper) -/

/-- One breadcrumb of the zipper: the data of the parent node together with
the focused child's left siblings (reversed) and right siblings. -/
structure Crumb where
  rng : SRange
  kind_id : Nat
  props : SProperties
  leftRev : List STree
  right : List STree

/-- A cursor into a tree, as a zipper.  `crumbs = []` means the focus is the
root. -/
structure SCursor where
  focus : STree
  crumbs : List Crumb

/-- `TreeCursor::node` — the focused node. -/
def SCursor.node (c : SCursor) : STree := c.focus

/-- `goto_first_child`. -/
def SCursor.goto_first_child (c : SCursor) : Option SCursor :=
  match c.focus with
  | .node r k p cs =>
    match cs with
    | [] => none
    | x :: xs => some ⟨x, ⟨r, k, p, [], xs⟩ :: c.crumbs⟩

/-- `goto_next_sibling`. -/
def SCursor.goto_next_sibling (c : SCursor) : Option SCursor :=
  match c.crumbs with
  | [] => none
  | cr :: rest =>
    match cr.right with
    | [] => none
    | y :: ys => some ⟨y, ⟨cr.rng, cr.kind_id, cr.props, c.focus :: cr.leftRev, ys⟩ :: rest⟩

/-- `goto_parent`. -/
def SCursor.goto_parent (c : SCursor) : Option SCursor :=
  match c.crumbs with
  | [] => none
  | cr :: rest =>
    some ⟨.node cr.rng cr.kind_id cr.props (cr.leftRev.reverse ++ c.focus :: cr.right), rest⟩

/-- Rebuild a tree from a focused subtree and a crumb trail. -/
def rebuildRoot : STree → List Crumb → STree
  | t, [] => t
  | t, cr :: rest =>
    rebuildRoot (.node cr.rng cr.kind_id cr.props (cr.leftRev.reverse ++ t :: cr.right)) rest

/-- The root of the tree the cursor walks (rebuilt from the zipper). -/
def SCursor.root (c : SCursor) : STree := rebuildRoot c.focus c.crumbs

/-! ## Layers -/

/-- `Layer`: a cursor into its parse tree, the permitted ranges, and the
at-start/at-end flag.  `lid` is a ghost identity used only in proofs: it is
never examined by any of the executable transition functions. -/
structure Layer where
  cursor : SCursor
  ranges : List SRange
  at_node_end : Bool
  lid : Nat

/-- `Layer::new` — cursor at the root, at-start. -/
def Layer.new (tree : STree) (ranges : List SRange) (lid : Nat) : Layer :=
  ⟨⟨tree, []⟩, ranges, false, lid⟩

/-- `Layer::offset` — end byte when at-end, start byte when at-start. -/
def Layer.offset (l : Layer) : Nat :=
  if l.at_node_end then l.cursor.node.end_byte else l.cursor.node.start_byte

/-- `Layer::advance` — `none` models returning `false` (cursor exhausted;
the caller removes the layer).  From at-start: descend to the first child if
any, else flip to at-end.  From at-end: next sibling (back to at-start),
else parent (staying at-end). -/
def Layer.advance (l : Layer) : Option Layer :=
  if l.at_node_end then
    match l.cursor.goto_next_sibling with
    | some c => some { l with cursor := c, at_node_end := false }
    | none =>
      match l.cursor.goto_parent with
      | some c => some { l with cursor := c }
      | none => none
  else
    match l.cursor.goto_first_child with
    | some c => some { l with cursor := c }
    | none => some { l with at_node_end := true }

/-! ## Tree-path evaluation (`process_tree_step`, `nodes_for_tree_path`) -/

/-- Rust's `as usize` applied to an `isize` value (two's-complement wrap). -/
def isizeToUsize (i : Int) : Nat := (i % (2 : Int) ^ 64).toNat

/-- `node.child(i)`. -/
def STree.child (t : STree) (i : Nat) : Option STree := t.childList.get? i

/-- The nodes `process_tree_step` pushes for one node of the prefix. -/
def stepPush (step : TreeStep) (node : STree) : List STree :=
  match step with
  | .child index kinds =>
    let i : Nat :=
      if 0 ≤ index then isizeToUsize index
      else isizeToUsize ((node.childList.length : Int) + index)
    match node.child i with
    | some c =>
      match kinds with
      | some ks => if c.kind_id ∈ ks then [c] else []
      | none => [c]
    | none => []
  | .children kinds =>
    match kinds with
    | some ks => node.childList.filter (fun c => c.kind_id ∈ ks)
    | none => node.childList
  | .next _ => []

/-- `process_tree_step`: push the step's results for each node of the
current prefix onto the tail, then drain the prefix.  Evaluating a `Next`
step on a non-empty prefix hits `unimplemented!()`, modelled as `none`. -/
def process_tree_step (step : TreeStep) (nodes : List STree) : Option (List STree) :=
  match step with
  | .next _ => if nodes.isEmpty then some nodes else none
  | _ => some ((nodes ++ nodes.flatMap (stepPush step)).drop nodes.length)

/-- `nodes_for_tree_path`. -/
def nodes_for_tree_path (node : STree) (steps : List TreeStep) : Option (List STree) :=
  steps.foldlM (fun nodes step => process_tree_step step nodes) [node]

/-- `injection_language_string`: literal, or UTF-8 text of the first node
named by the tree path.  The outer `Option` models the `unimplemented!()`
panic; the inner one is the source's `Option<String>` (language names are
kept as byte lists; `str::from_utf8(..).ok()` becomes a validity check). -/
def injection_language_string (source : List Nat) (node : STree)
    (language : InjectionLanguage) : Option (Option (List Nat)) :=
  match language with
  | .literal s => some (some s)
  | .treePath steps =>
    match nodes_for_tree_path node steps with
    | none => none
    | some nodes =>
      match nodes.head? with
      | none => some none
      | some n =>
        let bytes := byteSlice source n.start_byte n.end_byte
        if utf8Validate bytes = none then some (some bytes) else some none

/-! ## Range intersection (`intersect_ranges`) -/

/-- One iteration of the `while` loop body of `intersect_ranges` against the
current parent range: returns the ranges pushed and `some rng2` when control
falls through to advancing the parent iterator (with the updated working
range), or `none` when the loop is left keeping the current parent (the
`while` test failing, or the `break`). -/
def clipOne (rng parent : SRange) : List SRange × Option SRange :=
  if parent.start_byte ≤ rng.end_byte then
    if parent.end_byte > rng.start_byte then
      let rng1 :=
        if rng.start_byte < parent.start_byte then
          { rng with start_byte := parent.start_byte, start_point := parent.start_point }
        else rng
      if parent.end_byte < rng1.end_byte then
        (if rng1.start_byte < parent.end_byte then
            [⟨rng1.start_byte, rng1.start_point, parent.end_byte, parent.end_point⟩]
          else [],
         some { rng1 with start_byte := parent.end_byte, start_point := parent.end_point })
      else
        (if rng1.start_byte < rng1.end_byte then [rng1] else [], none)
    else ([], some rng)
  else ([], none)

/-- The full inner `while parent_range.start_byte <= range.end_byte` loop of
`intersect_ranges`, for one gap `rng`.  Returns the ranges pushed (in
order) and either `some (parent, parents)` — the parent cursor after the
loop — or `none` for the early `return result` when the parent iterator is
exhausted. -/
def clipGap (rng parent : SRange) (parents : List SRange) :
    List SRange × Option (SRange × List SRange) :=
  match parents with
  | [] =>
    match clipOne rng parent with
    | (pushed, none) => (pushed, some (parent, []))
    | (pushed, some _) => (pushed, none)
  | p :: ps =>
    match clipOne rng parent with
    | (pushed, none) => (pushed, some (parent, p :: ps))
    | (pushed, some rng2) =>
      (pushed ++ (clipGap rng2 p ps).1, (clipGap rng2 p ps).2)

/-- The `for child_range in node.children() … chain([following_range])` loop
of `intersect_ranges` for one node: `childRanges` is that chained list,
`preceding` the running `preceding_range`. -/
def gapsLoop (childRanges : List SRange) (preceding parent : SRange)
    (parents : List SRange) : List SRange × Option (SRange × List SRange) :=
  match childRanges with
  | [] => ([], some (parent, parents))
  | cr :: rest =>
    let g : SRange := ⟨preceding.end_byte, preceding.end_point, cr.start_byte, cr.start_point⟩
    if g.end_byte < parent.start_byte then
      gapsLoop rest cr parent parents
    else
      match clipGap g parent parents with
      | (out, none) => (out, none)
      | (out, some (p, ps)) =>
        (out ++ (gapsLoop rest cr p ps).1, (gapsLoop rest cr p ps).2)

/-- The `following_range` constructed for a node. -/
def followingRange (node : STree) : SRange :=
  ⟨node.end_byte, node.rng.end_point, usizeMax, (usizeMax, usizeMax)⟩

/-- The preceding-range seed for a node (`{0 .. node.start}`). -/
def precedingSeed (node : STree) : SRange :=
  ⟨0, (0, 0), node.rng.start_byte, node.rng.start_point⟩

/-- The outer `for node in nodes` loop. -/
def nodesLoop (nodes : List STree) (parent : SRange) (parents : List SRange) :
    List SRange × Option (SRange × List SRange) :=
  match nodes with
  | [] => ([], some (parent, parents))
  | n :: rest =>
    let childRanges := n.childList.map STree.rng ++ [followingRange n]
    match gapsLoop childRanges (precedingSeed n) parent parents with
    | (out, none) => (out, none)
    | (out, some (p, ps)) =>
      (out ++ (nodesLoop rest p ps).1, (nodesLoop rest p ps).2)

/-- `Highlighter::intersect_ranges`.  `none` models the
`expect("Layers should only be constructed with non-empty ranges vectors")`
panic on an empty `parent_ranges`. -/
def intersect_ranges (parent_ranges : List SRange) (nodes : List STree) :
    Option (List SRange) :=
  match parent_ranges with
  | [] => none
  | p :: ps => some (nodesLoop nodes p ps).1

/-! ## Registry, highlighter state, events -/

/-- The result of `language_for_injection_string`: whether
`parser.set_language` would succeed for this language, and the tree the
parser would produce for the given included ranges (`none` = parse failure).
This is the external-collaborator oracle of the embedding. -/
structure RegEntry where
  set_language_ok : Bool
  parse : List SRange → Option STree

/-- `LanguageRegistry` (keys are the name's UTF-8 bytes). -/
structure Registry where
  language_for_injection_string : List Nat → Option RegEntry

/-- `Highlighter` state.  `next_layer_id` feeds the ghost layer identities. -/
structure HState where
  source : List Nat
  source_offset : Nat
  layers : List Layer
  utf8_error_len : Option Nat
  next_layer_id : Nat

/-- `HighlightEvent` (the `&str` payload kept as its bytes). -/
inductive HEvent where
  | source (payload : List Nat)
  | scopeStart (s : Scope)
  | scopeEnd (s : Scope)
deriving DecidableEq, Repr

/-! ## `add_layer`: binary search and insertion -/

/-- `layers[i].offset()`, with an arbitrary default out of bounds (the
source's accesses are always in bounds). -/
def offsetAt (ls : List Layer) (i : Nat) : Nat :=
  match ls.get? i with
  | some l => l.offset
  | none => 0

/-- The `while size > 1` loop of Rust's `slice::binary_search_by`, with the
comparator `(l.offset(), 0).cmp(&(target, 1))` — `Greater` iff
`l.offset() > target`, never `Equal`. -/
def bsearchGo (ls : List Layer) (target : Nat) : Nat → Nat → Nat → Nat
  | 0, base, _ => base
  | fuel + 1, base, size =>
    if 1 < size then
      let half := size / 2
      let mid := base + half
      bsearchGo ls target fuel (if target < offsetAt ls mid then base else mid) (size - half)
    else base

/-- The loop entry point; `size` itself is enough fuel, since `size`
strictly decreases on every iteration. -/
def bsearchLoop (ls : List Layer) (target base size : Nat) : Nat :=
  bsearchGo ls target size base size

/-- The full `binary_search_by` insertion index (always the `Err` branch,
since the comparator never returns `Equal`). -/
def insertion_index (ls : List Layer) (target : Nat) : Nat :=
  if ls.length = 0 then 0
  else
    let base := bsearchLoop ls target 0 ls.length
    if offsetAt ls base ≤ target then base + 1 else base

/-- `Vec::insert`. -/
def insertAt (ls : List Layer) (i : Nat) (x : Layer) : List Layer :=
  ls.take i ++ x :: ls.drop i

/-- `Highlighter::add_layer`.  `none` models the two `expect` panics
(`"Failed to set language"`, `"Failed to parse"`); a missing registry entry
is silently skipped. -/
def add_layer (reg : Registry) (s : HState) (language_string : List Nat)
    (ranges : List SRange) : Option HState :=
  match reg.language_for_injection_string language_string with
  | none => some s
  | some entry =>
    if entry.set_language_ok then
      match entry.parse ranges with
      | none => none
      | some tree =>
        let layer := Layer.new tree ranges s.next_layer_id
        let i := insertion_index s.layers layer.offset
        some { s with layers := insertAt s.layers i layer,
                      next_layer_id := s.next_layer_id + 1 }
    else none

/-! ## The iterator (`Highlighter::next`) -/

/-- The `filter_map` over `properties.injections` collecting
`(language, ranges)` pairs; `none` models a panic inside the closure. -/
def collect_injections (source : List Nat) (layerRanges : List SRange)
    (node : STree) : List SInjection → Option (List (List Nat × List SRange))
  | [] => some []
  | inj :: rest =>
    match (match injection_language_string source node inj.language with
      | none => none
      | some none => some []
      | some (some language) =>
        match nodes_for_tree_path node inj.content with
        | none => none
        | some nodes =>
          match intersect_ranges layerRanges nodes with
          | none => none
          | some ranges =>
            if ranges.length > 0 then some [(language, ranges)] else some []) with
    | none => none
    | some first =>
      match collect_injections source layerRanges node rest with
      | none => none
      | some more => some (first ++ more)

/-- The `for (language, ranges) in injections { self.add_layer(..) }` loop. -/
def add_layers (reg : Registry) : HState → List (List Nat × List SRange) → Option HState
  | s, [] => some s
  | s, (lang, ranges) :: rest => do
    let s2 ← add_layer reg s lang ranges
    add_layers reg s2 rest

/-- Stable insertion into a list sorted by offset (new element goes before
equal offsets — stability for an element moving from the front). -/
def insLayer (x : Layer) : List Layer → List Layer
  | [] => [x]
  | y :: ys => if y.offset < x.offset then y :: insLayer x ys else x :: y :: ys

/-- `self.layers.sort_unstable_by_key(|l| l.offset())`, modelled as a stable
insertion sort.  (Rust's pdqsort runs plain insertion sort — which is
stable — on slices shorter than about 20 elements; layer lists here are
always tiny, so the model commits to the stable order.) -/
def sortLayers : List Layer → List Layer
  | [] => []
  | x :: xs => insLayer x (sortLayers xs)

/-- Steps 5 of the loop: advance the front layer, then re-sort, or remove
the front layer when its cursor is exhausted. -/
def advance_front (s : HState) : HState :=
  match s.layers with
  | [] => s
  | l :: rest =>
    match l.advance with
    | some l2 => { s with layers := sortLayers (l2 :: rest) }
    | none => { s with layers := rest }

/-- `Highlighter::emit_source`: `none` models returning `None` (incomplete
UTF-8 error).  Returns the payload, the new `source_offset` and the new
`utf8_error_len`.  Note the valid-prefix branch does *not* advance
`source_offset`, exactly as in the source. -/
def emit_source (source : List Nat) (source_offset next_offset : Nat) :
    Option (List Nat × Nat × Option Nat) :=
  let input := byteSlice source source_offset next_offset
  match utf8Validate input with
  | none => some (input, next_offset, none)
  | some (v, some error_len) =>
    if 0 < v then some (input.take v, source_offset, some error_len)
    else some (replacementChar, source_offset + error_len, none)
  | some (_, none) => none

/-- Result of one `next()` call: an event with the successor state, the end
of the stream (`truncated = true` when returning `None` because of an
incomplete UTF-8 error with text still pending), a panic, or fuel
exhaustion of the model's loop counter. -/
inductive NextResult where
  | ev (e : HEvent) (s : HState)
  | stop (truncated : Bool) (s : HState)
  | panicked
  | fuelOut

/-- The `while !self.layers.is_empty()` loop of `next()`, followed by the
trailing-source emission.  `fuel` bounds the number of iterations; each
iteration advances or removes a layer, so any terminating execution is
reproduced with enough fuel. -/
def next_loop (reg : Registry) : Nat → HState → NextResult
  | 0, _ => .fuelOut
  | fuel + 1, s =>
    match s.layers with
    | [] =>
      if s.source_offset < s.source.length then
        match emit_source s.source s.source_offset s.source.length with
        | some (payload, off, pend) =>
          .ev (.source payload) { s with source_offset := off, utf8_error_len := pend }
        | none => .stop true s
      else .stop false s
    | first_layer :: _ =>
      let properties := first_layer.cursor.node.props
      let s1? :=
        if first_layer.at_node_end then some s
        else
          match collect_injections s.source first_layer.ranges first_layer.cursor.node
              properties.injections with
          | none => none
          | some injs => add_layers reg s injs
      match s1? with
      | none => .panicked
      | some s1 =>
        match s1.layers with
        | [] => .panicked
        | front :: _ =>
          match properties.scope with
          | some scope =>
            let next_offset := min s1.source.length front.offset
            if s1.source_offset < next_offset then
              match emit_source s1.source s1.source_offset next_offset with
              | some (payload, off, pend) =>
                .ev (.source payload) { s1 with source_offset := off, utf8_error_len := pend }
              | none => .stop true s1
            else
              .ev (if front.at_node_end then .scopeEnd scope else .scopeStart scope)
                (advance_front s1)
          | none => next_loop reg fuel (advance_front s1)

/-- `Highlighter::next`: drain a pending UTF-8 error first, then run the
layer loop. -/
def next_event (reg : Registry) (fuel : Nat) (s : HState) : NextResult :=
  match s.utf8_error_len with
  | some error_len =>
    .ev (.source replacementChar)
      { s with source_offset := s.source_offset + error_len, utf8_error_len := none }
  | none => next_loop reg fuel s

/-- How a (finite) iteration of the stream ended. -/
inductive Outcome where
  | finished
  | truncated
  | panicked
  | fuelOut
deriving DecidableEq, Repr

/-- Pull events until the stream ends (or the fuel runs out). -/
def run (reg : Registry) : Nat → HState → List HEvent × Outcome
  | 0, _ => ([], .fuelOut)
  | fuel + 1, s =>
    match next_event reg fuel s with
    | .ev e s2 => (e :: (run reg fuel s2).1, (run reg fuel s2).2)
    | .stop true _ => ([], .truncated)
    | .stop false _ => ([], .finished)
    | .panicked => ([], .panicked)
    | .fuelOut => ([], .fuelOut)

/-- `Highlighter::new` (after a successful primary parse): one layer over
`[{0, usize::MAX}]`, cursor at the root, `source_offset = 0`. -/
def initState (source : List Nat) (tree : STree) : HState :=
  { source := source
    source_offset := 0
    layers := [Layer.new tree [⟨0, (0, 0), usizeMax, (usizeMax, usizeMax)⟩] 0]
    utf8_error_len := none
    next_layer_id := 1 }

/-! ## Shared concrete fixtures and helpers -/

/-- Concatenation of all `Source` payloads of an event list. -/
def concatSources : List HEvent → List Nat
  | [] => []
  | .source p :: rest => p ++ concatSources rest
  | .scopeStart _ :: rest => concatSources rest
  | .scopeEnd _ :: rest => concatSources rest

/-- A registry that knows no injection languages. -/
def emptyRegistry : Registry := ⟨fun _ => none⟩

/-- A range `[a, b)` with matching column points. -/
def mkRange (a b : Nat) : SRange := ⟨a, (0, a), b, (0, b)⟩

/-- A childless node `[a, b)` with the given properties. -/
def mkLeaf (a b : Nat) (p : SProperties) : STree := .node (mkRange a b) 0 p []

/-- Properties with no scope and no injections. -/
def plainProps : SProperties := ⟨none, []⟩

/-- Properties with a scope and no injections. -/
def scopedProps (sc : Scope) : SProperties := ⟨some sc, []⟩

/-! ## Claim C1 -/

/-- Claim C1 (code bug): the claim states that for source `"a\xFFb"` the
`Source` events are `"a"`, `"\u{FFFD}"`, `"b"`, and that concatenating all
`Source` payloads performs standard U+FFFD replacement.  The code disagrees:
`emit_source` does not advance `source_offset` when it emits a valid prefix
before an invalid sequence, so the pending-error branch of `next()` then
charges the replacement against the prefix bytes.  For `"a\xFFb"` (bytes
`61 FF 62`, with a scope-free sheet) the stream is `"a"`, `"\u{FFFD}"`,
`"\u{FFFD}"`, `"b"` — four events whose concatenation differs from the lossy
decoding of the source. -/
theorem c1_source_coverage_bug :
    run emptyRegistry 12 (initState [0x61, 0xFF, 0x62] (mkLeaf 0 3 plainProps))
      = ([.source [0x61], .source replacementChar,
          .source replacementChar, .source [0x62]], .finished)
    ∧ concatSources (run emptyRegistry 12
        (initState [0x61, 0xFF, 0x62] (mkLeaf 0 3 plainProps))).1
        ≠ utf8Lossy [0x61, 0xFF, 0x62] := by
  exact ⟨by decide, by decide⟩

/-! ## Claim C9 -/

/-- Claim C9: if the byte slice `[source_offset..next_offset]` chosen for
emission ends in an incomplete UTF-8 sequence (`error_len` is `none`),
`next()` returns `None` and the event stream ends — even when `next_offset`
is an interior scope boundary strictly below `source.len()` and active
layers with unvisited nodes remain.  (The front layer's node carries a
scope; its injections are assumed empty, or it is at-end, so injection
discovery adds nothing.) -/
theorem c9_incomplete_slice_truncates (reg : Registry) (fuel : Nat) (s : HState)
    (l : Layer) (rest : List Layer) (sc : Scope) (v : Nat)
    (hpend : s.utf8_error_len = none)
    (hlayers : s.layers = l :: rest)
    (hinj : l.cursor.node.props.injections = [])
    (hscope : l.cursor.node.props.scope = some sc)
    (hlt : s.source_offset < min s.source.length l.offset)
    (hincomplete :
      utf8Validate (byteSlice s.source s.source_offset (min s.source.length l.offset))
        = some (v, none)) :
    next_event reg (fuel + 1) s = .stop true s
      ∧ run reg (fuel + 2) s = ([], .truncated) := by
  have hmain : next_event reg (fuel + 1) s = .stop true s := by
    unfold next_event
    rw [hpend]
    unfold next_loop
    rw [hlayers]
    have hself : (if l.at_node_end then some s
        else
          match collect_injections s.source l.ranges l.cursor.node
              l.cursor.node.props.injections with
          | none => none
          | some injs => add_layers reg s injs) = some s := by
      cases l.at_node_end <;> simp [hinj, collect_injections, add_layers]
    simp only [hself, hlayers, hscope]
    rw [if_pos hlt]
    unfold emit_source
    simp only [hincomplete]
  refine ⟨hmain, ?_⟩
  show run reg (fuel + 1 + 1) s = ([], .truncated)
  unfold run
  rw [hmain]

/-- A concrete state for the C9 witness: source `C2 A0 61`, front layer
at-start of a `Comment`-scoped node `[1,2)` (an interior boundary), and a
second active layer remaining. -/
def c9State : HState :=
  { source := [0xC2, 0xA0, 0x61]
    source_offset := 0
    layers := [⟨⟨mkLeaf 1 2 (scopedProps .Comment), []⟩, [mkRange 0 usizeMax], false, 0⟩,
               ⟨⟨mkLeaf 2 3 plainProps, []⟩, [mkRange 0 usizeMax], false, 1⟩]
    utf8_error_len := none
    next_layer_id := 2 }

/-- Witness for C9: at `c9State` the offered slice `[0..1) = [0xC2]` is an
incomplete sequence, `next()` ends the stream, and unvisited layers remain. -/
theorem c9_witness :
    next_event emptyRegistry 5 c9State = .stop true c9State
      ∧ run emptyRegistry 6 c9State = ([], .truncated) :=
  c9_incomplete_slice_truncates emptyRegistry 4 c9State
    ⟨⟨mkLeaf 1 2 (scopedProps .Comment), []⟩, [mkRange 0 usizeMax], false, 0⟩
    [⟨⟨mkLeaf 2 3 plainProps, []⟩, [mkRange 0 usizeMax], false, 1⟩]
    .Comment 0 rfl rfl rfl rfl (by decide) (by decide)

/-! ## Claim C6 -/

mutual

/-- All child counts in the tree fit in `isize` (true of any real parse;
Rust's `child_count() as isize` presumes it). -/
def smallCounts : STree → Bool
  | .node _ _ _ cs => decide (cs.length < 2 ^ 63) && smallCountsList cs

/-- `smallCounts` over a child list. -/
def smallCountsList : List STree → Bool
  | [] => true
  | c :: cs => smallCounts c && smallCountsList cs

end

/-- A step the evaluator supports: not `Next` (which is `unimplemented!`),
and with a `child` index in the `isize` range (a type-level fact in Rust). -/
def stepWf : TreeStep → Bool
  | .child i _ => decide (-(2 : Int) ^ 63 ≤ i) && decide (i < 2 ^ 63)
  | .children _ => true
  | .next _ => false

/-- Modelled from the spec's words, for the claim-C6 comparison: a `Child`
step with `index >= 0` selects the child at that index and with `index < 0`
the child at `child_count + index`, keeps it only if it passes the optional
kinds filter, and silently skips missing children. -/
def childStepSpec (index : Int) (kinds : Option (List Nat)) (node : STree) : List STree :=
  let j : Int := if 0 ≤ index then index else (node.childList.length : Int) + index
  match (if 0 ≤ j then node.childList.get? j.toNat else none) with
  | none => []
  | some c =>
    match kinds with
    | some ks => if c.kind_id ∈ ks then [c] else []
    | none => [c]

/-- Modelled from the spec's words: step results for one node. -/
def stepSpec : TreeStep → STree → List STree
  | .child i k, n => childStepSpec i k n
  | .children k, n =>
    match k with
    | some ks => n.childList.filter (fun c => c.kind_id ∈ ks)
    | none => n.childList
  | .next _, _ => []

theorem smallCountsList_mem {cs : List STree} (h : smallCountsList cs = true) :
    ∀ c ∈ cs, smallCounts c = true := by
  induction cs with
  | nil => intro c hc; simp at hc
  | cons x xs ih =>
    rw [smallCountsList, Bool.and_eq_true] at h
    intro c hc
    rcases List.mem_cons.mp hc with rfl | hc2
    · exact h.1
    · exact ih h.2 c hc2

theorem smallCounts_parts {r k p cs} (h : smallCounts (.node r k p cs) = true) :
    cs.length < 2 ^ 63 ∧ ∀ c ∈ cs, smallCounts c = true := by
  rw [smallCounts, Bool.and_eq_true, decide_eq_true_eq] at h
  exact ⟨h.1, smallCountsList_mem h.2⟩

theorem stepPush_eq_stepSpec (st : TreeStep) (n : STree)
    (hwf : stepWf st = true) (hsmall : smallCounts n = true) :
    stepPush st n = stepSpec st n := by
  obtain ⟨r, k, p, cs⟩ := n
  have hlen : cs.length < 2 ^ 63 := (smallCounts_parts hsmall).1
  cases st with
  | children ks => rfl
  | next ks => simp [stepWf] at hwf
  | child i ks =>
    simp only [stepWf, Bool.and_eq_true, decide_eq_true_eq] at hwf
    obtain ⟨hlo, hhi⟩ := hwf
    by_cases h0 : 0 ≤ i
    · have he : isizeToUsize i = i.toNat := by
        unfold isizeToUsize; rw [Int.emod_eq_of_lt h0 (by omega)]
      simp only [stepPush, stepSpec, childStepSpec, STree.child, STree.childList,
        if_pos h0, he]
      first
      | rfl
      | (cases cs.get? i.toNat <;> rfl)
    · by_cases hj : 0 ≤ (cs.length : Int) + i
      · have he : isizeToUsize ((cs.length : Int) + i) = ((cs.length : Int) + i).toNat := by
          unfold isizeToUsize; rw [Int.emod_eq_of_lt hj (by omega)]
        simp only [stepPush, stepSpec, childStepSpec, STree.child, STree.childList,
          if_neg h0, if_pos hj, he]
        first
        | rfl
        | (cases cs.get? ((cs.length : Int) + i).toNat <;> rfl)
      · have hbig : cs.length ≤ isizeToUsize ((cs.length : Int) + i) := by
          unfold isizeToUsize
          have hwrap : ((cs.length : Int) + i) % 2 ^ 64 = 2 ^ 64 + ((cs.length : Int) + i) := by
            omega
          rw [hwrap]; omega
        simp only [stepPush, stepSpec, childStepSpec, STree.child, STree.childList,
          if_neg h0, if_neg hj, List.get?_eq_none.mpr hbig]

theorem stepSpec_mem_childList {st : TreeStep} {n c : STree}
    (h : c ∈ stepSpec st n) : c ∈ n.childList := by
  cases st with
  | child i ks =>
    simp only [stepSpec, childStepSpec] at h
    by_cases hj : 0 ≤ (if 0 ≤ i then i else (n.childList.length : Int) + i)
    · rw [if_pos hj] at h
      rcases hget : n.childList.get? (if 0 ≤ i then i else (n.childList.length : Int) + i).toNat
        with _ | c2
      · rw [hget] at h; simp at h
      · rw [hget] at h
        have hc2 : c2 ∈ n.childList := List.get?_mem hget
        cases ks with
        | some l =>
          simp only at h
          split at h <;> simp_all
        | none => simp_all
    · rw [if_neg hj] at h
      simp at h
  | children ks =>
    cases ks with
    | some l =>
      have h2 : c ∈ n.childList ∧ c.kind_id ∈ l := by simpa [stepSpec] using h
      exact h2.1
    | none => simpa [stepSpec] using h
  | next ks => simp [stepSpec] at h

theorem smallCounts_of_child {n c : STree} (hc : c ∈ n.childList)
    (h : smallCounts n = true) : smallCounts c = true := by
  obtain ⟨r, k, p, cs⟩ := n
  exact (smallCounts_parts h).2 c hc

theorem flatMap_congr_local {α β : Type} (l : List α) (f g : α → List β)
    (h : ∀ a ∈ l, f a = g a) : l.flatMap f = l.flatMap g := by
  induction l with
  | nil => rfl
  | cons x xs ih =>
    simp only [List.flatMap_cons, h x (by simp)]
    rw [ih (fun a ha => h a (by simp [ha]))]

theorem tree_path_foldl (steps : List TreeStep) (ns : List STree)
    (hwf : steps.all stepWf = true)
    (hsm : ∀ n ∈ ns, smallCounts n = true) :
    steps.foldlM (fun nodes step => process_tree_step step nodes) ns
      = some (steps.foldl (fun l st => l.flatMap (stepSpec st)) ns) := by
  induction steps generalizing ns with
  | nil => rfl
  | cons st rest ih =>
    simp only [List.all_cons, Bool.and_eq_true] at hwf
    have hstep : process_tree_step st ns = some (ns.flatMap (stepSpec st)) := by
      have hpush : ns.flatMap (stepPush st) = ns.flatMap (stepSpec st) :=
        flatMap_congr_local ns _ _ (fun n hn => stepPush_eq_stepSpec st n hwf.1 (hsm n hn))
      cases st with
      | child i k => simp [process_tree_step, List.drop_left, hpush]
      | children k => simp [process_tree_step, List.drop_left, hpush]
      | next k => simp [stepWf] at hwf
    simp only [List.foldlM_cons, hstep, Option.bind_eq_bind, Option.some_bind,
      List.foldl_cons]
    exact ih (ns.flatMap (stepSpec st)) hwf.2 (fun n hn => by
      obtain ⟨m, hm, hmem⟩ := List.mem_flatMap.mp hn
      exact smallCounts_of_child (stepSpec_mem_childList hmem) (hsm m hm))

/-- Claim C6: tree-path evaluation starts from the singleton set of the
start node; each step is applied to every node of the set (results appended
at the tail, then the pre-step prefix is dropped), which is exactly a
flat-map fold; and a `Child` step follows the spec-side `childStepSpec`
semantics (negative indices address from `child_count + index`, the kinds
filter applies, missing children are skipped).  Hypotheses: no reserved
`Next` step and `isize`-ranged indices (`stepWf`), and `isize`-sized child
counts (`smallCounts`), both type-level facts of the Rust code. -/
theorem c6_tree_path_evaluation (node : STree) (steps : List TreeStep)
    (hwf : steps.all stepWf = true)
    (hsmall : smallCounts node = true) :
    nodes_for_tree_path node steps
      = some (steps.foldl (fun l st => l.flatMap (stepSpec st)) [node]) := by
  unfold nodes_for_tree_path
  exact tree_path_foldl steps [node] hwf (by simpa using hsmall)

/-- A concrete node for the C6 witness: three children with kind ids 7, 5, 5. -/
def c6Node : STree :=
  .node (mkRange 0 10) 0 plainProps
    [.node (mkRange 0 3) 7 plainProps [],
     .node (mkRange 3 6) 5 plainProps [],
     .node (mkRange 6 9) 5 plainProps []]

/-- Witness for C6 at a concrete node and step list (a negative `child`
index with a kinds filter, then a plain `children` step). -/
theorem c6_witness :
    ([TreeStep.child (-1) (some [5]), TreeStep.children none].all stepWf = true)
    ∧ smallCounts c6Node = true
    ∧ nodes_for_tree_path c6Node [TreeStep.child (-1) (some [5]), TreeStep.children none]
        = some ([TreeStep.child (-1) (some [5]), TreeStep.children none].foldl
            (fun l st => l.flatMap (stepSpec st)) [c6Node]) :=
  ⟨by decide, by decide,
    c6_tree_path_evaluation c6Node [TreeStep.child (-1) (some [5]), TreeStep.children none]
      (by decide) (by decide)⟩

/-! ## Claim C8 -/

/-- `impl Deserialize for Scope` (after the string has been extracted; the
underlying deserializer never fails on the match itself, since the wildcard
arm yields `Ok(Scope::Unknown)`). -/
def scope_deserialize (s : String) : Scope :=
  match s with
  | "attribute" => .Attribute
  | "comment" => .Comment
  | "constant" => .Constant
  | "constant.builtin" => .ConstantBuiltin
  | "constructor" => .Constructor
  | "constructor.builtin" => .ConstructorBuiltin
  | "embedded" => .Embedded
  | "escape" => .Escape
  | "function" => .Function
  | "function.builtin" => .FunctionBuiltin
  | "keyword" => .Keyword
  | "number" => .Number
  | "operator" => .Operator
  | "property" => .Property
  | "property.builtin" => .PropertyBuiltin
  | "punctuation" => .Punctuation
  | "punctuation.bracket" => .PunctuationBracket
  | "punctuation.delimiter" => .PunctuationDelimiter
  | "punctuation.special" => .PunctuationSpecial
  | "string" => .String
  | "string.special" => .StringSpecial
  | "type" => .Type
  | "type.builtin" => .TypeBuiltin
  | "variable" => .Variable
  | "variable.builtin" => .VariableBuiltin
  | "tag" => .Tag
  | _ => .Unknown

/-- The scope names with a dedicated arm in `Scope::deserialize`. -/
def recognizedScopeStrings : List String :=
  ["attribute", "comment", "constant", "constant.builtin", "constructor",
   "constructor.builtin", "embedded", "escape", "function", "function.builtin",
   "keyword", "number", "operator", "property", "property.builtin",
   "punctuation", "punctuation.bracket", "punctuation.delimiter",
   "punctuation.special", "string", "string.special", "type", "type.builtin",
   "variable", "variable.builtin", "tag"]

/-- Counterexample to claim C8 as stated: an unrecognized scope string does
map to `Scope::Unknown`, but scope events *are* emitted for nodes in such a
state — the iterator never special-cases `Unknown`.  Here a node whose
properties carry `Some(Scope::Unknown)` produces a `ScopeStart(Unknown)` /
`ScopeEnd(Unknown)` pair. -/
theorem c8_counterexample :
    scope_deserialize "bogus.scope" = .Unknown
    ∧ run emptyRegistry 12 (initState [0x61] (mkLeaf 0 1 (scopedProps .Unknown)))
        = ([.scopeStart .Unknown, .source [0x61], .scopeEnd .Unknown], .finished) :=
  ⟨rfl, by decide⟩

/-- Claim C8, amended: every scope string without a dedicated arm maps to
`Scope::Unknown`; and the iterator emits scope events for *any* scope value
carried by the node's state, `Unknown` included (here, the at-end case:
whenever the front layer is at-end of a node whose properties hold a scope
and no source text is pending, the event is `ScopeEnd` of that scope). -/
theorem c8_unknown_scope_amended :
    (∀ s : String, s ∉ recognizedScopeStrings → scope_deserialize s = .Unknown)
    ∧ (∀ (reg : Registry) (fuel : Nat) (st : HState) (l : Layer) (rest : List Layer)
        (sc : Scope),
        st.utf8_error_len = none → st.layers = l :: rest → l.at_node_end = true →
        l.cursor.node.props.scope = some sc →
        min st.source.length l.offset ≤ st.source_offset →
        next_event reg (fuel + 1) st = .ev (.scopeEnd sc) (advance_front st)) := by
  constructor
  · intro s hs
    unfold scope_deserialize
    split <;> simp_all [recognizedScopeStrings]
  · intro reg fuel st l rest sc hpend hlayers hend hscope hle
    unfold next_event
    rw [hpend]
    unfold next_loop
    rw [hlayers]
    simp only [hend, if_pos, hscope, hlayers]
    rw [if_neg (by omega)]

/-- A concrete state for the C8 witness: front layer at-end of a node whose
state carries scope `Unknown`, source fully emitted. -/
def c8State : HState :=
  { source := [0x61]
    source_offset := 1
    layers := [⟨⟨mkLeaf 0 1 (scopedProps .Unknown), []⟩, [mkRange 0 usizeMax], true, 0⟩]
    utf8_error_len := none
    next_layer_id := 1 }

/-- Witness for C8 (amended): a concrete unrecognized name, and a concrete
state emitting `ScopeEnd(Unknown)`. -/
theorem c8_witness :
    scope_deserialize "totally.bogus" = .Unknown
    ∧ next_event emptyRegistry 5 c8State = .ev (.scopeEnd .Unknown) (advance_front c8State) :=
  ⟨c8_unknown_scope_amended.1 "totally.bogus" (by decide),
   c8_unknown_scope_amended.2 emptyRegistry 4 c8State
     ⟨⟨mkLeaf 0 1 (scopedProps .Unknown), []⟩, [mkRange 0 usizeMax], true, 0⟩ [] .Unknown
     rfl rfl rfl rfl (by decide)⟩

/-! ## Property-sheet compiler (`Properties::new`, `parse_args`,
`flatten_tree_path`) -/

mutual

/-- `TreePathJSON`: tree-path expressions as deserialized from the sheet. -/
inductive TreePathJSON where
  | this
  | childCall (args : List TreePathArgJSON)
  | nextCall (args : List TreePathArgJSON)
  | childrenCall (args : List TreePathArgJSON)

/-- `TreePathArgJSON`: an argument of a tree-path call. -/
inductive TreePathArgJSON where
  | path (p : TreePathJSON)
  | num (i : Int)
  | str (s : String)

end

/-- `InjectionLanguageJSON` (string literals kept as UTF-8 bytes). -/
inductive InjectionLanguageJSON where
  | list (elements : List InjectionLanguageJSON)
  | path (p : TreePathJSON)
  | lit (s : List Nat)

/-- `InjectionContentJSON`. -/
inductive InjectionContentJSON where
  | list (elements : List InjectionContentJSON)
  | path (p : TreePathJSON)

/-- `PropertiesJSON`: one per-state property object. -/
structure PropertiesJSON where
  scope : Option Scope
  injection_language : Option InjectionLanguageJSON
  injection_content : Option InjectionContentJSON

/-- The `Language` operations `parse_args` consults. -/
structure SLanguage where
  node_kind_count : Nat
  node_kind_for_id : Nat → String
  node_kind_is_named : Nat → Bool

/-- The result of compiling: `ok`, a returned `Err(String)` (surfaced as
`InvalidFormat` by `load_property_sheet`), or a `panic!`. -/
inductive CompileOutcome (α : Type) where
  | ok (val : α)
  | err (msg : String)
  | panicked (msg : String)
deriving DecidableEq, Repr

/-- The `for arg in iter` loop of `parse_args` over the non-first
arguments: a tree path is an error, a number overwrites `index`, a string
is appended to `kinds`. -/
def argsLoop (name : String) : List TreePathArgJSON → Option Int → List String →
    Except String (Option Int × List String)
  | [], index, kinds => .ok (index, kinds)
  | .path _ :: _, _, _ =>
    .error ("Other arguments to `" ++ name ++ "()` must be strings or numbers")
  | .num i :: rest, _, kinds => argsLoop name rest (some i) kinds
  | .str s :: rest, index, kinds => argsLoop name rest index (kinds ++ [s])

/-- The kind-resolution loop: ids `0..node_kind_count` whose name is among
`kinds` and which are named. -/
def kindIdsFor (language : SLanguage) (kinds : List String) : List Nat :=
  (List.range language.node_kind_count).filter
    (fun i => kinds.any (fun s => s = language.node_kind_for_id i)
      && language.node_kind_is_named i)

/-- The tail of `parse_args` after the argument loop: resolve kind names,
failing when a non-empty name list resolves to no named kind. -/
def checkKinds (language : SLanguage) (kinds : List String) :
    Except String (Option (List Nat)) :=
  if kinds.length > 0 then
    let kind_ids := kindIdsFor language kinds
    if kind_ids.length = 0 then
      .error ("Non-existent node kinds: " ++ String.intercalate ", " kinds)
    else .ok (some kind_ids)
  else .ok none

/-- `parse_args`: first argument must be a tree path, then the argument
loop, then kind resolution. -/
def parse_args (name : String) (args : List TreePathArgJSON) (language : SLanguage) :
    Except String (TreePathJSON × Option Int × Option (List Nat)) :=
  match args with
  | .path p :: rest =>
    match argsLoop name rest none [] with
    | .error e => .error e
    | .ok (index, kinds) =>
      match checkKinds language kinds with
      | .error e => .error e
      | .ok kindIds => .ok (p, index, kindIds)
  | _ => .error ("First argument to `" ++ name ++ "()` must be a tree path")

/-- `flatten_tree_path`: post-order flattening into a step list.  The
`parse_args` stages are inlined in source order (first-argument check,
argument loop, kind resolution) so that the recursion on the inner path is
structural; the error precedence is exactly the source's. -/
def flatten_tree_path (language : SLanguage) :
    TreePathJSON → List TreeStep → Except String (List TreeStep)
  | .this, steps => .ok steps
  | .childCall args, steps =>
    match args with
    | .path p :: rest =>
      match argsLoop "child" rest none [] with
      | .error e => .error e
      | .ok (index, kinds) =>
        match checkKinds language kinds with
        | .error e => .error e
        | .ok kindIds =>
          match flatten_tree_path language p steps with
          | .error e => .error e
          | .ok steps2 =>
            match index with
            | some i => .ok (steps2 ++ [.child i kindIds])
            | none => .error "The `child` function requires an index"
    | _ => .error "First argument to `child()` must be a tree path"
  | .childrenCall args, steps =>
    match args with
    | .path p :: rest =>
      match argsLoop "children" rest none [] with
      | .error e => .error e
      | .ok (_, kinds) =>
        match checkKinds language kinds with
        | .error e => .error e
        | .ok kindIds =>
          match flatten_tree_path language p steps with
          | .error e => .error e
          | .ok steps2 => .ok (steps2 ++ [.children kindIds])
    | _ => .error "First argument to `children()` must be a tree path"
  | .nextCall args, steps =>
    match args with
    | .path p :: rest =>
      match argsLoop "next" rest none [] with
      | .error e => .error e
      | .ok (_, kinds) =>
        match checkKinds language kinds with
        | .error e => .error e
        | .ok kindIds =>
          match flatten_tree_path language p steps with
          | .error e => .error e
          | .ok steps2 => .ok (steps2 ++ [.next kindIds])
    | _ => .error "First argument to `next()` must be a tree path"

/-- One element of the `injection-language` list. -/
def langElement (language : SLanguage) : InjectionLanguageJSON →
    CompileOutcome InjectionLanguage
  | .path p =>
    match flatten_tree_path language p [] with
    | .error e => .err e
    | .ok steps => .ok (.treePath steps)
  | .lit s => .ok (.literal s)
  | .list _ => .panicked "Injection-language cannot be a list of lists"

/-- The loop over the `injection-language` list. -/
def languagesLoop (language : SLanguage) : List InjectionLanguageJSON →
    CompileOutcome (List InjectionLanguage)
  | [] => .ok []
  | e :: rest =>
    match langElement language e with
    | .err m => .err m
    | .panicked m => .panicked m
    | .ok v =>
      match languagesLoop language rest with
      | .err m => .err m
      | .panicked m => .panicked m
      | .ok vs => .ok (v :: vs)

/-- The `languages` value of `Properties::new`. -/
def computeLanguages (language : SLanguage) : InjectionLanguageJSON →
    CompileOutcome (List InjectionLanguage)
  | .list l => languagesLoop language l
  | .path p =>
    match flatten_tree_path language p [] with
    | .error e => .err e
    | .ok steps => .ok [.treePath steps]
  | .lit s => .ok [.literal s]

/-- One element of the `injection-content` list. -/
def contElement (language : SLanguage) : InjectionContentJSON →
    CompileOutcome (List TreeStep)
  | .path p =>
    match flatten_tree_path language p [] with
    | .error e => .err e
    | .ok steps => .ok steps
  | .list _ => .panicked "Injection-content cannot be a list of lists"

/-- The loop over the `injection-content` list. -/
def contentsLoop (language : SLanguage) : List InjectionContentJSON →
    CompileOutcome (List (List TreeStep))
  | [] => .ok []
  | e :: rest =>
    match contElement language e with
    | .err m => .err m
    | .panicked m => .panicked m
    | .ok v =>
      match contentsLoop language rest with
      | .err m => .err m
      | .panicked m => .panicked m
      | .ok vs => .ok (v :: vs)

/-- The `contents` value of `Properties::new`. -/
def computeContents (language : SLanguage) : InjectionContentJSON →
    CompileOutcome (List (List TreeStep))
  | .list l => contentsLoop language l
  | .path p =>
    match flatten_tree_path language p [] with
    | .error e => .err e
    | .ok steps => .ok [steps]

/-- `Properties::new`. -/
def properties_new (language : SLanguage) (json : PropertiesJSON) :
    CompileOutcome SProperties :=
  match json.injection_language, json.injection_content with
  | none, none => .ok ⟨json.scope, []⟩
  | some _, none => .err "Must specify an injection-content along with an injection-language"
  | none, some _ => .err "Must specify an injection-language along with an injection-content"
  | some lj, some cj =>
    match computeLanguages language lj with
    | .err m => .err m
    | .panicked m => .panicked m
    | .ok languages =>
      match computeContents language cj with
      | .err m => .err m
      | .panicked m => .panicked m
      | .ok contents =>
        if languages.length = contents.length then
          .ok ⟨json.scope, (languages.zip contents).map (fun lc => ⟨lc.1, lc.2⟩)⟩
        else
          .err ("Mismatch: got " ++ toString languages.length
            ++ " injection-language values but " ++ toString contents.length
            ++ " injection-content values")

/-- The `Properties`-level part of `load_property_sheet`
(`sheet.map(|p| Properties::new(p, language))`): the external
`PropertySheet::new` has already produced one `PropertiesJSON` per state;
mapping stops at the first error. -/
def compile_sheet (language : SLanguage) :
    List PropertiesJSON → CompileOutcome (List SProperties)
  | [] => .ok []
  | j :: rest =>
    match properties_new language j with
    | .err m => .err m
    | .panicked m => .panicked m
    | .ok p =>
      match compile_sheet language rest with
      | .err m => .err m
      | .panicked m => .panicked m
      | .ok ps => .ok (p :: ps)

/-- `PropertySheetError` as seen by the caller of `load_property_sheet`
(only the `Properties`-level outcomes are modelled; `InvalidJSON` /
`InvalidRegex` arise inside the external sheet machinery). -/
inductive SheetResult where
  | ok (props : List SProperties)
  | invalidFormat (msg : String)
  | panicked (msg : String)
deriving DecidableEq, Repr

/-- `load_property_sheet` after the external `PropertySheet::new` succeeded:
an `Err(String)` from `Properties::new` is wrapped as `InvalidFormat`. -/
def load_property_sheet_mapped (language : SLanguage)
    (objs : List PropertiesJSON) : SheetResult :=
  match compile_sheet language objs with
  | .ok l => .ok l
  | .err m => .invalidFormat m
  | .panicked m => .panicked m

/-! ## C7/C10 predicates -/

/-- Is the argument a tree path? -/
def argPath : TreePathArgJSON → Bool
  | .path _ => true
  | _ => false

/-- Is the argument a number? -/
def argNum : TreePathArgJSON → Bool
  | .num _ => true
  | _ => false

/-- The string arguments, in order. -/
def argStrs (args : List TreePathArgJSON) : List String :=
  args.filterMap (fun a => match a with | .str s => some s | _ => none)

/-- No nested list among the elements of an `injection-language` value. -/
def langNoNested : InjectionLanguageJSON → Bool
  | .list l => l.all (fun e => match e with | .list _ => false | _ => true)
  | _ => true

/-- No nested list among the elements of an `injection-content` value. -/
def contNoNested : InjectionContentJSON → Bool
  | .list l => l.all (fun e => match e with | .list _ => false | _ => true)
  | _ => true

/-- The JSON-level length of an `injection-language` value. -/
def langLen : InjectionLanguageJSON → Nat
  | .list l => l.length
  | _ => 1

/-- The JSON-level length of an `injection-content` value. -/
def contLen : InjectionContentJSON → Nat
  | .list l => l.length
  | _ => 1

/-- The tree paths of an `injection-language` value (top level and one list
level; deeper levels panic before being flattened). -/
def langPaths : InjectionLanguageJSON → List TreePathJSON
  | .list l => l.filterMap (fun e => match e with | .path p => some p | _ => none)
  | .path p => [p]
  | .lit _ => []

/-- The tree paths of an `injection-content` value. -/
def contPaths : InjectionContentJSON → List TreePathJSON
  | .list l => l.filterMap (fun e => match e with | .path p => some p | _ => none)
  | .path p => [p]

mutual

/-- Some call inside the path is a `child(..)` with no integer index
argument. -/
def pathHasChildNoIndex : TreePathJSON → Bool
  | .this => false
  | .childCall args => !(args.any argNum) || argsHaveChildNoIndex args
  | .childrenCall args => argsHaveChildNoIndex args
  | .nextCall args => argsHaveChildNoIndex args

/-- The same, over argument lists. -/
def argsHaveChildNoIndex : List TreePathArgJSON → Bool
  | [] => false
  | .path p :: rest => pathHasChildNoIndex p || argsHaveChildNoIndex rest
  | .num _ :: rest => argsHaveChildNoIndex rest
  | .str _ :: rest => argsHaveChildNoIndex rest

end

/-- A call whose non-first string arguments are non-empty but resolve to no
named kind id. -/
def callEmptyKinds (language : SLanguage) (args : List TreePathArgJSON) : Bool :=
  let ss := argStrs args.tail
  !ss.isEmpty && (kindIdsFor language ss).isEmpty

mutual

/-- Some call inside the path has a non-empty kinds filter resolving to an
empty named-kind id set. -/
def pathHasEmptyKinds (language : SLanguage) : TreePathJSON → Bool
  | .this => false
  | .childCall args => callEmptyKinds language args || argsHaveEmptyKinds language args
  | .childrenCall args => callEmptyKinds language args || argsHaveEmptyKinds language args
  | .nextCall args => callEmptyKinds language args || argsHaveEmptyKinds language args

/-- The same, over argument lists. -/
def argsHaveEmptyKinds (language : SLanguage) : List TreePathArgJSON → Bool
  | [] => false
  | .path p :: rest => pathHasEmptyKinds language p || argsHaveEmptyKinds language rest
  | .num _ :: rest => argsHaveEmptyKinds language rest
  | .str _ :: rest => argsHaveEmptyKinds language rest

end

theorem argsLoop_no_path (name : String) (rest : List TreePathArgJSON)
    (h : rest.all (fun a => !argPath a) = true) : ∀ i0 k0,
    argsLoop name rest i0 k0
      = .ok (rest.foldl (fun acc a => match a with | .num i => some i | _ => acc) i0,
             k0 ++ argStrs rest) := by
  induction rest with
  | nil => intro i0 k0; simp [argsLoop, argStrs]
  | cons a rest ih =>
    intro i0 k0
    simp only [List.all_cons, Bool.and_eq_true] at h
    cases a with
    | path p => simp [argPath] at h
    | num i =>
      rw [argsLoop, ih h.2 (some i) k0]
      simp [argStrs, List.filterMap_cons]
    | str s =>
      rw [argsLoop, ih h.2 i0 (k0 ++ [s])]
      simp [argStrs, List.filterMap_cons]

theorem argsLoop_with_path (name : String) (rest : List TreePathArgJSON)
    (h : rest.any argPath = true) : ∀ i0 k0, ∃ m, argsLoop name rest i0 k0 = .error m := by
  induction rest with
  | nil => simp at h
  | cons a rest ih =>
    intro i0 k0
    cases a with
    | path p => exact ⟨_, rfl⟩
    | num i =>
      simp only [List.any_cons, argNum, Bool.or_eq_true] at h
      rcases h with h | h
      · simp [argPath] at h
      · exact ih h (some i) k0
    | str s =>
      simp only [List.any_cons, argNum, Bool.or_eq_true] at h
      rcases h with h | h
      · simp [argPath] at h
      · exact ih h i0 (k0 ++ [s])

theorem argsHaveChildNoIndex_any_path (args : List TreePathArgJSON)
    (h : argsHaveChildNoIndex args = true) : args.any argPath = true := by
  induction args with
  | nil => simp [argsHaveChildNoIndex] at h
  | cons a rest ih =>
    cases a with
    | path p => simp [argPath]
    | num i =>
      rw [argsHaveChildNoIndex] at h
      simp only [List.any_cons, argPath, Bool.false_or]
      exact ih h
    | str s =>
      rw [argsHaveChildNoIndex] at h
      simp only [List.any_cons, argPath, Bool.false_or]
      exact ih h

theorem argsHaveEmptyKinds_any_path (language : SLanguage) (args : List TreePathArgJSON)
    (h : argsHaveEmptyKinds language args = true) : args.any argPath = true := by
  induction args with
  | nil => simp [argsHaveEmptyKinds] at h
  | cons a rest ih =>
    cases a with
    | path p => simp [argPath]
    | num i =>
      rw [argsHaveEmptyKinds] at h
      simp only [List.any_cons, argPath, Bool.false_or]
      exact ih h
    | str s =>
      rw [argsHaveEmptyKinds] at h
      simp only [List.any_cons, argPath, Bool.false_or]
      exact ih h

theorem foldl_num_none (rest : List TreePathArgJSON) (h : rest.any argNum = false) :
    ∀ i0, i0 = none →
    rest.foldl (fun acc a => match a with | .num i => some i | _ => acc) i0
      = (none : Option Int) := by
  induction rest with
  | nil => intro i0 hi; simpa using hi
  | cons a rest ih =>
    intro i0 hi
    simp only [List.any_cons, Bool.or_eq_false_iff] at h
    cases a with
    | path p => exact ih h.2 i0 hi
    | num i => simp [argNum] at h
    | str s => exact ih h.2 i0 hi

theorem flatten_err_childNoIndex_aux (language : SLanguage) (n : Nat) :
    ∀ (p : TreePathJSON), sizeOf p ≤ n → pathHasChildNoIndex p = true →
      ∀ steps, ∃ m, flatten_tree_path language p steps = .error m := by
  induction n with
  | zero =>
    intro p hsz h steps
    cases p <;> simp at hsz
  | succ n ih =>
    intro p hsz h steps
    cases p with
    | this => simp [pathHasChildNoIndex] at h
    | childCall args =>
      rw [pathHasChildNoIndex, Bool.or_eq_true] at h
      cases args with
      | nil => exact ⟨_, rfl⟩
      | cons a rest =>
        cases a with
        | num i => exact ⟨_, rfl⟩
        | str s => exact ⟨_, rfl⟩
        | path p1 =>
          by_cases hpath : rest.any argPath = true
          · obtain ⟨m, hm⟩ := argsLoop_with_path "child" rest hpath none []
            exact ⟨m, by simp only [flatten_tree_path, hm]⟩
          · have hnp : rest.all (fun x => !argPath x) = true := by
              rw [List.all_eq_true]
              intro x hx
              by_contra hc
              exact hpath (List.any_eq_true.mpr
                ⟨x, hx, by revert hc; cases argPath x <;> simp⟩)
            have hloop := argsLoop_no_path "child" rest hnp none []
            have hrests : argsHaveChildNoIndex rest = false := by
              by_contra hc
              exact hpath (argsHaveChildNoIndex_any_path rest
                (by revert hc; cases argsHaveChildNoIndex rest <;> simp))
            rcases hck : checkKinds language ([] ++ argStrs rest) with e | kindIds
            · exact ⟨e, by simp only [flatten_tree_path, hloop, hck]⟩
            · have hp1sz : sizeOf p1 ≤ n := by
                have hlt : sizeOf p1
                    < sizeOf (TreePathJSON.childCall (TreePathArgJSON.path p1 :: rest)) := by
                  simp
                  omega
                omega
              by_cases hp1 : pathHasChildNoIndex p1 = true
              · obtain ⟨m, hm⟩ := ih p1 hp1sz hp1 steps
                exact ⟨m, by simp only [flatten_tree_path, hloop, hck, hm]⟩
              · have h1 : (TreePathArgJSON.path p1 :: rest).any argNum = false := by
                  rcases h with h1 | h2
                  · revert h1
                    cases (TreePathArgJSON.path p1 :: rest).any argNum <;> simp
                  · rw [argsHaveChildNoIndex, Bool.or_eq_true] at h2
                    rcases h2 with h2 | h2
                    · exact absurd h2 hp1
                    · exact absurd h2 (by simp [hrests])
                have hnonum : rest.any argNum = false := by
                  simpa [List.any_cons, argNum] using h1
                rw [foldl_num_none rest hnonum none rfl] at hloop
                rcases hres : flatten_tree_path language p1 steps with e | steps2
                · exact ⟨e, by simp only [flatten_tree_path, hloop, hck, hres]⟩
                · exact ⟨"The `child` function requires an index",
                    by simp only [flatten_tree_path, hloop, hck, hres]⟩
    | childrenCall args =>
      rw [pathHasChildNoIndex] at h
      cases args with
      | nil => simp [argsHaveChildNoIndex] at h
      | cons a rest =>
        cases a with
        | num i => exact ⟨_, rfl⟩
        | str s => exact ⟨_, rfl⟩
        | path p1 =>
          by_cases hpath : rest.any argPath = true
          · obtain ⟨m, hm⟩ := argsLoop_with_path "children" rest hpath none []
            exact ⟨m, by simp only [flatten_tree_path, hm]⟩
          · have hnp : rest.all (fun x => !argPath x) = true := by
              rw [List.all_eq_true]
              intro x hx
              by_contra hc
              exact hpath (List.any_eq_true.mpr
                ⟨x, hx, by revert hc; cases argPath x <;> simp⟩)
            have hloop := argsLoop_no_path "children" rest hnp none []
            have hrests : argsHaveChildNoIndex rest = false := by
              by_contra hc
              exact hpath (argsHaveChildNoIndex_any_path rest
                (by revert hc; cases argsHaveChildNoIndex rest <;> simp))
            have hp1 : pathHasChildNoIndex p1 = true := by
              rw [argsHaveChildNoIndex, Bool.or_eq_true] at h
              rcases h with h | h
              · exact h
              · exact absurd h (by simp [hrests])
            have hp1sz : sizeOf p1 ≤ n := by
              have hlt : sizeOf p1
                  < sizeOf (TreePathJSON.childrenCall (TreePathArgJSON.path p1 :: rest)) := by
                simp
                omega
              omega
            rcases hck : checkKinds language ([] ++ argStrs rest) with e | kindIds
            · exact ⟨e, by simp only [flatten_tree_path, hloop, hck]⟩
            · obtain ⟨m, hm⟩ := ih p1 hp1sz hp1 steps
              exact ⟨m, by simp only [flatten_tree_path, hloop, hck, hm]⟩
    | nextCall args =>
      rw [pathHasChildNoIndex] at h
      cases args with
      | nil => simp [argsHaveChildNoIndex] at h
      | cons a rest =>
        cases a with
        | num i => exact ⟨_, rfl⟩
        | str s => exact ⟨_, rfl⟩
        | path p1 =>
          by_cases hpath : rest.any argPath = true
          · obtain ⟨m, hm⟩ := argsLoop_with_path "next" rest hpath none []
            exact ⟨m, by simp only [flatten_tree_path, hm]⟩
          · have hnp : rest.all (fun x => !argPath x) = true := by
              rw [List.all_eq_true]
              intro x hx
              by_contra hc
              exact hpath (List.any_eq_true.mpr
                ⟨x, hx, by revert hc; cases argPath x <;> simp⟩)
            have hloop := argsLoop_no_path "next" rest hnp none []
            have hrests : argsHaveChildNoIndex rest = false := by
              by_contra hc
              exact hpath (argsHaveChildNoIndex_any_path rest
                (by revert hc; cases argsHaveChildNoIndex rest <;> simp))
            have hp1 : pathHasChildNoIndex p1 = true := by
              rw [argsHaveChildNoIndex, Bool.or_eq_true] at h
              rcases h with h | h
              · exact h
              · exact absurd h (by simp [hrests])
            have hp1sz : sizeOf p1 ≤ n := by
              have hlt : sizeOf p1
                  < sizeOf (TreePathJSON.nextCall (TreePathArgJSON.path p1 :: rest)) := by
                simp
                omega
              omega
            rcases hck : checkKinds language ([] ++ argStrs rest) with e | kindIds
            · exact ⟨e, by simp only [flatten_tree_path, hloop, hck]⟩
            · obtain ⟨m, hm⟩ := ih p1 hp1sz hp1 steps
              exact ⟨m, by simp only [flatten_tree_path, hloop, hck, hm]⟩

theorem checkKinds_err (language : SLanguage) (ss : List String)
    (h1 : ss.isEmpty = false) (h2 : (kindIdsFor language ss).isEmpty = true) :
    ∃ e, checkKinds language ss = .error e := by
  have hl : ss.length > 0 := by
    cases ss with
    | nil => simp at h1
    | cons a l => simp
  have hk : (kindIdsFor language ss).length = 0 := by
    rwa [List.isEmpty_iff_length_eq_zero] at h2
  refine ⟨"Non-existent node kinds: " ++ String.intercalate ", " ss, ?_⟩
  simp only [checkKinds]
  rw [if_pos hl, if_pos hk]

theorem flatten_err_emptyKinds_aux (language : SLanguage) (n : Nat) :
    ∀ (p : TreePathJSON), sizeOf p ≤ n → pathHasEmptyKinds language p = true →
      ∀ steps, ∃ m, flatten_tree_path language p steps = .error m := by
  induction n with
  | zero =>
    intro p hsz h steps
    cases p <;> simp at hsz
  | succ n ih =>
    intro p hsz h steps
    cases p with
    | this => simp [pathHasEmptyKinds] at h
    | childCall args =>
      rw [pathHasEmptyKinds, Bool.or_eq_true] at h
      cases args with
      | nil =>
        rcases h with h | h
        · simp [callEmptyKinds, argStrs] at h
        · simp [argsHaveEmptyKinds] at h
      | cons a rest =>
        cases a with
        | num i => exact ⟨_, rfl⟩
        | str s2 => exact ⟨_, rfl⟩
        | path p1 =>
          by_cases hpath : rest.any argPath = true
          · obtain ⟨m, hm⟩ := argsLoop_with_path "child" rest hpath none []
            exact ⟨m, by simp only [flatten_tree_path, hm]⟩
          · have hnp : rest.all (fun x => !argPath x) = true := by
              rw [List.all_eq_true]
              intro x hx
              by_contra hc
              exact hpath (List.any_eq_true.mpr
                ⟨x, hx, by revert hc; cases argPath x <;> simp⟩)
            have hloop := argsLoop_no_path "child" rest hnp none []
            by_cases hbad : callEmptyKinds language (TreePathArgJSON.path p1 :: rest) = true
            · simp only [callEmptyKinds, List.tail_cons, Bool.and_eq_true,
                Bool.not_eq_true'] at hbad
              obtain ⟨hb1, hb2⟩ := hbad
              obtain ⟨e, hck⟩ := checkKinds_err language (argStrs rest) hb1
                (by rwa [List.isEmpty_iff_length_eq_zero,
                  ← List.isEmpty_iff_length_eq_zero] at hb2)
              exact ⟨e, by simp only [flatten_tree_path, hloop, List.nil_append, hck]⟩
            · have hrests : argsHaveEmptyKinds language rest = false := by
                by_contra hc
                exact hpath (argsHaveEmptyKinds_any_path language rest
                  (by revert hc; cases argsHaveEmptyKinds language rest <;> simp))
              have hp1 : pathHasEmptyKinds language p1 = true := by
                rcases h with h | h
                · exact absurd h hbad
                · rw [argsHaveEmptyKinds, Bool.or_eq_true] at h
                  rcases h with h | h
                  · exact h
                  · exact absurd h (by simp [hrests])
              have hp1sz : sizeOf p1 ≤ n := by
                have hlt : sizeOf p1
                    < sizeOf (TreePathJSON.childCall (TreePathArgJSON.path p1 :: rest)) := by
                  simp
                  omega
                omega
              rcases hck : checkKinds language ([] ++ argStrs rest) with e | kindIds
              · exact ⟨e, by simp only [flatten_tree_path, hloop, hck]⟩
              · obtain ⟨m, hm⟩ := ih p1 hp1sz hp1 steps
                exact ⟨m, by simp only [flatten_tree_path, hloop, hck, hm]⟩
    | childrenCall args =>
      rw [pathHasEmptyKinds, Bool.or_eq_true] at h
      cases args with
      | nil =>
        rcases h with h | h
        · simp [callEmptyKinds, argStrs] at h
        · simp [argsHaveEmptyKinds] at h
      | cons a rest =>
        cases a with
        | num i => exact ⟨_, rfl⟩
        | str s2 => exact ⟨_, rfl⟩
        | path p1 =>
          by_cases hpath : rest.any argPath = true
          · obtain ⟨m, hm⟩ := argsLoop_with_path "children" rest hpath none []
            exact ⟨m, by simp only [flatten_tree_path, hm]⟩
          · have hnp : rest.all (fun x => !argPath x) = true := by
              rw [List.all_eq_true]
              intro x hx
              by_contra hc
              exact hpath (List.any_eq_true.mpr
                ⟨x, hx, by revert hc; cases argPath x <;> simp⟩)
            have hloop := argsLoop_no_path "children" rest hnp none []
            by_cases hbad : callEmptyKinds language (TreePathArgJSON.path p1 :: rest) = true
            · simp only [callEmptyKinds, List.tail_cons, Bool.and_eq_true,
                Bool.not_eq_true'] at hbad
              obtain ⟨hb1, hb2⟩ := hbad
              obtain ⟨e, hck⟩ := checkKinds_err language (argStrs rest) hb1
                (by rwa [List.isEmpty_iff_length_eq_zero,
                  ← List.isEmpty_iff_length_eq_zero] at hb2)
              exact ⟨e, by simp only [flatten_tree_path, hloop, List.nil_append, hck]⟩
            · have hrests : argsHaveEmptyKinds language rest = false := by
                by_contra hc
                exact hpath (argsHaveEmptyKinds_any_path language rest
                  (by revert hc; cases argsHaveEmptyKinds language rest <;> simp))
              have hp1 : pathHasEmptyKinds language p1 = true := by
                rcases h with h | h
                · exact absurd h hbad
                · rw [argsHaveEmptyKinds, Bool.or_eq_true] at h
                  rcases h with h | h
                  · exact h
                  · exact absurd h (by simp [hrests])
              have hp1sz : sizeOf p1 ≤ n := by
                have hlt : sizeOf p1
                    < sizeOf (TreePathJSON.childrenCall (TreePathArgJSON.path p1 :: rest)) := by
                  simp
                  omega
                omega
              rcases hck : checkKinds language ([] ++ argStrs rest) with e | kindIds
              · exact ⟨e, by simp only [flatten_tree_path, hloop, hck]⟩
              · obtain ⟨m, hm⟩ := ih p1 hp1sz hp1 steps
                exact ⟨m, by simp only [flatten_tree_path, hloop, hck, hm]⟩
    | nextCall args =>
      rw [pathHasEmptyKinds, Bool.or_eq_true] at h
      cases args with
      | nil =>
        rcases h with h | h
        · simp [callEmptyKinds, argStrs] at h
        · simp [argsHaveEmptyKinds] at h
      | cons a rest =>
        cases a with
        | num i => exact ⟨_, rfl⟩
        | str s2 => exact ⟨_, rfl⟩
        | path p1 =>
          by_cases hpath : rest.any argPath = true
          · obtain ⟨m, hm⟩ := argsLoop_with_path "next" rest hpath none []
            exact ⟨m, by simp only [flatten_tree_path, hm]⟩
          · have hnp : rest.all (fun x => !argPath x) = true := by
              rw [List.all_eq_true]
              intro x hx
              by_contra hc
              exact hpath (List.any_eq_true.mpr
                ⟨x, hx, by revert hc; cases argPath x <;> simp⟩)
            have hloop := argsLoop_no_path "next" rest hnp none []
            by_cases hbad : callEmptyKinds language (TreePathArgJSON.path p1 :: rest) = true
            · simp only [callEmptyKinds, List.tail_cons, Bool.and_eq_true,
                Bool.not_eq_true'] at hbad
              obtain ⟨hb1, hb2⟩ := hbad
              obtain ⟨e, hck⟩ := checkKinds_err language (argStrs rest) hb1
                (by rwa [List.isEmpty_iff_length_eq_zero,
                  ← List.isEmpty_iff_length_eq_zero] at hb2)
              exact ⟨e, by simp only [flatten_tree_path, hloop, List.nil_append, hck]⟩
            · have hrests : argsHaveEmptyKinds language rest = false := by
                by_contra hc
                exact hpath (argsHaveEmptyKinds_any_path language rest
                  (by revert hc; cases argsHaveEmptyKinds language rest <;> simp))
              have hp1 : pathHasEmptyKinds language p1 = true := by
                rcases h with h | h
                · exact absurd h hbad
                · rw [argsHaveEmptyKinds, Bool.or_eq_true] at h
                  rcases h with h | h
                  · exact h
                  · exact absurd h (by simp [hrests])
              have hp1sz : sizeOf p1 ≤ n := by
                have hlt : sizeOf p1
                    < sizeOf (TreePathJSON.nextCall (TreePathArgJSON.path p1 :: rest)) := by
                  simp
                  omega
                omega
              rcases hck : checkKinds language ([] ++ argStrs rest) with e | kindIds
              · exact ⟨e, by simp only [flatten_tree_path, hloop, hck]⟩
              · obtain ⟨m, hm⟩ := ih p1 hp1sz hp1 steps
                exact ⟨m, by simp only [flatten_tree_path, hloop, hck, hm]⟩

/-- A path that always fails to flatten makes the language loop fail (no
panic can precede it when no element is a nested list). -/
theorem languagesLoop_err_of_badpath (language : SLanguage)
    (l : List InjectionLanguageJSON)
    (hnn : l.all (fun e => match e with | .list _ => false | _ => true) = true)
    (hbad : ∃ p ∈ l.filterMap (fun e => match e with | .path p => some p | _ => none),
      ∀ steps, ∃ m, flatten_tree_path language p steps = .error m) :
    ∃ m, languagesLoop language l = .err m := by
  induction l with
  | nil => simp at hbad
  | cons e rest ih =>
    simp only [List.all_cons, Bool.and_eq_true] at hnn
    cases e with
    | list l2 => simp at hnn
    | lit s =>
      obtain ⟨m, hm⟩ := ih hnn.2 (by simpa [List.filterMap_cons] using hbad)
      exact ⟨m, by simp only [languagesLoop, langElement, hm]⟩
    | path p =>
      rcases hres : flatten_tree_path language p [] with e2 | steps
      · exact ⟨e2, by simp only [languagesLoop, langElement, hres]⟩
      · simp only [List.filterMap_cons] at hbad
        obtain ⟨q, hq, herr⟩ := hbad
        rcases List.mem_cons.mp hq with rfl | hq2
        · obtain ⟨m, hm⟩ := herr []
          exact absurd hres (by rw [hm]; simp)
        · obtain ⟨m, hm⟩ := ih hnn.2 ⟨q, hq2, herr⟩
          exact ⟨m, by simp only [languagesLoop, langElement, hres, hm]⟩

/-- Same for the content loop. -/
theorem contentsLoop_err_of_badpath (language : SLanguage)
    (l : List InjectionContentJSON)
    (hnn : l.all (fun e => match e with | .list _ => false | _ => true) = true)
    (hbad : ∃ p ∈ l.filterMap (fun e => match e with | .path p => some p | _ => none),
      ∀ steps, ∃ m, flatten_tree_path language p steps = .error m) :
    ∃ m, contentsLoop language l = .err m := by
  induction l with
  | nil => simp at hbad
  | cons e rest ih =>
    simp only [List.all_cons, Bool.and_eq_true] at hnn
    cases e with
    | list l2 => simp at hnn
    | path p =>
      rcases hres : flatten_tree_path language p [] with e2 | steps
      · exact ⟨e2, by simp only [contentsLoop, contElement, hres]⟩
      · simp only [List.filterMap_cons] at hbad
        obtain ⟨q, hq, herr⟩ := hbad
        rcases List.mem_cons.mp hq with rfl | hq2
        · obtain ⟨m, hm⟩ := herr []
          exact absurd hres (by rw [hm]; simp)
        · obtain ⟨m, hm⟩ := ih hnn.2 ⟨q, hq2, herr⟩
          exact ⟨m, by simp only [contentsLoop, contElement, hres, hm]⟩

theorem computeLanguages_err_of_badpath (language : SLanguage)
    (lj : InjectionLanguageJSON) (hnn : langNoNested lj = true)
    (hbad : ∃ p ∈ langPaths lj,
      ∀ steps, ∃ m, flatten_tree_path language p steps = .error m) :
    ∃ m, computeLanguages language lj = .err m := by
  cases lj with
  | list l => exact languagesLoop_err_of_badpath language l hnn hbad
  | lit s => simp [langPaths] at hbad
  | path p =>
    simp only [langPaths, List.mem_singleton] at hbad
    obtain ⟨q, rfl, herr⟩ := hbad
    obtain ⟨m, hm⟩ := herr []
    exact ⟨m, by simp only [computeLanguages, hm]⟩

theorem computeContents_err_of_badpath (language : SLanguage)
    (cj : InjectionContentJSON) (hnn : contNoNested cj = true)
    (hbad : ∃ p ∈ contPaths cj,
      ∀ steps, ∃ m, flatten_tree_path language p steps = .error m) :
    ∃ m, computeContents language cj = .err m := by
  cases cj with
  | list l => exact contentsLoop_err_of_badpath language l hnn hbad
  | path p =>
    simp only [contPaths, List.mem_singleton] at hbad
    obtain ⟨q, rfl, herr⟩ := hbad
    obtain ⟨m, hm⟩ := herr []
    exact ⟨m, by simp only [computeContents, hm]⟩

theorem languagesLoop_no_panic (language : SLanguage) (l : List InjectionLanguageJSON)
    (hnn : l.all (fun e => match e with | .list _ => false | _ => true) = true) :
    ∀ m, languagesLoop language l ≠ .panicked m := by
  induction l with
  | nil => intro m h; simp [languagesLoop] at h
  | cons e rest ih =>
    intro m h
    simp only [List.all_cons, Bool.and_eq_true] at hnn
    rw [languagesLoop] at h
    cases e with
    | list l2 => simp at hnn
    | lit s =>
      simp only [langElement] at h
      rcases hr : languagesLoop language rest with v | m2 | m2 <;> rw [hr] at h
      · exact CompileOutcome.noConfusion h
      · exact CompileOutcome.noConfusion h
      · exact ih hnn.2 m2 hr
    | path p =>
      rcases hres : flatten_tree_path language p [] with e2 | steps <;>
        simp only [langElement, hres] at h
      · exact CompileOutcome.noConfusion h
      · rcases hr : languagesLoop language rest with v | m2 | m2 <;> rw [hr] at h
        · exact CompileOutcome.noConfusion h
        · exact CompileOutcome.noConfusion h
        · exact ih hnn.2 m2 hr

theorem contentsLoop_no_panic (language : SLanguage) (l : List InjectionContentJSON)
    (hnn : l.all (fun e => match e with | .list _ => false | _ => true) = true) :
    ∀ m, contentsLoop language l ≠ .panicked m := by
  induction l with
  | nil => intro m h; simp [contentsLoop] at h
  | cons e rest ih =>
    intro m h
    simp only [List.all_cons, Bool.and_eq_true] at hnn
    rw [contentsLoop] at h
    cases e with
    | list l2 => simp at hnn
    | path p =>
      rcases hres : flatten_tree_path language p [] with e2 | steps <;>
        simp only [contElement, hres] at h
      · exact CompileOutcome.noConfusion h
      · rcases hr : contentsLoop language rest with v | m2 | m2 <;> rw [hr] at h
        · exact CompileOutcome.noConfusion h
        · exact CompileOutcome.noConfusion h
        · exact ih hnn.2 m2 hr

theorem computeLanguages_no_panic (language : SLanguage) (lj : InjectionLanguageJSON)
    (hnn : langNoNested lj = true) :
    ∀ m, computeLanguages language lj ≠ .panicked m := by
  cases lj with
  | list l => exact languagesLoop_no_panic language l hnn
  | lit s => intro m h; simp [computeLanguages] at h
  | path p =>
    intro m h
    rcases hres : flatten_tree_path language p [] with e2 | steps <;>
      simp [computeLanguages, hres] at h

theorem computeContents_no_panic (language : SLanguage) (cj : InjectionContentJSON)
    (hnn : contNoNested cj = true) :
    ∀ m, computeContents language cj ≠ .panicked m := by
  cases cj with
  | list l => exact contentsLoop_no_panic language l hnn
  | path p =>
    intro m h
    rcases hres : flatten_tree_path language p [] with e2 | steps <;>
      simp [computeContents, hres] at h

theorem languagesLoop_ok_length (language : SLanguage) (l : List InjectionLanguageJSON)
    (vs : List InjectionLanguage) (h : languagesLoop language l = .ok vs) :
    vs.length = l.length := by
  induction l generalizing vs with
  | nil => simp [languagesLoop] at h; simp [← h]
  | cons e rest ih =>
    rw [languagesLoop] at h
    rcases he : langElement language e with v | m | m <;> rw [he] at h <;> try simp at h
    rcases hr : languagesLoop language rest with vs2 | m | m <;> rw [hr] at h <;>
      try simp at h
    rw [← h]
    simp [ih vs2 hr]

theorem contentsLoop_ok_length (language : SLanguage) (l : List InjectionContentJSON)
    (vs : List (List TreeStep)) (h : contentsLoop language l = .ok vs) :
    vs.length = l.length := by
  induction l generalizing vs with
  | nil => simp [contentsLoop] at h; simp [← h]
  | cons e rest ih =>
    rw [contentsLoop] at h
    rcases he : contElement language e with v | m | m <;> rw [he] at h <;> try simp at h
    rcases hr : contentsLoop language rest with vs2 | m | m <;> rw [hr] at h <;>
      try simp at h
    rw [← h]
    simp [ih vs2 hr]

theorem computeLanguages_ok_length (language : SLanguage) (lj : InjectionLanguageJSON)
    (vs : List InjectionLanguage) (h : computeLanguages language lj = .ok vs) :
    vs.length = langLen lj := by
  cases lj with
  | list l => simpa [langLen] using languagesLoop_ok_length language l vs h
  | lit s => simp [computeLanguages] at h; simp [← h, langLen]
  | path p =>
    rcases hres : flatten_tree_path language p [] with e2 | steps <;>
      rw [computeLanguages, hres] at h <;> try simp at h
    simp [← h, langLen]

theorem computeContents_ok_length (language : SLanguage) (cj : InjectionContentJSON)
    (vs : List (List TreeStep)) (h : computeContents language cj = .ok vs) :
    vs.length = contLen cj := by
  cases cj with
  | list l => simpa [contLen] using contentsLoop_ok_length language l vs h
  | path p =>
    rcases hres : flatten_tree_path language p [] with e2 | steps <;>
      rw [computeContents, hres] at h <;> try simp at h
    simp [← h, contLen]

/-! ## Claim C7 -/

/-- A trivial `Language` (no node kinds). -/
def trivialLanguage : SLanguage := ⟨0, fun _ => "", fun _ => false⟩

/-- Counterexample to claim C7 as stated: the injection-language and
injection-content lists have different lengths (1 vs 2), yet compilation
does not return an `InvalidFormat` error — it panics first, because the
language list contains a nested list and `Properties::new` hits the
`panic!("Injection-language cannot be a list of lists")` arm before the
length comparison. -/
theorem c7_counterexample :
    langLen (.list [.list []]) ≠ contLen (.list [.path .this, .path .this])
    ∧ properties_new trivialLanguage
        { scope := none,
          injection_language := some (.list [.list []]),
          injection_content := some (.list [.path .this, .path .this]) }
        = .panicked "Injection-language cannot be a list of lists"
    ∧ load_property_sheet_mapped trivialLanguage
        [{ scope := none,
           injection_language := some (.list [.list []]),
           injection_content := some (.list [.path .this, .path .this]) }]
        = .panicked "Injection-language cannot be a list of lists" :=
  ⟨by decide, rfl, rfl⟩

/-- Claim C7, amended: provided neither injection value contains a nested
list (which would panic instead), compilation returns an `InvalidFormat`
error — and no compiled sheet — whenever the injection-language and
injection-content values have different JSON lengths, or any tree path in
either value contains a `child` call with no integer index argument, or any
call whose kind names resolve to an empty set of named kind ids. -/
theorem c7_invalid_format (language : SLanguage) (json : PropertiesJSON)
    (hnnl : ∀ lj, json.injection_language = some lj → langNoNested lj = true)
    (hnnc : ∀ cj, json.injection_content = some cj → contNoNested cj = true)
    (hcond :
      (∃ lj cj, json.injection_language = some lj ∧ json.injection_content = some cj
        ∧ langLen lj ≠ contLen cj)
      ∨ (∃ lj, json.injection_language = some lj
          ∧ ∃ p ∈ langPaths lj,
              pathHasChildNoIndex p = true ∨ pathHasEmptyKinds language p = true)
      ∨ (∃ cj, json.injection_content = some cj
          ∧ ∃ p ∈ contPaths cj,
              pathHasChildNoIndex p = true ∨ pathHasEmptyKinds language p = true)) :
    ∃ m, properties_new language json = .err m
      ∧ load_property_sheet_mapped language [json] = .invalidFormat m := by
  have hflat : ∀ p : TreePathJSON,
      pathHasChildNoIndex p = true ∨ pathHasEmptyKinds language p = true →
      ∀ steps, ∃ m, flatten_tree_path language p steps = .error m := by
    intro p hp steps
    rcases hp with hp | hp
    · exact flatten_err_childNoIndex_aux language (sizeOf p) p le_rfl hp steps
    · exact flatten_err_emptyKinds_aux language (sizeOf p) p le_rfl hp steps
  have hmain : ∃ m, properties_new language json = .err m := by
    rcases hcond with ⟨lj, cj, hl, hc, hne⟩ | ⟨lj, hl, p, hp, hbadp⟩ | ⟨cj, hc, p, hp, hbadp⟩
    · rcases hcl : computeLanguages language lj with langs | m | m
      · rcases hcc : computeContents language cj with conts | m | m
        · have hll := computeLanguages_ok_length language lj langs hcl
          have hcl2 := computeContents_ok_length language cj conts hcc
          refine ⟨"Mismatch: got " ++ toString langs.length
            ++ " injection-language values but " ++ toString conts.length
            ++ " injection-content values", ?_⟩
          simp only [properties_new, hl, hc, hcl, hcc]
          rw [if_neg (by omega)]
        · exact ⟨m, by simp only [properties_new, hl, hc, hcl, hcc]⟩
        · exact absurd hcc (computeContents_no_panic language cj (hnnc cj hc) m)
      · exact ⟨m, by simp only [properties_new, hl, hc, hcl]⟩
      · exact absurd hcl (computeLanguages_no_panic language lj (hnnl lj hl) m)
    · obtain ⟨m, hm⟩ := computeLanguages_err_of_badpath language lj (hnnl lj hl)
        ⟨p, hp, hflat p hbadp⟩
      rcases hc : json.injection_content with _ | cj
      · exact ⟨"Must specify an injection-content along with an injection-language",
          by simp only [properties_new, hl, hc]⟩
      · exact ⟨m, by simp only [properties_new, hl, hc, hm]⟩
    · obtain ⟨m, hm⟩ := computeContents_err_of_badpath language cj (hnnc cj hc)
        ⟨p, hp, hflat p hbadp⟩
      rcases hl : json.injection_language with _ | lj
      · exact ⟨"Must specify an injection-language along with an injection-content",
          by simp only [properties_new, hl, hc]⟩
      · rcases hcl : computeLanguages language lj with langs | m2 | m2
        · exact ⟨m, by simp only [properties_new, hl, hc, hcl, hm]⟩
        · exact ⟨m2, by simp only [properties_new, hl, hc, hcl]⟩
        · exact absurd hcl (computeLanguages_no_panic language lj (hnnl lj hl) m2)
  obtain ⟨m, hm⟩ := hmain
  exact ⟨m, hm, by simp only [load_property_sheet_mapped, compile_sheet, hm]⟩

/-- Witness for C7 (amended): a literal language value paired with a
two-element content list (JSON lengths 1 vs 2, no nested lists) yields an
`InvalidFormat` error. -/
theorem c7_witness :
    ∃ m, properties_new trivialLanguage
        { scope := none,
          injection_language := some (.lit [0x61]),
          injection_content := some (.list [.path .this, .path .this]) }
        = .err m
      ∧ load_property_sheet_mapped trivialLanguage
          [{ scope := none,
             injection_language := some (.lit [0x61]),
             injection_content := some (.list [.path .this, .path .this]) }]
          = .invalidFormat m :=
  c7_invalid_format trivialLanguage
    { scope := none,
      injection_language := some (.lit [0x61]),
      injection_content := some (.list [.path .this, .path .this]) }
    (fun lj h => by cases h; decide)
    (fun cj h => by cases h; decide)
    (Or.inl ⟨.lit [0x61], .list [.path .this, .path .this], rfl, rfl, by decide⟩)

/-! ## Claim C10 -/

/-- Counterexample to claim C10 as stated: a state whose injection-language
value is a list containing a nested list, but whose injection-content is
absent, makes `Properties::new` return the missing-content `Err` — the
match on the field pair comes first, so no panic occurs. -/
theorem c10_counterexample :
    properties_new trivialLanguage
      { scope := none,
        injection_language := some (.list [.list []]),
        injection_content := none }
      = .err "Must specify an injection-content along with an injection-language" := rfl

theorem languagesLoop_panics_at_nested (language : SLanguage)
    (pre post l2 : List InjectionLanguageJSON)
    (hpre : ∀ e ∈ pre, ∃ v, langElement language e = .ok v) :
    languagesLoop language (pre ++ .list l2 :: post)
      = .panicked "Injection-language cannot be a list of lists" := by
  induction pre with
  | nil => rfl
  | cons e pre ih =>
    obtain ⟨v, hv⟩ := hpre e (by simp)
    have ih2 := ih (fun x hx => hpre x (by simp [hx]))
    simp only [List.cons_append, languagesLoop, hv]
    rw [List.append_eq, ih2]

theorem contentsLoop_panics_at_nested (language : SLanguage)
    (pre post l2 : List InjectionContentJSON)
    (hpre : ∀ e ∈ pre, ∃ v, contElement language e = .ok v) :
    contentsLoop language (pre ++ .list l2 :: post)
      = .panicked "Injection-content cannot be a list of lists" := by
  induction pre with
  | nil => rfl
  | cons e pre ih =>
    obtain ⟨v, hv⟩ := hpre e (by simp)
    have ih2 := ih (fun x hx => hpre x (by simp [hx]))
    simp only [List.cons_append, contentsLoop, hv]
    rw [List.append_eq, ih2]

/-- Claim C10, amended: `Properties::new` panics (rather than returning a
`Result`) on a nested injection list *provided* the other injection field
is present and nothing errors first: for a nested list inside
`injection-language`, every earlier list element must compile; for a nested
list inside `injection-content`, the whole `injection-language` value must
compile as well.  (Otherwise the earlier `Err` is returned instead — see
the counterexample.) -/
theorem c10_nested_list_panics (language : SLanguage) :
    (∀ (scope : Option Scope) (pre post l2 : List InjectionLanguageJSON)
        (cj : InjectionContentJSON),
      (∀ e ∈ pre, ∃ v, langElement language e = .ok v) →
      properties_new language
          { scope := scope, injection_language := some (.list (pre ++ .list l2 :: post)),
            injection_content := some cj }
        = .panicked "Injection-language cannot be a list of lists")
    ∧ (∀ (scope : Option Scope) (lj : InjectionLanguageJSON) (vs : List InjectionLanguage)
        (pre post l2 : List InjectionContentJSON),
      computeLanguages language lj = .ok vs →
      (∀ e ∈ pre, ∃ v, contElement language e = .ok v) →
      properties_new language
          { scope := scope, injection_language := some lj,
            injection_content := some (.list (pre ++ .list l2 :: post)) }
        = .panicked "Injection-content cannot be a list of lists") := by
  constructor
  · intro scope pre post l2 cj hpre
    have h := languagesLoop_panics_at_nested language pre post l2 hpre
    simp only [properties_new, computeLanguages, h]
  · intro scope lj vs pre post l2 hlang hpre
    have h := contentsLoop_panics_at_nested language pre post l2 hpre
    simp only [properties_new, hlang, computeContents, h]

/-- Witness for C10 (amended), both directions at concrete inputs. -/
theorem c10_witness :
    properties_new trivialLanguage
        { scope := none,
          injection_language := some (.list [.lit [0x61], .list []]),
          injection_content := some (.path .this) }
      = .panicked "Injection-language cannot be a list of lists"
    ∧ properties_new trivialLanguage
        { scope := none,
          injection_language := some (.lit [0x61]),
          injection_content := some (.list [.path .this, .list []]) }
      = .panicked "Injection-content cannot be a list of lists" :=
  ⟨(c10_nested_list_panics trivialLanguage).1 none [.lit [0x61]] [] [] (.path .this)
     (fun e he => by
       rw [List.mem_singleton] at he
       subst he
       exact ⟨.literal [0x61], rfl⟩),
   (c10_nested_list_panics trivialLanguage).2 none (.lit [0x61]) [.literal [0x61]]
     [.path .this] [] [] rfl
     (fun e he => by
       rw [List.mem_singleton] at he
       subst he
       exact ⟨[], rfl⟩)⟩

/-! ## Claim C3: sorted layers and the insertion tie-break -/

/-- The sortedness invariant of the layer list. -/
def layersSorted (ls : List Layer) : Prop :=
  ls.Pairwise (fun a b => a.offset ≤ b.offset)

theorem bsearchGo_spec (ls : List Layer) (t pp : Nat)
    (hchar : ∀ i, i < ls.length → (offsetAt ls i ≤ t ↔ i < pp)) :
    ∀ (fuel base size : Nat), size ≤ fuel → 0 < size → base + size ≤ ls.length →
      (base < pp ∨ (pp = 0 ∧ base = 0)) → pp ≤ base + size →
      (bsearchGo ls t fuel base size < pp ∨ (pp = 0 ∧ bsearchGo ls t fuel base size = 0))
        ∧ pp ≤ bsearchGo ls t fuel base size + 1
        ∧ bsearchGo ls t fuel base size < ls.length := by
  intro fuel
  induction fuel with
  | zero => intro base size h1 h2 _ _ _; omega
  | succ fuel ih =>
    intro base size hf hpos hlen hinv hub
    rw [bsearchGo]
    by_cases hs : 1 < size
    · rw [if_pos hs]
      have hmidlen : base + size / 2 < ls.length := by omega
      by_cases hcmp : t < offsetAt ls (base + size / 2)
      · simp only [if_pos hcmp]
        have hnot : ¬ (base + size / 2 < pp) := fun hc =>
          absurd ((hchar (base + size / 2) hmidlen).mpr hc) (by omega)
        exact ih base (size - size / 2) (by omega) (by omega) (by omega) hinv (by omega)
      · simp only [if_neg hcmp]
        have hlt : base + size / 2 < pp := (hchar (base + size / 2) hmidlen).mp (by omega)
        exact ih (base + size / 2) (size - size / 2) (by omega) (by omega) (by omega)
          (Or.inl hlt) (by omega)
    · rw [if_neg hs]
      exact ⟨hinv, by omega, by omega⟩

theorem insertion_index_char (ls : List Layer) (t pp : Nat)
    (hchar : ∀ i, i < ls.length → (offsetAt ls i ≤ t ↔ i < pp))
    (hpp : pp ≤ ls.length) :
    insertion_index ls t = pp := by
  by_cases h0 : ls.length = 0
  · simp only [insertion_index, if_pos h0]
    omega
  · obtain ⟨hinv, hub, hblen⟩ := bsearchGo_spec ls t pp hchar ls.length 0 ls.length le_rfl
      (by omega) (by omega) (by omega) (by omega)
    simp only [insertion_index, if_neg h0, bsearchLoop]
    by_cases hle : offsetAt ls (bsearchGo ls t ls.length 0 ls.length) ≤ t
    · rw [if_pos hle]
      have := (hchar _ hblen).mp hle
      omega
    · rw [if_neg hle]
      have hnot : ¬ (bsearchGo ls t ls.length 0 ls.length < pp) :=
        fun hc => hle ((hchar _ hblen).mpr hc)
      omega

theorem offsetAt_cons_succ (x : Layer) (xs : List Layer) (i : Nat) :
    offsetAt (x :: xs) (i + 1) = offsetAt xs i := rfl

theorem sorted_takeWhile_char (ls : List Layer) (t : Nat) (hs : layersSorted ls) :
    ∀ i, i < ls.length →
      (offsetAt ls i ≤ t ↔ i < (ls.takeWhile (fun l => decide (l.offset ≤ t))).length) := by
  induction ls with
  | nil => intro i hi; simp at hi
  | cons x xs ih =>
    rw [layersSorted, List.pairwise_cons] at hs
    intro i hi
    by_cases hp : x.offset ≤ t
    · rw [List.takeWhile_cons_of_pos (by simpa using hp)]
      cases i with
      | zero => simpa [offsetAt] using hp
      | succ i =>
        rw [offsetAt_cons_succ]
        simpa using ih hs.2 i (by simpa using hi)
    · rw [List.takeWhile_cons_of_neg (by simpa using hp)]
      simp only [List.length_nil, Nat.not_lt_zero, iff_false]
      cases i with
      | zero => simpa [offsetAt] using hp
      | succ i =>
        rw [offsetAt_cons_succ]
        intro hc
        rcases hget : xs.get? i with _ | l
        · have hlen := List.get?_eq_none.mp hget
          simp only [List.length_cons] at hi
          omega
        · rw [offsetAt, hget] at hc
          exact hp (le_trans (hs.1 l (List.get?_mem hget)) hc)

theorem add_layer_shape (reg : Registry) (s : HState) (lang : List Nat)
    (ranges : List SRange) (entry : RegEntry) (tree : STree)
    (hlook : reg.language_for_injection_string lang = some entry)
    (hok : entry.set_language_ok = true)
    (hparse : entry.parse ranges = some tree)
    (hs : layersSorted s.layers) :
    add_layer reg s lang ranges = some { s with
      layers :=
        s.layers.takeWhile
            (fun l => decide (l.offset ≤ (Layer.new tree ranges s.next_layer_id).offset))
          ++ (Layer.new tree ranges s.next_layer_id)
            :: s.layers.dropWhile
              (fun l => decide (l.offset ≤ (Layer.new tree ranges s.next_layer_id).offset)),
      next_layer_id := s.next_layer_id + 1 } := by
  have hpp : (s.layers.takeWhile
      (fun l => decide (l.offset ≤ (Layer.new tree ranges s.next_layer_id).offset))).length
      ≤ s.layers.length :=
    List.Sublist.length_le (List.takeWhile_sublist _)
  have hidx := insertion_index_char s.layers (Layer.new tree ranges s.next_layer_id).offset _
    (sorted_takeWhile_char s.layers (Layer.new tree ranges s.next_layer_id).offset hs) hpp
  have hgen : ∀ pp : Nat,
      s.layers.take pp = s.layers.takeWhile
        (fun l => decide (l.offset ≤ (Layer.new tree ranges s.next_layer_id).offset)) →
      s.layers.drop pp = s.layers.dropWhile
        (fun l => decide (l.offset ≤ (Layer.new tree ranges s.next_layer_id).offset)) := by
    intro pp htk
    have h1 : s.layers.take pp ++ s.layers.drop pp
        = s.layers.take pp ++ s.layers.dropWhile
            (fun l => decide (l.offset ≤ (Layer.new tree ranges s.next_layer_id).offset)) := by
      rw [List.take_append_drop]
      conv_rhs => rw [htk]
      rw [List.takeWhile_append_dropWhile]
    exact List.append_cancel_left h1
  have htake : s.layers.take ((s.layers.takeWhile
      (fun l => decide (l.offset ≤ (Layer.new tree ranges s.next_layer_id).offset))).length)
      = s.layers.takeWhile
          (fun l => decide (l.offset ≤ (Layer.new tree ranges s.next_layer_id).offset)) :=
    (List.prefix_iff_eq_take.mp (List.takeWhile_prefix _)).symm
  have hdrop := hgen _ htake
  simp only [add_layer, hlook, hok, if_true, hparse, insertAt, hidx, htake, hdrop]

theorem mem_takeWhile_offset_le (ls : List Layer) (o : Nat) (a : Layer)
    (h : a ∈ ls.takeWhile (fun l => decide (l.offset ≤ o))) : a.offset ≤ o := by
  have := List.mem_takeWhile_imp h
  simpa using this

theorem mem_dropWhile_offset_gt (ls : List Layer) (o : Nat) (hs : layersSorted ls) :
    ∀ b ∈ ls.dropWhile (fun l => decide (l.offset ≤ o)), o < b.offset := by
  induction ls with
  | nil => intro b hb; simp at hb
  | cons x xs ih =>
    rw [layersSorted, List.pairwise_cons] at hs
    intro b hb
    by_cases hp : x.offset ≤ o
    · rw [List.dropWhile_cons_of_pos (by simpa using hp)] at hb
      exact ih hs.2 b hb
    · rw [List.dropWhile_cons_of_neg (by simpa using hp)] at hb
      rcases List.mem_cons.mp hb with rfl | hb2
      · omega
      · have := hs.1 b hb2
        omega

theorem add_layer_sorted (reg : Registry) (s : HState) (lang : List Nat)
    (ranges : List SRange) (s2 : HState)
    (h : add_layer reg s lang ranges = some s2) (hs : layersSorted s.layers) :
    layersSorted s2.layers := by
  rcases hlook : reg.language_for_injection_string lang with _ | entry
  · simp only [add_layer, hlook] at h
    cases h
    exact hs
  · rcases hok : entry.set_language_ok with _ | _
    · simp [add_layer, hlook, hok] at h
    · rcases hparse : entry.parse ranges with _ | tree
      · simp [add_layer, hlook, hok, hparse] at h
      · rw [add_layer_shape reg s lang ranges entry tree hlook hok hparse hs] at h
        cases h
        rw [layersSorted, List.pairwise_append]
        refine ⟨List.Pairwise.sublist (List.takeWhile_sublist _) hs, ?_, ?_⟩
        · rw [List.pairwise_cons]
          refine ⟨fun b hb => le_of_lt (mem_dropWhile_offset_gt s.layers _ hs b hb), ?_⟩
          exact List.Pairwise.sublist (List.dropWhile_sublist _) hs
        · intro a ha b hb
          have ha2 := mem_takeWhile_offset_le s.layers _ a ha
          rcases List.mem_cons.mp hb with rfl | hb2
          · exact ha2
          · have := mem_dropWhile_offset_gt s.layers _ hs b hb2
            omega

theorem add_layers_sorted (reg : Registry) (injs : List (List Nat × List SRange)) :
    ∀ (s s2 : HState), add_layers reg s injs = some s2 → layersSorted s.layers →
    layersSorted s2.layers := by
  induction injs with
  | nil =>
    intro s s2 h hs
    rw [add_layers] at h
    cases h
    exact hs
  | cons p rest ih =>
    intro s s2 h hs
    rw [add_layers] at h
    rcases ha : add_layer reg s p.1 p.2 with _ | s3
    · rw [ha] at h; simp at h
    · rw [ha] at h
      simp only [Option.bind_eq_bind, Option.some_bind] at h
      exact ih s3 s2 h (add_layer_sorted reg s p.1 p.2 s3 ha hs)

theorem insLayer_mem (x y : Layer) (l : List Layer) :
    y ∈ insLayer x l ↔ y = x ∨ y ∈ l := by
  induction l with
  | nil => simp [insLayer]
  | cons z zs ih =>
    rw [insLayer]
    by_cases hz : z.offset < x.offset
    · rw [if_pos hz]
      simp only [List.mem_cons, ih]
      tauto
    · rw [if_neg hz]
      simp [List.mem_cons]

theorem insLayer_sorted (x : Layer) (l : List Layer) (h : layersSorted l) :
    layersSorted (insLayer x l) := by
  induction l with
  | nil => simp [insLayer, layersSorted]
  | cons z zs ih =>
    rw [layersSorted, List.pairwise_cons] at h
    rw [insLayer]
    by_cases hz : z.offset < x.offset
    · rw [if_pos hz]
      rw [layersSorted, List.pairwise_cons]
      refine ⟨?_, ih h.2⟩
      intro y hy
      rcases (insLayer_mem x y zs).mp hy with rfl | hy2
      · omega
      · exact h.1 y hy2
    · rw [if_neg hz]
      rw [layersSorted, List.pairwise_cons]
      refine ⟨?_, ?_⟩
      · intro y hy
        rcases List.mem_cons.mp hy with rfl | hy2
        · omega
        · have := h.1 y hy2
          omega
      · rw [List.pairwise_cons]
        exact ⟨h.1, h.2⟩

theorem sortLayers_sorted (l : List Layer) : layersSorted (sortLayers l) := by
  induction l with
  | nil => simp [sortLayers, layersSorted]
  | cons x xs ih => exact insLayer_sorted x (sortLayers xs) ih

theorem advance_front_sorted (s : HState) (hs : layersSorted s.layers) :
    layersSorted (advance_front s).layers := by
  rcases hl : s.layers with _ | ⟨l, rest⟩
  · simp only [advance_front, hl]
    exact hl ▸ hs
  · rcases hadv : l.advance with _ | l2
    · simp only [advance_front, hl, hadv]
      rw [hl, layersSorted, List.pairwise_cons] at hs
      exact hs.2
    · simp only [advance_front, hl, hadv]
      exact sortLayers_sorted (l2 :: rest)

/-- Sortedness of the layer list in the state carried by a `next()` result. -/
def resultLayersSorted : NextResult → Prop
  | .ev _ s2 => layersSorted s2.layers
  | .stop _ s2 => layersSorted s2.layers
  | .panicked => True
  | .fuelOut => True

theorem next_loop_tail_sorted (reg : Registry) (fuel : Nat)
    (properties : SProperties) (s1 : HState)
    (ih : ∀ s2, layersSorted s2.layers → resultLayersSorted (next_loop reg fuel s2))
    (hs1 : layersSorted s1.layers) :
    resultLayersSorted (match s1.layers with
      | [] => NextResult.panicked
      | front :: _ =>
        match properties.scope with
        | some scope =>
          if s1.source_offset < min s1.source.length front.offset then
            match emit_source s1.source s1.source_offset
                (min s1.source.length front.offset) with
            | some (payload, off, pend) =>
              NextResult.ev (.source payload)
                { s1 with source_offset := off, utf8_error_len := pend }
            | none => NextResult.stop true s1
          else
            NextResult.ev
              (if front.at_node_end then .scopeEnd scope else .scopeStart scope)
              (advance_front s1)
        | none => next_loop reg fuel (advance_front s1)) := by
  split
  · trivial
  · split
    · split
      · split
        · exact hs1
        · exact hs1
      · exact advance_front_sorted s1 hs1
    · exact ih (advance_front s1) (advance_front_sorted s1 hs1)

theorem next_loop_sorted (reg : Registry) :
    ∀ (fuel : Nat) (s : HState), layersSorted s.layers →
      resultLayersSorted (next_loop reg fuel s) := by
  intro fuel
  induction fuel with
  | zero => intro s hs; rw [next_loop]; trivial
  | succ fuel ih =>
    intro s hs
    rw [next_loop]
    split
    · split
      · split
        · exact hs
        · exact hs
      · exact hs
    · rename_i first_layer rest hlayers
      have hsome : ∀ s1, (if first_layer.at_node_end then some s
          else
            match collect_injections s.source first_layer.ranges first_layer.cursor.node
                first_layer.cursor.node.props.injections with
            | none => none
            | some injs => add_layers reg s injs) = some s1 → layersSorted s1.layers := by
        intro s1 h1
        by_cases hend : first_layer.at_node_end
        · rw [if_pos hend] at h1
          cases h1
          exact hs
        · rw [if_neg hend] at h1
          rcases hcol : collect_injections s.source first_layer.ranges
              first_layer.cursor.node first_layer.cursor.node.props.injections with _ | injs
          · rw [hcol] at h1
            cases h1
          · rw [hcol] at h1
            exact add_layers_sorted reg injs s s1 h1 hs
      rcases hif : (if first_layer.at_node_end then some s
          else
            match collect_injections s.source first_layer.ranges first_layer.cursor.node
                first_layer.cursor.node.props.injections with
            | none => none
            | some injs => add_layers reg s injs) with _ | s1
      · simp only [hif]
        trivial
      · simp only [hif]
        exact next_loop_tail_sorted reg fuel first_layer.cursor.node.props s1 ih
          (hsome s1 hif)

theorem next_event_sorted (reg : Registry) (fuel : Nat) (s : HState)
    (hs : layersSorted s.layers) : resultLayersSorted (next_event reg fuel s) := by
  rw [next_event]
  split
  · exact hs
  · exact next_loop_sorted reg fuel s hs

/-- Claim C3: the layers vector is sorted by `offset()` at every point
between calls to `next()` — the initial list is sorted, and every state a
`next()` call returns has a sorted list (so its front layer has minimal
offset, i.e. acts next) — and `add_layer` inserts a newly injected layer
after all existing layers whose offset is ≤ the new layer's offset, in
particular after all layers with equal offset (the `(offset, 1)` /
`(offset, 0)` binary-search tie-break). -/
theorem c3_layers_sorted_insert_after_ties :
    (∀ (source : List Nat) (tree : STree), layersSorted (initState source tree).layers)
    ∧ (∀ (reg : Registry) (fuel : Nat) (s : HState), layersSorted s.layers →
        resultLayersSorted (next_event reg fuel s))
    ∧ (∀ (reg : Registry) (s : HState) (lang : List Nat) (ranges : List SRange)
        (entry : RegEntry) (tree : STree),
        reg.language_for_injection_string lang = some entry →
        entry.set_language_ok = true →
        entry.parse ranges = some tree →
        layersSorted s.layers →
        add_layer reg s lang ranges = some { s with
          layers := s.layers.takeWhile
              (fun l => decide (l.offset ≤ (Layer.new tree ranges s.next_layer_id).offset))
            ++ (Layer.new tree ranges s.next_layer_id)
              :: s.layers.dropWhile
                (fun l => decide (l.offset ≤ (Layer.new tree ranges s.next_layer_id).offset)),
          next_layer_id := s.next_layer_id + 1 }) :=
  ⟨fun source tree => by simp [initState, layersSorted],
   next_event_sorted,
   fun reg s lang ranges entry tree h1 h2 h3 h4 =>
     add_layer_shape reg s lang ranges entry tree h1 h2 h3 h4⟩

/-- A registry with one concrete language for the C3 witness. -/
def c3Registry : Registry :=
  ⟨fun name => if name = [0x78] then
      some ⟨true, fun _ => some (mkLeaf 1 2 plainProps)⟩
    else none⟩

/-- A state with two equal-offset layers for the C3 witness. -/
def c3State : HState :=
  { source := [0x61, 0x62, 0x63]
    source_offset := 0
    layers := [⟨⟨mkLeaf 1 3 plainProps, []⟩, [mkRange 0 usizeMax], false, 0⟩,
               ⟨⟨mkLeaf 1 2 (scopedProps .Comment), []⟩, [mkRange 0 usizeMax], false, 1⟩]
    utf8_error_len := none
    next_layer_id := 2 }

/-- Witness for C3: the initial list is sorted; a `next()` call from a
sorted concrete state returns a sorted state; and inserting a layer whose
offset (1) ties with both existing layers places it after both. -/
theorem c3_witness :
    layersSorted (initState [0x61] (mkLeaf 0 1 plainProps)).layers
    ∧ resultLayersSorted (next_event emptyRegistry 5 c3State)
    ∧ add_layer c3Registry c3State [0x78] [mkRange 1 2] = some { c3State with
        layers := c3State.layers.takeWhile
            (fun l => decide (l.offset ≤ (Layer.new (mkLeaf 1 2 plainProps) [mkRange 1 2]
              c3State.next_layer_id).offset))
          ++ (Layer.new (mkLeaf 1 2 plainProps) [mkRange 1 2] c3State.next_layer_id)
            :: c3State.layers.dropWhile
              (fun l => decide (l.offset ≤ (Layer.new (mkLeaf 1 2 plainProps) [mkRange 1 2]
                c3State.next_layer_id).offset)),
        next_layer_id := c3State.next_layer_id + 1 } :=
  ⟨c3_layers_sorted_insert_after_ties.1 [0x61] (mkLeaf 0 1 plainProps),
   c3_layers_sorted_insert_after_ties.2.1 emptyRegistry 5 c3State
     (by rw [layersSorted]; decide),
   c3_layers_sorted_insert_after_ties.2.2 c3Registry c3State [0x78] [mkRange 1 2]
     ⟨true, fun _ => some (mkLeaf 1 2 plainProps)⟩ (mkLeaf 1 2 plainProps)
     rfl rfl rfl (by rw [layersSorted]; decide)⟩

/-! ## Claim C4: panic analysis of the iteration path -/

/-- No reserved `Next` step in a step list. -/
def steps_no_next (steps : List TreeStep) : Bool :=
  steps.all (fun st => match st with | .next _ => false | _ => true)

/-- No `Next` step anywhere in an injection. -/
def inj_no_next (inj : SInjection) : Bool :=
  (match inj.language with
   | .literal _ => true
   | .treePath steps => steps_no_next steps)
  && steps_no_next inj.content

/-- No `Next` step in a properties record. -/
def props_no_next (p : SProperties) : Bool := p.injections.all inj_no_next

mutual

/-- No `Next` step in any properties record of the tree. -/
def tree_no_next : STree → Bool
  | .node _ _ p cs => props_no_next p && treeList_no_next cs

/-- `tree_no_next` over a list of trees. -/
def treeList_no_next : List STree → Bool
  | [] => true
  | c :: cs => tree_no_next c && treeList_no_next cs

end

/-- No `Next` step reachable from a crumb. -/
def crumb_no_next (cr : Crumb) : Bool :=
  props_no_next cr.props && treeList_no_next cr.leftRev && treeList_no_next cr.right

/-- No `Next` step reachable from a cursor position. -/
def cursor_no_next (c : SCursor) : Bool :=
  tree_no_next c.focus && c.crumbs.all crumb_no_next

/-- The invariant a layer carries on the non-panicking path: non-empty
ranges and a `Next`-free tree. -/
def goodLayer (l : Layer) : Prop :=
  l.ranges ≠ [] ∧ cursor_no_next l.cursor = true

/-- A registry that never makes `add_layer` panic: every entry's language
sets successfully and every parse succeeds, with a `Next`-free tree. -/
def goodReg (reg : Registry) : Prop :=
  ∀ name entry, reg.language_for_injection_string name = some entry →
    entry.set_language_ok = true
    ∧ ∀ ranges, ∃ t, entry.parse ranges = some t ∧ tree_no_next t = true

/-- All layers of the state satisfy the layer invariant. -/
def stateGood (s : HState) : Prop := ∀ l ∈ s.layers, goodLayer l

theorem treeList_no_next_mem {cs : List STree} (h : treeList_no_next cs = true) :
    ∀ c ∈ cs, tree_no_next c = true := by
  induction cs with
  | nil => intro c hc; simp at hc
  | cons x xs ih =>
    rw [treeList_no_next, Bool.and_eq_true] at h
    intro c hc
    rcases List.mem_cons.mp hc with rfl | hc2
    · exact h.1
    · exact ih h.2 c hc2

theorem treeList_no_next_of_mem {cs : List STree}
    (h : ∀ c ∈ cs, tree_no_next c = true) : treeList_no_next cs = true := by
  induction cs with
  | nil => rfl
  | cons x xs ih =>
    rw [treeList_no_next, Bool.and_eq_true]
    exact ⟨h x (by simp), ih (fun c hc => h c (by simp [hc]))⟩

theorem steps_no_next_process (step : TreeStep) (nodes : List STree)
    (h : (match step with | TreeStep.next _ => false | _ => true) = true) :
    ∃ out, process_tree_step step nodes = some out := by
  cases step with
  | child i k => exact ⟨_, rfl⟩
  | children k => exact ⟨_, rfl⟩
  | next k => simp at h

theorem nodes_for_tree_path_ok (node : STree) (steps : List TreeStep)
    (h : steps_no_next steps = true) :
    ∃ out, nodes_for_tree_path node steps = some out := by
  rw [nodes_for_tree_path]
  generalize [node] = ns
  induction steps generalizing ns with
  | nil => exact ⟨ns, rfl⟩
  | cons st rest ih =>
    rw [steps_no_next, List.all_cons, Bool.and_eq_true] at h
    obtain ⟨out1, hout1⟩ := steps_no_next_process st ns h.1
    rw [List.foldlM_cons, hout1]
    exact ih h.2 out1

theorem cursor_no_next_first_child {c c2 : SCursor}
    (h : cursor_no_next c = true) (hgo : c.goto_first_child = some c2) :
    cursor_no_next c2 = true := by
  rw [cursor_no_next, Bool.and_eq_true] at h
  obtain ⟨hf, hcr⟩ := h
  rcases c with ⟨focus, crumbs⟩
  rcases focus with ⟨r, k, p, cs⟩
  rcases cs with _ | ⟨x, xs⟩
  · simp [SCursor.goto_first_child] at hgo
  · rw [SCursor.goto_first_child] at hgo
    cases hgo
    rw [tree_no_next, Bool.and_eq_true] at hf
    rw [cursor_no_next, Bool.and_eq_true]
    constructor
    · exact (Bool.and_eq_true _ _ |>.mp hf.2).1
    · rw [List.all_cons, Bool.and_eq_true]
      refine ⟨?_, hcr⟩
      rw [crumb_no_next, Bool.and_eq_true, Bool.and_eq_true]
      exact ⟨⟨hf.1, rfl⟩, (Bool.and_eq_true _ _ |>.mp hf.2).2⟩

theorem cursor_no_next_next_sibling {c c2 : SCursor}
    (h : cursor_no_next c = true) (hgo : c.goto_next_sibling = some c2) :
    cursor_no_next c2 = true := by
  rw [cursor_no_next, Bool.and_eq_true] at h
  obtain ⟨hf, hcr⟩ := h
  rcases c with ⟨focus, crumbs⟩
  rcases crumbs with _ | ⟨cr, rest⟩
  · simp [SCursor.goto_next_sibling] at hgo
  · rcases hr : cr.right with _ | ⟨y, ys⟩
    · rw [SCursor.goto_next_sibling] at hgo
      simp only [hr] at hgo
      exact Option.noConfusion hgo
    · rw [SCursor.goto_next_sibling] at hgo
      simp only [hr] at hgo
      cases hgo
      rw [List.all_cons, Bool.and_eq_true] at hcr
      rw [crumb_no_next, Bool.and_eq_true, Bool.and_eq_true] at hcr
      obtain ⟨⟨hp, hl⟩, hrt⟩ := hcr.1
      rw [hr, treeList_no_next, Bool.and_eq_true] at hrt
      rw [cursor_no_next, Bool.and_eq_true]
      refine ⟨hrt.1, ?_⟩
      rw [List.all_cons, Bool.and_eq_true]
      refine ⟨?_, hcr.2⟩
      rw [crumb_no_next, Bool.and_eq_true, Bool.and_eq_true]
      refine ⟨⟨hp, ?_⟩, hrt.2⟩
      rw [treeList_no_next, Bool.and_eq_true]
      exact ⟨hf, hl⟩

theorem cursor_no_next_parent {c c2 : SCursor}
    (h : cursor_no_next c = true) (hgo : c.goto_parent = some c2) :
    cursor_no_next c2 = true := by
  rw [cursor_no_next, Bool.and_eq_true] at h
  obtain ⟨hf, hcr⟩ := h
  rcases c with ⟨focus, crumbs⟩
  rcases crumbs with _ | ⟨cr, rest⟩
  · simp [SCursor.goto_parent] at hgo
  · rw [SCursor.goto_parent] at hgo
    cases hgo
    rw [List.all_cons, Bool.and_eq_true] at hcr
    rw [crumb_no_next, Bool.and_eq_true, Bool.and_eq_true] at hcr
    obtain ⟨⟨hp, hl⟩, hrt⟩ := hcr.1
    rw [cursor_no_next, Bool.and_eq_true]
    refine ⟨?_, hcr.2⟩
    rw [tree_no_next, Bool.and_eq_true]
    refine ⟨hp, ?_⟩
    refine treeList_no_next_of_mem ?_
    intro t ht
    rcases List.mem_append.mp ht with ht2 | ht2
    · exact treeList_no_next_mem hl t (List.mem_reverse.mp ht2)
    · rcases List.mem_cons.mp ht2 with rfl | ht3
      · exact hf
      · exact treeList_no_next_mem hrt t ht3

theorem goodLayer_advance {l l2 : Layer} (h : goodLayer l) (hadv : l.advance = some l2) :
    goodLayer l2 := by
  obtain ⟨hr, hc⟩ := h
  rw [Layer.advance] at hadv
  by_cases hend : l.at_node_end
  · rw [if_pos hend] at hadv
    rcases hsib : l.cursor.goto_next_sibling with _ | c2
    · rw [hsib] at hadv
      rcases hpar : l.cursor.goto_parent with _ | c3
      · rw [hpar] at hadv
        cases hadv
      · rw [hpar] at hadv
        cases hadv
        exact ⟨hr, cursor_no_next_parent hc hpar⟩
    · rw [hsib] at hadv
      cases hadv
      exact ⟨hr, cursor_no_next_next_sibling hc hsib⟩
  · rw [if_neg hend] at hadv
    rcases hch : l.cursor.goto_first_child with _ | c2
    · rw [hch] at hadv
      cases hadv
      exact ⟨hr, hc⟩
    · rw [hch] at hadv
      cases hadv
      exact ⟨hr, cursor_no_next_first_child hc hch⟩

theorem mem_sortLayers {y : Layer} {l : List Layer} :
    y ∈ sortLayers l ↔ y ∈ l := by
  induction l with
  | nil => simp [sortLayers]
  | cons x xs ih =>
    rw [sortLayers, insLayer_mem]
    simp [ih]

theorem stateGood_advance_front {s : HState} (h : stateGood s) :
    stateGood (advance_front s) := by
  rcases hl : s.layers with _ | ⟨l, rest⟩
  · intro x hx
    simp only [advance_front, hl] at hx
    exact absurd hx (by simp)
  · rcases hadv : l.advance with _ | l2
    · intro x hx
      simp only [advance_front, hl, hadv] at hx
      exact h x (by rw [hl]; simp [hx])
    · intro x hx
      simp only [advance_front, hl, hadv] at hx
      rcases List.mem_cons.mp (mem_sortLayers.mp hx) with rfl | hx2
      · exact goodLayer_advance (h l (by rw [hl]; simp)) hadv
      · exact h x (by rw [hl]; simp [hx2])

theorem collect_injections_ok (source : List Nat) (ranges : List SRange) (node : STree)
    (injs : List SInjection) (hr : ranges ≠ [])
    (hni : injs.all inj_no_next = true) :
    ∃ out, collect_injections source ranges node injs = some out
      ∧ ∀ pr ∈ out, pr.2 ≠ ([] : List SRange) := by
  induction injs with
  | nil => exact ⟨[], rfl, by simp⟩
  | cons inj rest ih =>
    rw [List.all_cons, Bool.and_eq_true] at hni
    rw [inj_no_next, Bool.and_eq_true] at hni
    obtain ⟨⟨hlang, hcont⟩, hrest⟩ := hni
    obtain ⟨out2, hout2, hout2ne⟩ := ih hrest
    have hfirst : ∃ first, (match injection_language_string source node inj.language with
        | none => none
        | some none => some []
        | some (some language) =>
          match nodes_for_tree_path node inj.content with
          | none => none
          | some nodes =>
            match intersect_ranges ranges nodes with
            | none => none
            | some rs =>
              if rs.length > 0 then some [(language, rs)] else some [])
        = some first ∧ ∀ pr ∈ first, pr.2 ≠ ([] : List SRange) := by
      have hlangres : ∃ v, injection_language_string source node inj.language = some v := by
        rcases hl : inj.language with s | steps
        · exact ⟨some s, rfl⟩
        · rw [hl] at hlang
          obtain ⟨nodes, hnodes⟩ := nodes_for_tree_path_ok node steps hlang
          simp only [injection_language_string, hnodes]
          rcases hhd : nodes.head? with _ | n
          · simp only [hhd]
            exact ⟨none, rfl⟩
          · simp only [hhd]
            by_cases hv : utf8Validate (byteSlice source n.start_byte n.end_byte) = none
            · rw [if_pos hv]
              exact ⟨_, rfl⟩
            · rw [if_neg hv]
              exact ⟨none, rfl⟩
      obtain ⟨v, hv⟩ := hlangres
      rw [hv]
      rcases v with _ | language
      · exact ⟨[], rfl, by simp⟩
      · obtain ⟨nodes, hnodes⟩ := nodes_for_tree_path_ok node inj.content hcont
        rw [hnodes]
        rcases hrng : ranges with _ | ⟨p, ps⟩
        · exact absurd hrng hr
        · subst hrng
          simp only [intersect_ranges]
          by_cases hlen : (nodesLoop nodes p ps).1.length > 0
          · rw [if_pos hlen]
            refine ⟨[(language, (nodesLoop nodes p ps).1)], rfl, ?_⟩
            intro pr hpr
            rw [List.mem_singleton] at hpr
            subst hpr
            intro hno
            have hno2 : (nodesLoop nodes p ps).1 = [] := hno
            rw [hno2] at hlen
            simp at hlen
          · rw [if_neg hlen]
            exact ⟨[], rfl, by simp⟩
    obtain ⟨first, hfirstEq, hfirstNe⟩ := hfirst
    refine ⟨first ++ out2, ?_, ?_⟩
    · rw [collect_injections, hfirstEq, hout2]
    · intro pr hpr
      rcases List.mem_append.mp hpr with h2 | h2
      · exact hfirstNe pr h2
      · exact hout2ne pr h2

theorem insertAt_subset (ls : List Layer) (i : Nat) (x y : Layer)
    (h : y ∈ insertAt ls i x) : y = x ∨ y ∈ ls := by
  rw [insertAt] at h
  rcases List.mem_append.mp h with h2 | h2
  · exact Or.inr (List.take_subset i ls h2)
  · rcases List.mem_cons.mp h2 with rfl | h3
    · exact Or.inl rfl
    · exact Or.inr (List.drop_subset i ls h3)

theorem add_layer_good (reg : Registry) (s : HState) (lang : List Nat)
    (ranges : List SRange) (hreg : goodReg reg) (hs : stateGood s)
    (hr : ranges ≠ []) :
    ∃ s2, add_layer reg s lang ranges = some s2 ∧ stateGood s2
      ∧ (s.layers ≠ [] → s2.layers ≠ []) := by
  rcases hlook : reg.language_for_injection_string lang with _ | entry
  · refine ⟨s, ?_, hs, fun h => h⟩
    simp only [add_layer, hlook]
  · obtain ⟨hok, hparse⟩ := hreg lang entry hlook
    obtain ⟨t, hpt, hnn⟩ := hparse ranges
    refine ⟨{ s with
        layers := insertAt s.layers
          (insertion_index s.layers (Layer.new t ranges s.next_layer_id).offset)
          (Layer.new t ranges s.next_layer_id),
        next_layer_id := s.next_layer_id + 1 }, ?_, ?_, ?_⟩
    · simp only [add_layer, hlook, hok, if_true, hpt]
    · intro x hx
      rcases insertAt_subset _ _ _ x hx with rfl | hx2
      · refine ⟨hr, ?_⟩
        rw [Layer.new, cursor_no_next]
        simp [hnn]
      · exact hs x hx2
    · intro _
      rw [insertAt]
      simp
  
theorem add_layers_good (reg : Registry) (hreg : goodReg reg) :
    ∀ (injs : List (List Nat × List SRange)) (s : HState), stateGood s →
      (∀ pr ∈ injs, pr.2 ≠ ([] : List SRange)) →
      ∃ s2, add_layers reg s injs = some s2 ∧ stateGood s2
        ∧ (s.layers ≠ [] → s2.layers ≠ []) := by
  intro injs
  induction injs with
  | nil => intro s hs _; exact ⟨s, rfl, hs, fun h => h⟩
  | cons pr rest ih =>
    intro s hs hne
    obtain ⟨s3, h3, hs3, hne3⟩ := add_layer_good reg s pr.1 pr.2 hreg hs
      (hne pr (by simp))
    obtain ⟨s2, h2, hs2, hne2⟩ := ih s3 hs3 (fun q hq => hne q (by simp [hq]))
    refine ⟨s2, ?_, hs2, fun h => hne2 (hne3 h)⟩
    rw [add_layers, h3]
    simpa using h2

/-- Panic-freedom of the state carried by a `next()` result. -/
def resultGood : NextResult → Prop
  | .ev _ s2 => stateGood s2
  | .stop _ s2 => stateGood s2
  | .panicked => False
  | .fuelOut => True

theorem next_loop_tail_good (reg : Registry) (fuel : Nat)
    (properties : SProperties) (s1 : HState)
    (ih : ∀ s2, stateGood s2 → resultGood (next_loop reg fuel s2))
    (hs1 : stateGood s1) (hne : s1.layers ≠ []) :
    resultGood (match s1.layers with
      | [] => NextResult.panicked
      | front :: _ =>
        match properties.scope with
        | some scope =>
          if s1.source_offset < min s1.source.length front.offset then
            match emit_source s1.source s1.source_offset
                (min s1.source.length front.offset) with
            | some (payload, off, pend) =>
              NextResult.ev (.source payload)
                { s1 with source_offset := off, utf8_error_len := pend }
            | none => NextResult.stop true s1
          else
            NextResult.ev
              (if front.at_node_end then .scopeEnd scope else .scopeStart scope)
              (advance_front s1)
        | none => next_loop reg fuel (advance_front s1)) := by
  split
  · rename_i heq
    exact absurd heq hne
  · split
    · split
      · split
        · exact hs1
        · exact hs1
      · exact stateGood_advance_front hs1
    · exact ih (advance_front s1) (stateGood_advance_front hs1)

theorem next_loop_good (reg : Registry) (hreg : goodReg reg) :
    ∀ (fuel : Nat) (s : HState), stateGood s → resultGood (next_loop reg fuel s) := by
  intro fuel
  induction fuel with
  | zero => intro s hs; rw [next_loop]; trivial
  | succ fuel ih =>
    intro s hs
    rw [next_loop]
    split
    · split
      · split
        · exact hs
        · exact hs
      · exact hs
    · rename_i first_layer rest hlayers
      have hfl : goodLayer first_layer := hs first_layer (by rw [hlayers]; simp)
      have hinj : first_layer.cursor.node.props.injections.all inj_no_next = true := by
        have hc := hfl.2
        rw [cursor_no_next, Bool.and_eq_true] at hc
        rcases hfoc : first_layer.cursor.focus with ⟨r, k, p, cs⟩
        have := hc.1
        rw [hfoc, tree_no_next, Bool.and_eq_true] at this
        have hp : props_no_next p = true := this.1
        rw [props_no_next] at hp
        show (first_layer.cursor.focus.props).injections.all inj_no_next = true
        rw [hfoc]
        exact hp
      obtain ⟨out, hout, houtne⟩ := collect_injections_ok s.source first_layer.ranges
        first_layer.cursor.node first_layer.cursor.node.props.injections hfl.1 hinj
      obtain ⟨s1, hadd, hs1, hne1⟩ := add_layers_good reg hreg out s hs houtne
      have hif : (if first_layer.at_node_end then some s
          else
            match collect_injections s.source first_layer.ranges first_layer.cursor.node
                first_layer.cursor.node.props.injections with
            | none => none
            | some injs => add_layers reg s injs) = some
              (if first_layer.at_node_end then s else s1) := by
        by_cases hend : first_layer.at_node_end
        · rw [if_pos hend, if_pos hend]
        · rw [if_neg hend, if_neg hend, hout]
          exact hadd
      simp only [hif]
      by_cases hend : first_layer.at_node_end
      · rw [if_pos hend]
        exact next_loop_tail_good reg fuel first_layer.cursor.node.props s ih hs
          (by rw [hlayers]; simp)
      · rw [if_neg hend]
        exact next_loop_tail_good reg fuel first_layer.cursor.node.props s1 ih hs1
          (hne1 (by rw [hlayers]; simp))

/-- `next()` never reaches a panic branch from a good state with a good
registry. -/
theorem next_event_good (reg : Registry) (hreg : goodReg reg) (fuel : Nat)
    (s : HState) (hs : stateGood s) : resultGood (next_event reg fuel s) := by
  rw [next_event]
  split
  · exact hs
  · exact next_loop_good reg hreg fuel s hs

/-- A registry whose single language fails `set_language` — what a
`LanguageRegistry` implementation may legally return. -/
def c4BadRegistry : Registry :=
  ⟨fun name => if name = [0x78] then some ⟨false, fun _ => none⟩ else none⟩

/-- Properties carrying one injection with literal language `"x"` and an
empty content path (the node itself). -/
def c4InjProps : SProperties := ⟨none, [⟨.literal [0x78], []⟩]⟩

/-- Counterexample to claim C4 as stated: iteration *can* abort after a
successful construction.  With a registry whose injected language fails
`parser.set_language`, the first `next()` call reaches the
`expect("Failed to set language")` panic inside `add_layer`. -/
theorem c4_counterexample :
    next_event c4BadRegistry 5 (initState [0x61, 0x62] (mkLeaf 0 2 c4InjProps))
      = .panicked
    ∧ run c4BadRegistry 6 (initState [0x61, 0x62] (mkLeaf 0 2 c4InjProps))
      = ([], .panicked) := ⟨rfl, rfl⟩

/-- Claim C4, amended: `next()` never returns an error value (the event
type has no error variant), but the iteration path *does* contain reachable
panic branches: `add_layer`'s two `expect`s (injected `set_language` or
parse failure) and the `unimplemented!()` for a `Next` tree step.  Provided
the registry's entries always set their language and parse successfully to
`Next`-free trees (`goodReg`), and every layer has non-empty ranges and a
`Next`-free tree (`stateGood` — true of the initial state for a `Next`-free
primary parse), no call to `next()` panics, and the invariant carries to
the returned state. -/
theorem c4_no_panic_under_good_registry (reg : Registry) (hreg : goodReg reg)
    (fuel : Nat) (s : HState) (hs : stateGood s) :
    next_event reg fuel s ≠ .panicked
      ∧ resultGood (next_event reg fuel s)
      ∧ (∀ (source : List Nat) (tree : STree), tree_no_next tree = true →
          stateGood (initState source tree)) := by
  have h := next_event_good reg hreg fuel s hs
  refine ⟨?_, h, ?_⟩
  · intro hcon
    rw [hcon] at h
    exact h
  · intro source tree hnn l hl
    simp only [initState] at hl
    rcases List.mem_singleton.mp hl with rfl
    refine ⟨by simp [Layer.new], ?_⟩
    rw [Layer.new, cursor_no_next]
    simp [hnn]

/-- Witness for C4 (amended): a concrete injecting state with a concrete
well-behaved registry; the `next()` call does not panic. -/
theorem c4_witness :
    next_event c3Registry 5 (initState [0x61, 0x62] (mkLeaf 0 2 c4InjProps))
      ≠ .panicked
    ∧ resultGood (next_event c3Registry 5 (initState [0x61, 0x62] (mkLeaf 0 2 c4InjProps)))
    ∧ (∀ (source : List Nat) (tree : STree), tree_no_next tree = true →
        stateGood (initState source tree)) :=
  c4_no_panic_under_good_registry c3Registry
    (by
      intro name entry h
      by_cases hn : name = [0x78]
      · rw [c3Registry] at h
        simp only [hn, if_pos] at h
        cases h
        exact ⟨rfl, fun ranges => ⟨mkLeaf 1 2 plainProps, rfl, by decide⟩⟩
      · rw [c3Registry] at h
        simp only [if_neg hn] at h
        exact Option.noConfusion h)
    5 (initState [0x61, 0x62] (mkLeaf 0 2 c4InjProps))
    (by
      intro l hl
      simp only [initState] at hl
      rcases List.mem_singleton.mp hl with rfl
      exact ⟨by simp [Layer.new], by decide⟩)

/-! ## Claim C5: correctness of `intersect_ranges` -/

/-- A byte lies in a (half-open) range. -/
def inRange (r : SRange) (b : Nat) : Prop := r.start_byte ≤ b ∧ b < r.end_byte

/-- A byte is covered by some range of the list. -/
def coveredBy (rs : List SRange) (b : Nat) : Prop := ∃ r ∈ rs, inRange r b

/-- Modelled from the spec's words, for the claim-C5 comparison: a byte
belongs to a node's gap set iff it lies in the node's span but in no direct
child's span. -/
def nodeGapByte (n : STree) (b : Nat) : Prop :=
  inRange n.rng b ∧ ∀ c ∈ n.childList, ¬ inRange c.rng b

/-- The parent-range cursor invariant: ranges are well-formed, sorted and
disjoint. -/
def parentsOk : SRange → List SRange → Prop
  | p, [] => p.start_byte ≤ p.end_byte
  | p, q :: rest => p.start_byte ≤ p.end_byte ∧ p.end_byte ≤ q.start_byte ∧ parentsOk q rest

theorem coveredBy_nil (b : Nat) : coveredBy [] b ↔ False := by
  simp [coveredBy]

theorem coveredBy_cons (r : SRange) (rs : List SRange) (b : Nat) :
    coveredBy (r :: rs) b ↔ inRange r b ∨ coveredBy rs b := by
  simp [coveredBy]

theorem coveredBy_append (l1 l2 : List SRange) (b : Nat) :
    coveredBy (l1 ++ l2) b ↔ coveredBy l1 b ∨ coveredBy l2 b := by
  simp [coveredBy, or_and_right, exists_or]

theorem parentsOk_wf {p : SRange} {ps : List SRange} (h : parentsOk p ps) :
    p.start_byte ≤ p.end_byte := by
  cases ps with
  | nil => exact h
  | cons q rest => exact h.1

theorem parentsOk_tail {p q : SRange} {ps : List SRange} (h : parentsOk p (q :: ps)) :
    parentsOk q ps := h.2.2

theorem parentsOk_mem_start {p : SRange} {ps : List SRange} (h : parentsOk p ps) :
    ∀ q ∈ ps, p.end_byte ≤ q.start_byte := by
  induction ps generalizing p with
  | nil => intro q hq; simp at hq
  | cons x xs ih =>
    intro q hq
    rcases List.mem_cons.mp hq with rfl | hq2
    · exact h.2.1
    · have hx := ih (parentsOk_tail h) q hq2
      have hwfx : x.start_byte ≤ x.end_byte := parentsOk_wf h.2.2
      have hpx : p.end_byte ≤ x.start_byte := h.2.1
      omega

theorem covered_pushIf (s e : Nat) (sp ep : Nat × Nat) (b : Nat) :
    coveredBy (if s < e then [(⟨s, sp, e, ep⟩ : SRange)] else []) b ↔ (s ≤ b ∧ b < e) := by
  by_cases hc : s < e
  · rw [if_pos hc]
    simp [coveredBy, inRange]
  · rw [if_neg hc]
    simp only [coveredBy_nil, false_iff]
    omega

theorem covered_pushIfR (r : SRange) (b : Nat) :
    coveredBy (if r.start_byte < r.end_byte then [r] else []) b ↔ inRange r b := by
  by_cases hc : r.start_byte < r.end_byte
  · rw [if_pos hc]
    simp [coveredBy]
  · rw [if_neg hc]
    simp only [coveredBy_nil, false_iff, inRange]
    omega

theorem mem_pushIf {s e : Nat} {sp ep : Nat × Nat} {r : SRange}
    (h : r ∈ (if s < e then [(⟨s, sp, e, ep⟩ : SRange)] else [])) :
    r.start_byte = s ∧ r.end_byte = e ∧ s < e := by
  by_cases hc : s < e
  · rw [if_pos hc] at h
    rcases List.mem_singleton.mp h with rfl
    exact ⟨rfl, rfl, hc⟩
  · rw [if_neg hc] at h
    exact absurd h (List.not_mem_nil r)

theorem mem_pushIfR {r0 r : SRange}
    (h : r ∈ (if r0.start_byte < r0.end_byte then [r0] else [])) :
    r = r0 ∧ r0.start_byte < r0.end_byte := by
  by_cases hc : r0.start_byte < r0.end_byte
  · rw [if_pos hc] at h
    exact ⟨List.mem_singleton.mp h, hc⟩
  · rw [if_neg hc] at h
    exact absurd h (List.not_mem_nil r)

theorem pairwise_pushIf {c : Prop} [Decidable c] (x : SRange) :
    (if c then [x] else []).Pairwise (fun a b => a.end_byte ≤ b.start_byte) := by
  split <;> simp

theorem coveredBy_lower {l : List SRange} {L b : Nat}
    (h : ∀ q ∈ l, L ≤ q.start_byte) (hc : coveredBy l b) : L ≤ b := by
  rcases hc with ⟨r, hr, hb1, _⟩
  exact le_trans (h r hr) hb1

theorem parentsOk_mem_start' {p : SRange} {ps : List SRange} (h : parentsOk p ps) :
    ∀ q ∈ p :: ps, p.start_byte ≤ q.start_byte := by
  intro q hq
  rcases List.mem_cons.mp hq with rfl | hq2
  · exact le_refl _
  · have h1 := parentsOk_mem_start h q hq2
    have h2 := parentsOk_wf h
    omega

/-- Functional description of one `while`-body iteration: the pushed ranges
cover exactly the intersection of the working range and the current parent,
are well-formed, and the continuation value is exact. -/
theorem clipOne_spec (rng parent : SRange) (hrng : rng.start_byte ≤ rng.end_byte)
    (hpw : parent.start_byte ≤ parent.end_byte) :
    (∀ b, coveredBy (clipOne rng parent).1 b ↔ (inRange rng b ∧ inRange parent b))
    ∧ (∀ r ∈ (clipOne rng parent).1,
        rng.start_byte ≤ r.start_byte ∧ r.end_byte ≤ rng.end_byte
          ∧ r.start_byte < r.end_byte ∧ r.end_byte ≤ parent.end_byte)
    ∧ (clipOne rng parent).1.Pairwise (fun a b => a.end_byte ≤ b.start_byte)
    ∧ (∀ rng2, (clipOne rng parent).2 = some rng2 →
        rng2.end_byte = rng.end_byte
        ∧ rng.start_byte ≤ rng2.start_byte
        ∧ parent.end_byte ≤ rng2.start_byte
        ∧ rng2.start_byte ≤ rng2.end_byte
        ∧ parent.end_byte ≤ rng.end_byte
        ∧ (∀ b, inRange rng2 b ↔ (inRange rng b ∧ parent.end_byte ≤ b)))
    ∧ ((clipOne rng parent).2 = none → rng.end_byte ≤ parent.end_byte) := by
  by_cases h1 : parent.start_byte ≤ rng.end_byte
  · by_cases h2 : parent.end_byte > rng.start_byte
    · by_cases h3 : rng.start_byte < parent.start_byte
      · by_cases h4 : parent.end_byte < rng.end_byte
        · -- slide, with the gap start pulled up to the parent start
          simp only [clipOne, if_pos h1, if_pos h2, if_pos h3, if_pos h4]
          refine ⟨?_, ?_, ?_, ?_, ?_⟩
          · intro b
            rw [covered_pushIf]
            simp only [inRange]
            omega
          · intro r hr
            obtain ⟨hs, he, hlt⟩ := mem_pushIf hr
            refine ⟨by omega, by omega, by omega, by omega⟩
          · exact pairwise_pushIf _
          · intro rng2 h
            injection h with h5
            subst h5
            exact ⟨rfl,
              show rng.start_byte ≤ parent.end_byte by omega,
              show parent.end_byte ≤ parent.end_byte by omega,
              show parent.end_byte ≤ rng.end_byte by omega,
              show parent.end_byte ≤ rng.end_byte by omega,
              fun b =>
                show (parent.end_byte ≤ b ∧ b < rng.end_byte) ↔
                    ((rng.start_byte ≤ b ∧ b < rng.end_byte) ∧ parent.end_byte ≤ b) by omega⟩
          · intro h
            exact absurd h (by simp)
        · -- break, with the gap start pulled up to the parent start
          simp only [clipOne, if_pos h1, if_pos h2, if_pos h3, if_neg h4]
          refine ⟨?_, ?_, ?_, ?_, ?_⟩
          · intro b
            rw [covered_pushIf]
            simp only [inRange]
            omega
          · intro r hr
            obtain ⟨hs, he, hlt⟩ := mem_pushIf hr
            refine ⟨by omega, by omega, by omega, by omega⟩
          · exact pairwise_pushIf _
          · intro rng2 h
            exact absurd h (by simp)
          · intro _
            omega
      · by_cases h4 : parent.end_byte < rng.end_byte
        · -- slide, gap start already at or past the parent start
          simp only [clipOne, if_pos h1, if_pos h2, if_neg h3, if_pos h4]
          refine ⟨?_, ?_, ?_, ?_, ?_⟩
          · intro b
            simp only [coveredBy_cons, coveredBy_nil, or_false, inRange]
            omega
          · intro r hr
            rcases List.mem_singleton.mp hr with rfl
            exact ⟨show rng.start_byte ≤ rng.start_byte by omega,
              show parent.end_byte ≤ rng.end_byte by omega,
              show rng.start_byte < parent.end_byte by omega,
              show parent.end_byte ≤ parent.end_byte by omega⟩
          · simp
          · intro rng2 h
            injection h with h5
            subst h5
            exact ⟨rfl,
              show rng.start_byte ≤ parent.end_byte by omega,
              show parent.end_byte ≤ parent.end_byte by omega,
              show parent.end_byte ≤ rng.end_byte by omega,
              show parent.end_byte ≤ rng.end_byte by omega,
              fun b =>
                show (parent.end_byte ≤ b ∧ b < rng.end_byte) ↔
                    ((rng.start_byte ≤ b ∧ b < rng.end_byte) ∧ parent.end_byte ≤ b) by omega⟩
          · intro h
            exact absurd h (by simp)
        · -- break, gap start already at or past the parent start
          simp only [clipOne, if_pos h1, if_pos h2, if_neg h3, if_neg h4]
          refine ⟨?_, ?_, ?_, ?_, ?_⟩
          · intro b
            rw [covered_pushIfR]
            simp only [inRange]
            omega
          · intro r hr
            obtain ⟨rfl, hlt⟩ := mem_pushIfR hr
            refine ⟨by omega, by omega, by omega, by omega⟩
          · exact pairwise_pushIf _
          · intro rng2 h
            exact absurd h (by simp)
          · intro _
            omega
    · -- no overlap with the current parent: advance, nothing pushed
      simp only [clipOne, if_pos h1, if_neg h2]
      refine ⟨?_, ?_, ?_, ?_, ?_⟩
      · intro b
        simp only [coveredBy_nil, false_iff, inRange]
        omega
      · intro r hr
        exact absurd hr (List.not_mem_nil r)
      · exact List.Pairwise.nil
      · intro rng2 h
        injection h with h5
        subst h5
        exact ⟨rfl, le_refl _,
          show parent.end_byte ≤ rng.start_byte by omega,
          hrng,
          show parent.end_byte ≤ rng.end_byte by omega,
          fun b =>
            show (rng.start_byte ≤ b ∧ b < rng.end_byte) ↔
                ((rng.start_byte ≤ b ∧ b < rng.end_byte) ∧ parent.end_byte ≤ b) by omega⟩
      · intro h
        exact absurd h (by simp)
  · -- the while test fails at once: keep the parent, nothing pushed
    simp only [clipOne, if_neg h1]
    refine ⟨?_, ?_, ?_, ?_, ?_⟩
    · intro b
      simp only [coveredBy_nil, false_iff, inRange]
      omega
    · intro r hr
      exact absurd hr (List.not_mem_nil r)
    · exact List.Pairwise.nil
    · intro rng2 h
      exact absurd h (by simp)
    · intro _
      omega

/-- Correctness of the full `while` loop for one gap: the pushed ranges
cover exactly the gap's intersection with the union of the remaining parent
ranges, they stay within the gap, are positive and sorted; the surviving
parent cursor is a suffix of the input, every skipped parent ending inside
the gap; on the early return every parent ends inside the gap. -/
theorem clipGap_spec :
    ∀ (parents : List SRange) (rng parent : SRange),
      parentsOk parent parents → rng.start_byte ≤ rng.end_byte →
      (∀ b, coveredBy (clipGap rng parent parents).1 b ↔
          (inRange rng b ∧ coveredBy (parent :: parents) b))
      ∧ (∀ r ∈ (clipGap rng parent parents).1,
          rng.start_byte ≤ r.start_byte ∧ r.end_byte ≤ rng.end_byte ∧
            r.start_byte < r.end_byte)
      ∧ (clipGap rng parent parents).1.Pairwise
          (fun a b => a.end_byte ≤ b.start_byte)
      ∧ (∀ p2 ps2, (clipGap rng parent parents).2 = some (p2, ps2) →
          ∃ dropped, parent :: parents = dropped ++ p2 :: ps2
            ∧ (∀ d ∈ dropped, d.end_byte ≤ rng.end_byte) ∧ parentsOk p2 ps2)
      ∧ ((clipGap rng parent parents).2 = none →
          ∀ d ∈ parent :: parents, d.end_byte ≤ rng.end_byte) := by
  intro parents
  induction parents with
  | nil =>
    intro rng parent hpo hrng
    have hpw : parent.start_byte ≤ parent.end_byte := parentsOk_wf hpo
    obtain ⟨A, B, C, D, E⟩ := clipOne_spec rng parent hrng hpw
    rcases hone : clipOne rng parent with ⟨pushed, _ | rng2⟩
    · -- the loop keeps the parent
      have hcg1 : (clipGap rng parent []).1 = pushed := by rw [clipGap, hone]
      have hcg2 : (clipGap rng parent []).2 = some (parent, []) := by rw [clipGap, hone]
      have A' : ∀ b, coveredBy pushed b ↔ (inRange rng b ∧ inRange parent b) := by
        rw [hone] at A; exact A
      have B' : ∀ r ∈ pushed, rng.start_byte ≤ r.start_byte ∧ r.end_byte ≤ rng.end_byte
          ∧ r.start_byte < r.end_byte ∧ r.end_byte ≤ parent.end_byte := by
        rw [hone] at B; exact B
      have C' : pushed.Pairwise (fun a b => a.end_byte ≤ b.start_byte) := by
        rw [hone] at C; exact C
      simp only [hcg1, hcg2]
      refine ⟨?_, ?_, C', ?_, ?_⟩
      · intro b
        rw [A' b, coveredBy_cons, coveredBy_nil, or_false]
      · intro r hr
        obtain ⟨b1, b2, b3, _⟩ := B' r hr
        exact ⟨b1, b2, b3⟩
      · intro p2 ps2 h
        obtain ⟨h5, h6⟩ : parent = p2 ∧ ([] : List SRange) = ps2 := by
          simpa using h
        subst h5; subst h6
        exact ⟨[], rfl, by simp, hpo⟩
      · intro h
        exact absurd h (by simp)
    · -- advance past the only parent: early return
      have hcg1 : (clipGap rng parent []).1 = pushed := by rw [clipGap, hone]
      have hcg2 : (clipGap rng parent []).2 = none := by rw [clipGap, hone]
      have A' : ∀ b, coveredBy pushed b ↔ (inRange rng b ∧ inRange parent b) := by
        rw [hone] at A; exact A
      have B' : ∀ r ∈ pushed, rng.start_byte ≤ r.start_byte ∧ r.end_byte ≤ rng.end_byte
          ∧ r.start_byte < r.end_byte ∧ r.end_byte ≤ parent.end_byte := by
        rw [hone] at B; exact B
      have C' : pushed.Pairwise (fun a b => a.end_byte ≤ b.start_byte) := by
        rw [hone] at C; exact C
      have hpe : parent.end_byte ≤ rng.end_byte := by
        have hD : (pushed, some rng2).2 = some rng2 := rfl
        rw [hone] at D
        exact (D rng2 hD).2.2.2.2.1
      simp only [hcg1, hcg2]
      refine ⟨?_, ?_, C', ?_, ?_⟩
      · intro b
        rw [A' b, coveredBy_cons, coveredBy_nil, or_false]
      · intro r hr
        obtain ⟨b1, b2, b3, _⟩ := B' r hr
        exact ⟨b1, b2, b3⟩
      · intro p2 ps2 h
        exact absurd h (by simp)
      · intro _ d hd
        rcases List.mem_cons.mp hd with rfl | hd2
        · exact hpe
        · exact absurd hd2 (List.not_mem_nil d)
  | cons p ps ih =>
    intro rng parent hpo hrng
    have hpw : parent.start_byte ≤ parent.end_byte := hpo.1
    have hpp : parent.end_byte ≤ p.start_byte := hpo.2.1
    have hpo' : parentsOk p ps := hpo.2.2
    obtain ⟨A, B, C, D, E⟩ := clipOne_spec rng parent hrng hpw
    rcases hone : clipOne rng parent with ⟨pushed, _ | rng2⟩
    · -- the loop keeps the parent
      have hcg1 : (clipGap rng parent (p :: ps)).1 = pushed := by rw [clipGap, hone]
      have hcg2 : (clipGap rng parent (p :: ps)).2 = some (parent, p :: ps) := by
        rw [clipGap, hone]
      have A' : ∀ b, coveredBy pushed b ↔ (inRange rng b ∧ inRange parent b) := by
        rw [hone] at A; exact A
      have B' : ∀ r ∈ pushed, rng.start_byte ≤ r.start_byte ∧ r.end_byte ≤ rng.end_byte
          ∧ r.start_byte < r.end_byte ∧ r.end_byte ≤ parent.end_byte := by
        rw [hone] at B; exact B
      have C' : pushed.Pairwise (fun a b => a.end_byte ≤ b.start_byte) := by
        rw [hone] at C; exact C
      have hre : rng.end_byte ≤ parent.end_byte := by
        have hE : (pushed, (none : Option SRange)).2 = none := rfl
        rw [hone] at E
        exact E hE
      simp only [hcg1, hcg2]
      refine ⟨?_, ?_, C', ?_, ?_⟩
      · intro b
        rw [A' b, coveredBy_cons parent (p :: ps) b]
        constructor
        · rintro ⟨h5, h6⟩
          exact ⟨h5, Or.inl h6⟩
        · rintro ⟨h5, h6 | h6⟩
          · exact ⟨h5, h6⟩
          · rcases h5 with ⟨h5a, h5b⟩
            have h7 := coveredBy_lower (parentsOk_mem_start' hpo') h6
            omega
      · intro r hr
        obtain ⟨b1, b2, b3, _⟩ := B' r hr
        exact ⟨b1, b2, b3⟩
      · intro p2 ps2 h
        obtain ⟨h5, h6⟩ : parent = p2 ∧ p :: ps = ps2 := by
          simpa using h
        subst h5; subst h6
        exact ⟨[], rfl, by simp, hpo⟩
      · intro h
        exact absurd h (by simp)
    · -- advance: continue clipping against the remaining parents
      have hcg1 : (clipGap rng parent (p :: ps)).1 = pushed ++ (clipGap rng2 p ps).1 := by
        rw [clipGap, hone]
      have hcg2 : (clipGap rng parent (p :: ps)).2 = (clipGap rng2 p ps).2 := by
        rw [clipGap, hone]
      have A' : ∀ b, coveredBy pushed b ↔ (inRange rng b ∧ inRange parent b) := by
        rw [hone] at A; exact A
      have B' : ∀ r ∈ pushed, rng.start_byte ≤ r.start_byte ∧ r.end_byte ≤ rng.end_byte
          ∧ r.start_byte < r.end_byte ∧ r.end_byte ≤ parent.end_byte := by
        rw [hone] at B; exact B
      have C' : pushed.Pairwise (fun a b => a.end_byte ≤ b.start_byte) := by
        rw [hone] at C; exact C
      obtain ⟨hend, hs1, hs2, hwf2, hpe, hiff⟩ := by
        have hD : (pushed, some rng2).2 = some rng2 := rfl
        rw [hone] at D
        exact D rng2 hD
      obtain ⟨ih1, ih2, ih3, ih4, ih5⟩ := ih rng2 p hpo' hwf2
      simp only [hcg1, hcg2]
      refine ⟨?_, ?_, ?_, ?_, ?_⟩
      · intro b
        rw [coveredBy_append, A' b, ih1 b, coveredBy_cons parent (p :: ps) b]
        constructor
        · rintro (⟨h5, h6⟩ | ⟨h5, h6⟩)
          · exact ⟨h5, Or.inl h6⟩
          · exact ⟨((hiff b).mp h5).1, Or.inr h6⟩
        · rintro ⟨h5, h6 | h6⟩
          · exact Or.inl ⟨h5, h6⟩
          · refine Or.inr ⟨(hiff b).mpr ⟨h5, ?_⟩, h6⟩
            have h7 := coveredBy_lower (parentsOk_mem_start' hpo') h6
            omega
      · intro r hr
        rcases List.mem_append.mp hr with h | h
        · obtain ⟨b1, b2, b3, _⟩ := B' r h
          exact ⟨b1, b2, b3⟩
        · obtain ⟨b1, b2, b3⟩ := ih2 r h
          refine ⟨by omega, by omega, b3⟩
      · rw [List.pairwise_append]
        refine ⟨C', ih3, ?_⟩
        intro a ha b hb
        have h5 := (B' a ha).2.2.2
        have h6 := (ih2 b hb).1
        omega
      · intro p2 ps2 h
        obtain ⟨dr, hdr, hde, hp2⟩ := ih4 p2 ps2 h
        refine ⟨parent :: dr, ?_, ?_, hp2⟩
        · rw [List.cons_append, ← hdr]
        · intro d hd
          rcases List.mem_cons.mp hd with rfl | hd2
          · exact hpe
          · have h5 := hde d hd2
            omega
      · intro h d hd
        have h5 := ih5 h
        rcases List.mem_cons.mp hd with rfl | hd2
        · exact hpe
        · have h6 := h5 d hd2
          omega

/-- The chain invariant of the per-node child-range sweep: each listed range
starts at or after the previous one ends, and is well-formed. -/
def rangesChain : SRange → List SRange → Prop
  | _, [] => True
  | pre, cr :: rest =>
    pre.end_byte ≤ cr.start_byte ∧ cr.start_byte ≤ cr.end_byte ∧ rangesChain cr rest

/-- The bytes lying in one of the gaps generated by the child-range sweep:
between the previous range's end and the next range's start. -/
def gapsCover : SRange → List SRange → Nat → Prop
  | _, [], _ => False
  | pre, cr :: rest, b =>
    (pre.end_byte ≤ b ∧ b < cr.start_byte) ∨ gapsCover cr rest b

theorem rangesChain_mem_lower {pre : SRange} {l : List SRange}
    (h : rangesChain pre l) : ∀ cr ∈ l, pre.end_byte ≤ cr.start_byte := by
  induction l generalizing pre with
  | nil => intro cr hcr; exact absurd hcr (List.not_mem_nil cr)
  | cons x xs ih =>
    intro cr hcr
    rcases List.mem_cons.mp hcr with rfl | hcr2
    · exact h.1
    · have h1 := h.1
      have h2 := h.2.1
      have h3 := ih h.2.2 cr hcr2
      omega

theorem gapsCover_lower {pre : SRange} {l : List SRange} {b : Nat}
    (hch : rangesChain pre l) (h : gapsCover pre l b) : pre.end_byte ≤ b := by
  induction l generalizing pre with
  | nil => exact absurd h (by simp [gapsCover])
  | cons x xs ih =>
    rcases h with ⟨h1, _⟩ | h2
    · exact h1
    · have h3 := ih hch.2.2 h2
      have h4 := hch.1
      have h5 := hch.2.1
      omega

theorem rangesChain_last_bound :
    ∀ (l : List SRange) (pre f : SRange), rangesChain pre (l ++ [f]) →
      ∀ cr ∈ l ++ [f], cr.start_byte ≤ f.start_byte := by
  intro l
  induction l with
  | nil =>
    intro pre f _ cr hcr
    rcases List.mem_singleton.mp hcr with rfl
    exact le_refl _
  | cons x xs ih =>
    intro pre f hch cr hcr
    rcases List.mem_cons.mp hcr with rfl | hcr2
    · have h1 : cr.start_byte ≤ cr.end_byte := hch.2.1
      have h2 : cr.end_byte ≤ f.start_byte := by
        cases xs with
        | nil => exact hch.2.2.1
        | cons y ys =>
          have h3 : cr.end_byte ≤ y.start_byte := hch.2.2.1
          have h4 := ih cr f hch.2.2 y (by simp)
          omega
      omega
    · exact ih x f hch.2.2 cr hcr2

theorem rangesChain_pre_bound {pre f : SRange} {l : List SRange}
    (h : rangesChain pre (l ++ [f])) : pre.end_byte ≤ f.start_byte := by
  cases l with
  | nil => exact h.1
  | cons x xs =>
    have h1 : pre.end_byte ≤ x.start_byte := h.1
    have h2 := rangesChain_last_bound (x :: xs) pre f h x (by simp)
    omega

/-- A byte is in a gap of the chained sweep exactly when it lies after the
seed range, before the final range, and in none of the listed ranges. -/
theorem gapsCover_iff :
    ∀ (l : List SRange) (pre f : SRange) (b : Nat), rangesChain pre (l ++ [f]) →
      (gapsCover pre (l ++ [f]) b ↔
        (pre.end_byte ≤ b ∧ b < f.start_byte
          ∧ ∀ cr ∈ l, ¬(cr.start_byte ≤ b ∧ b < cr.end_byte))) := by
  intro l
  induction l with
  | nil =>
    intro pre f b _
    simp only [List.nil_append, gapsCover, or_false]
    constructor
    · rintro ⟨h1, h2⟩
      exact ⟨h1, h2, by simp⟩
    · rintro ⟨h1, h2, _⟩
      exact ⟨h1, h2⟩
  | cons x xs ih =>
    intro pre f b hch
    have h1 : pre.end_byte ≤ x.start_byte := hch.1
    have h2 : x.start_byte ≤ x.end_byte := hch.2.1
    have h3 : rangesChain x (xs ++ [f]) := hch.2.2
    have h4 : x.end_byte ≤ f.start_byte := rangesChain_pre_bound h3
    have h5 := rangesChain_mem_lower h3
    simp only [List.cons_append, gapsCover, List.append_eq]
    rw [ih x f b h3]
    constructor
    · rintro (⟨hb1, hb2⟩ | ⟨hb1, hb2, hall⟩)
      · refine ⟨hb1, by omega, ?_⟩
        intro cr hcr
        rcases List.mem_cons.mp hcr with rfl | hcr2
        · omega
        · have h6 := h5 cr (List.mem_append_left [f] hcr2)
          omega
      · refine ⟨by omega, hb2, ?_⟩
        intro cr hcr
        rcases List.mem_cons.mp hcr with rfl | hcr2
        · omega
        · exact hall cr hcr2
    · rintro ⟨hb1, hb2, hall⟩
      by_cases hx : b < x.start_byte
      · exact Or.inl ⟨hb1, hx⟩
      · have h6 := hall x (by simp)
        refine Or.inr ⟨by omega, hb2, ?_⟩
        intro cr hcr
        exact hall cr (List.mem_cons_of_mem x hcr)

/-- Correctness of the per-node child-range sweep: the pushed ranges cover
exactly the node's gap bytes that are covered by the remaining parent
ranges; they are positive, sorted, bounded by the seed's end and the bound
`B` on the listed starts, and parents are only dropped once they end at or
before `B`. -/
theorem gapsLoop_spec :
    ∀ (childRanges : List SRange) (pre parent : SRange) (parents : List SRange) (B : Nat),
      rangesChain pre childRanges → parentsOk parent parents →
      (∀ cr ∈ childRanges, cr.start_byte ≤ B) →
      (∀ b, coveredBy (gapsLoop childRanges pre parent parents).1 b ↔
          (gapsCover pre childRanges b ∧ coveredBy (parent :: parents) b))
      ∧ (∀ r ∈ (gapsLoop childRanges pre parent parents).1,
          pre.end_byte ≤ r.start_byte ∧ r.end_byte ≤ B ∧ r.start_byte < r.end_byte)
      ∧ (gapsLoop childRanges pre parent parents).1.Pairwise
          (fun a b => a.end_byte ≤ b.start_byte)
      ∧ (∀ p2 ps2, (gapsLoop childRanges pre parent parents).2 = some (p2, ps2) →
          ∃ dropped, parent :: parents = dropped ++ p2 :: ps2
            ∧ (∀ d ∈ dropped, d.end_byte ≤ B) ∧ parentsOk p2 ps2)
      ∧ ((gapsLoop childRanges pre parent parents).2 = none →
          ∀ d ∈ parent :: parents, d.end_byte ≤ B) := by
  intro childRanges
  induction childRanges with
  | nil =>
    intro pre parent parents B _ hpo _
    simp only [gapsLoop]
    refine ⟨?_, ?_, List.Pairwise.nil, ?_, ?_⟩
    · intro b
      simp [gapsCover, coveredBy]
    · intro r hr
      exact absurd hr (List.not_mem_nil r)
    · intro p2 ps2 h
      obtain ⟨h5, h6⟩ : parent = p2 ∧ parents = ps2 := by simpa using h
      subst h5; subst h6
      exact ⟨[], rfl, by simp, hpo⟩
    · intro h
      exact absurd h (by simp)
  | cons cr rest ih =>
    intro pre parent parents B hch hpo hB
    have hg1 : pre.end_byte ≤ cr.start_byte := hch.1
    have hcrwf : cr.start_byte ≤ cr.end_byte := hch.2.1
    have hch' : rangesChain cr rest := hch.2.2
    have hBcr : cr.start_byte ≤ B := hB cr (by simp)
    have hBrest : ∀ cr' ∈ rest, cr'.start_byte ≤ B := by
      intro cr' h
      exact hB cr' (List.mem_cons_of_mem cr h)
    by_cases hskip : cr.start_byte < parent.start_byte
    · -- the whole gap lies before the current parent: continue
      obtain ⟨ih1, ih2, ih3, ih4, ih5⟩ := ih cr parent parents B hch' hpo hBrest
      have hpl := parentsOk_mem_start' hpo
      simp only [gapsLoop, if_pos hskip]
      refine ⟨?_, ?_, ih3, ih4, ih5⟩
      · intro b
        rw [ih1 b]
        simp only [gapsCover]
        constructor
        · rintro ⟨h5, h6⟩
          exact ⟨Or.inr h5, h6⟩
        · rintro ⟨h5 | h5, h6⟩
          · have h7 := coveredBy_lower hpl h6
            omega
          · exact ⟨h5, h6⟩
      · intro r hr
        obtain ⟨b1, b2, b3⟩ := ih2 r hr
        refine ⟨by omega, b2, b3⟩
    · -- run the while loop on this gap
      obtain ⟨cg1, cg2, cg3, cg4, cg5⟩ :=
        clipGap_spec parents (⟨pre.end_byte, pre.end_point, cr.start_byte, cr.start_point⟩ : SRange)
          parent hpo (show pre.end_byte ≤ cr.start_byte from hg1)
      rcases hcg : clipGap (⟨pre.end_byte, pre.end_point, cr.start_byte, cr.start_point⟩ : SRange)
          parent parents with ⟨out1, _ | ⟨p1, ps1⟩⟩
      · -- early return: parents exhausted inside this gap
        have cg1' : ∀ b, coveredBy out1 b ↔
            ((pre.end_byte ≤ b ∧ b < cr.start_byte) ∧ coveredBy (parent :: parents) b) := by
          rw [hcg] at cg1; exact cg1
        have cg2' : ∀ r ∈ out1, pre.end_byte ≤ r.start_byte ∧ r.end_byte ≤ cr.start_byte
            ∧ r.start_byte < r.end_byte := by
          rw [hcg] at cg2; exact cg2
        have cg3' : out1.Pairwise (fun a b => a.end_byte ≤ b.start_byte) := by
          rw [hcg] at cg3; exact cg3
        have cg5' : ∀ d ∈ parent :: parents, d.end_byte ≤ cr.start_byte := by
          rw [hcg] at cg5; exact cg5 rfl
        simp only [gapsLoop, if_neg hskip, hcg]
        refine ⟨?_, ?_, cg3', ?_, ?_⟩
        · intro b
          rw [cg1' b]
          simp only [gapsCover]
          constructor
          · rintro ⟨h5, h6⟩
            exact ⟨Or.inl h5, h6⟩
          · rintro ⟨h5 | h5, h6⟩
            · exact ⟨h5, h6⟩
            · have h7 := gapsCover_lower hch' h5
              rcases h6 with ⟨d, hd, hb1, hb2⟩
              have h8 := cg5' d hd
              omega
        · intro r hr
          obtain ⟨b1, b2, b3⟩ := cg2' r hr
          exact ⟨b1, by omega, b3⟩
        · intro p2 ps2 h
          exact absurd h (by simp)
        · intro _ d hd
          have h5 := cg5' d hd
          omega
      · -- the parent cursor survived this gap: sweep the remaining ranges
        have cg1' : ∀ b, coveredBy out1 b ↔
            ((pre.end_byte ≤ b ∧ b < cr.start_byte) ∧ coveredBy (parent :: parents) b) := by
          rw [hcg] at cg1; exact cg1
        have cg2' : ∀ r ∈ out1, pre.end_byte ≤ r.start_byte ∧ r.end_byte ≤ cr.start_byte
            ∧ r.start_byte < r.end_byte := by
          rw [hcg] at cg2; exact cg2
        have cg3' : out1.Pairwise (fun a b => a.end_byte ≤ b.start_byte) := by
          rw [hcg] at cg3; exact cg3
        obtain ⟨dr, hdr, hde, hp1⟩ : ∃ dropped, parent :: parents = dropped ++ p1 :: ps1
            ∧ (∀ d ∈ dropped, d.end_byte ≤ cr.start_byte) ∧ parentsOk p1 ps1 := by
          rw [hcg] at cg4; exact cg4 p1 ps1 rfl
        obtain ⟨ih1, ih2, ih3, ih4, ih5⟩ := ih cr p1 ps1 B hch' hp1 hBrest
        simp only [gapsLoop, if_neg hskip, hcg]
        refine ⟨?_, ?_, ?_, ?_, ?_⟩
        · intro b
          rw [coveredBy_append, cg1' b, ih1 b]
          simp only [gapsCover]
          constructor
          · rintro (⟨h5, h6⟩ | ⟨h5, h6⟩)
            · exact ⟨Or.inl h5, h6⟩
            · refine ⟨Or.inr h5, ?_⟩
              rw [hdr, coveredBy_append]
              exact Or.inr h6
          · rintro ⟨h5 | h5, h6⟩
            · exact Or.inl ⟨h5, h6⟩
            · refine Or.inr ⟨h5, ?_⟩
              rw [hdr, coveredBy_append] at h6
              rcases h6 with h6 | h6
              · have h7 := gapsCover_lower hch' h5
                rcases h6 with ⟨d, hd, hb1, hb2⟩
                have h8 := hde d hd
                omega
              · exact h6
        · intro r hr
          rcases List.mem_append.mp hr with h | h
          · obtain ⟨b1, b2, b3⟩ := cg2' r h
            exact ⟨b1, by omega, b3⟩
          · obtain ⟨b1, b2, b3⟩ := ih2 r h
            refine ⟨by omega, b2, b3⟩
        · rw [List.pairwise_append]
          refine ⟨cg3', ih3, ?_⟩
          intro a ha b hb
          have h5 := (cg2' a ha).2.1
          have h6 := (ih2 b hb).1
          omega
        · intro p2 ps2 h
          obtain ⟨dr2, hdr2, hde2, hp2⟩ := ih4 p2 ps2 h
          refine ⟨dr ++ dr2, ?_, ?_, hp2⟩
          · rw [hdr, hdr2, List.append_assoc]
          · intro d hd
            rcases List.mem_append.mp hd with h7 | h7
            · have h8 := hde d h7
              omega
            · exact hde2 d h7
        · intro h d hd
          have h5 := ih5 h
          rw [hdr] at hd
          rcases List.mem_append.mp hd with h7 | h7
          · have h8 := hde d h7
            omega
          · exact h5 d h7

/-- Well-formedness of a node for the sweep: its direct children's ranges
are well-formed, sorted, disjoint, and contained in order between the
node's start and end (the chain against the seed and following ranges). -/
def nodeOk (n : STree) : Prop :=
  rangesChain (precedingSeed n) (n.childList.map STree.rng ++ [followingRange n])

/-- Well-formedness of the node list: each node is `nodeOk` and nodes are
in source order, each ending before every later node starts. -/
def nodesOk : List STree → Prop
  | [] => True
  | n :: rest => nodeOk n ∧ (∀ m ∈ rest, n.end_byte ≤ m.rng.start_byte) ∧ nodesOk rest

theorem nodeOk_child_bound {n : STree} (hn : nodeOk n) :
    ∀ cr ∈ n.childList.map STree.rng ++ [followingRange n], cr.start_byte ≤ n.end_byte :=
  rangesChain_last_bound (n.childList.map STree.rng) (precedingSeed n) (followingRange n) hn

/-- A byte is in a sweep gap of a node exactly when it is in the node's
span and in no direct child's span. -/
theorem gapsCover_node (n : STree) (hn : nodeOk n) (b : Nat) :
    gapsCover (precedingSeed n) (n.childList.map STree.rng ++ [followingRange n]) b ↔
      nodeGapByte n b := by
  rw [gapsCover_iff (n.childList.map STree.rng) (precedingSeed n) (followingRange n) b hn]
  constructor
  · rintro ⟨h1, h2, h3⟩
    exact ⟨⟨h1, h2⟩, fun c hc => h3 c.rng (List.mem_map.mpr ⟨c, hc, rfl⟩)⟩
  · rintro ⟨⟨h1, h2⟩, h3⟩
    refine ⟨h1, h2, ?_⟩
    intro cr hcr
    obtain ⟨c, hc, rfl⟩ := List.mem_map.mp hcr
    exact h3 c hc

/-- Correctness of the outer node loop of `intersect_ranges`. -/
theorem nodesLoop_spec :
    ∀ (nodes : List STree) (parent : SRange) (parents : List SRange),
      nodesOk nodes → parentsOk parent parents →
      (∀ b, coveredBy (nodesLoop nodes parent parents).1 b ↔
          ((∃ n ∈ nodes, nodeGapByte n b) ∧ coveredBy (parent :: parents) b))
      ∧ (∀ r ∈ (nodesLoop nodes parent parents).1,
          ∃ n ∈ nodes, n.rng.start_byte ≤ r.start_byte ∧ r.end_byte ≤ n.end_byte
            ∧ r.start_byte < r.end_byte)
      ∧ (nodesLoop nodes parent parents).1.Pairwise
          (fun a b => a.end_byte ≤ b.start_byte)
      ∧ (∀ p2 ps2, (nodesLoop nodes parent parents).2 = some (p2, ps2) →
          ∃ dropped, parent :: parents = dropped ++ p2 :: ps2
            ∧ (∀ d ∈ dropped, ∃ n ∈ nodes, d.end_byte ≤ n.end_byte) ∧ parentsOk p2 ps2)
      ∧ ((nodesLoop nodes parent parents).2 = none →
          ∀ d ∈ parent :: parents, ∃ n ∈ nodes, d.end_byte ≤ n.end_byte) := by
  intro nodes
  induction nodes with
  | nil =>
    intro parent parents _ hpo
    simp only [nodesLoop]
    refine ⟨?_, ?_, List.Pairwise.nil, ?_, ?_⟩
    · intro b
      simp [coveredBy]
    · intro r hr
      exact absurd hr (List.not_mem_nil r)
    · intro p2 ps2 h
      obtain ⟨h5, h6⟩ : parent = p2 ∧ parents = ps2 := by simpa using h
      subst h5; subst h6
      exact ⟨[], rfl, by simp, hpo⟩
    · intro h
      exact absurd h (by simp)
  | cons n rest ih =>
    intro parent parents hok hpo
    have hn : nodeOk n := hok.1
    have hsep : ∀ m ∈ rest, n.end_byte ≤ m.rng.start_byte := hok.2.1
    have hrest : nodesOk rest := hok.2.2
    obtain ⟨g1, g2, g3, g4, g5⟩ :=
      gapsLoop_spec (n.childList.map STree.rng ++ [followingRange n]) (precedingSeed n)
        parent parents n.end_byte hn hpo (nodeOk_child_bound hn)
    rcases hgl : gapsLoop (n.childList.map STree.rng ++ [followingRange n]) (precedingSeed n)
        parent parents with ⟨out1, _ | ⟨p1, ps1⟩⟩
    · -- parents exhausted inside this node
      have g1' : ∀ b, coveredBy out1 b ↔
          (gapsCover (precedingSeed n) (n.childList.map STree.rng ++ [followingRange n]) b
            ∧ coveredBy (parent :: parents) b) := by
        rw [hgl] at g1; exact g1
      have g2' : ∀ r ∈ out1, n.rng.start_byte ≤ r.start_byte ∧ r.end_byte ≤ n.end_byte
          ∧ r.start_byte < r.end_byte := by
        rw [hgl] at g2; exact g2
      have g3' : out1.Pairwise (fun a b => a.end_byte ≤ b.start_byte) := by
        rw [hgl] at g3; exact g3
      have g5' : ∀ d ∈ parent :: parents, d.end_byte ≤ n.end_byte := by
        rw [hgl] at g5; exact g5 rfl
      simp only [nodesLoop, hgl]
      refine ⟨?_, ?_, g3', ?_, ?_⟩
      · intro b
        rw [g1' b, gapsCover_node n hn b]
        constructor
        · rintro ⟨h5, h6⟩
          exact ⟨⟨n, by simp, h5⟩, h6⟩
        · rintro ⟨⟨m, hm, h5⟩, h6⟩
          rcases List.mem_cons.mp hm with rfl | hm2
          · exact ⟨h5, h6⟩
          · rcases h6 with ⟨d, hd, hb1, hb2⟩
            have h7 := g5' d hd
            have h8 := hsep m hm2
            have h9 : m.rng.start_byte ≤ b := h5.1.1
            omega
      · intro r hr
        exact ⟨n, by simp, g2' r hr⟩
      · intro p2 ps2 h
        exact absurd h (by simp)
      · intro _ d hd
        exact ⟨n, by simp, g5' d hd⟩
    · -- continue with the remaining nodes
      have g1' : ∀ b, coveredBy out1 b ↔
          (gapsCover (precedingSeed n) (n.childList.map STree.rng ++ [followingRange n]) b
            ∧ coveredBy (parent :: parents) b) := by
        rw [hgl] at g1; exact g1
      have g2' : ∀ r ∈ out1, n.rng.start_byte ≤ r.start_byte ∧ r.end_byte ≤ n.end_byte
          ∧ r.start_byte < r.end_byte := by
        rw [hgl] at g2; exact g2
      have g3' : out1.Pairwise (fun a b => a.end_byte ≤ b.start_byte) := by
        rw [hgl] at g3; exact g3
      obtain ⟨dr, hdr, hde, hp1⟩ : ∃ dropped, parent :: parents = dropped ++ p1 :: ps1
          ∧ (∀ d ∈ dropped, d.end_byte ≤ n.end_byte) ∧ parentsOk p1 ps1 := by
        rw [hgl] at g4; exact g4 p1 ps1 rfl
      obtain ⟨ih1, ih2, ih3, ih4, ih5⟩ := ih p1 ps1 hrest hp1
      simp only [nodesLoop, hgl]
      refine ⟨?_, ?_, ?_, ?_, ?_⟩
      · intro b
        rw [coveredBy_append, g1' b, gapsCover_node n hn b, ih1 b]
        constructor
        · rintro (⟨h5, h6⟩ | ⟨⟨m, hm, h5⟩, h6⟩)
          · exact ⟨⟨n, by simp, h5⟩, h6⟩
          · refine ⟨⟨m, List.mem_cons_of_mem n hm, h5⟩, ?_⟩
            rw [hdr, coveredBy_append]
            exact Or.inr h6
        · rintro ⟨⟨m, hm, h5⟩, h6⟩
          rcases List.mem_cons.mp hm with rfl | hm2
          · exact Or.inl ⟨h5, h6⟩
          · refine Or.inr ⟨⟨m, hm2, h5⟩, ?_⟩
            rw [hdr, coveredBy_append] at h6
            rcases h6 with h6 | h6
            · rcases h6 with ⟨d, hd, hb1, hb2⟩
              have h7 := hde d hd
              have h8 := hsep m hm2
              have h9 : m.rng.start_byte ≤ b := h5.1.1
              omega
            · exact h6
      · intro r hr
        rcases List.mem_append.mp hr with h | h
        · exact ⟨n, by simp, g2' r h⟩
        · obtain ⟨m, hm, hb⟩ := ih2 r h
          exact ⟨m, List.mem_cons_of_mem n hm, hb⟩
      · rw [List.pairwise_append]
        refine ⟨g3', ih3, ?_⟩
        intro a ha b hb
        have h5 := (g2' a ha).2.1
        obtain ⟨m, hm, h6, _, _⟩ := ih2 b hb
        have h7 := hsep m hm
        omega
      · intro p2 ps2 h
        obtain ⟨dr2, hdr2, hde2, hp2⟩ := ih4 p2 ps2 h
        refine ⟨dr ++ dr2, ?_, ?_, hp2⟩
        · rw [hdr, hdr2, List.append_assoc]
        · intro d hd
          rcases List.mem_append.mp hd with h7 | h7
          · exact ⟨n, by simp, hde d h7⟩
          · obtain ⟨m, hm, hb⟩ := hde2 d h7
            exact ⟨m, List.mem_cons_of_mem n hm, hb⟩
      · intro h d hd
        have h5 := ih5 h
        rw [hdr] at hd
        rcases List.mem_append.mp hd with h7 | h7
        · exact ⟨n, by simp, hde d h7⟩
        · obtain ⟨m, hm, hb⟩ := h5 d h7
          exact ⟨m, List.mem_cons_of_mem n hm, hb⟩

/-- Claim C5: for every non-empty, sorted, disjoint, well-formed
`parent_ranges` and every source-ordered list of well-formed nodes,
`intersect_ranges` returns (without panicking) a list of ranges covering
exactly the bytes that lie in some node's span but in none of that node's
direct children's spans and that are covered by `parent_ranges`; the output
is in ascending source order with no two ranges overlapping, contains no
zero-length range; a childless node contributes every byte of its clipped
range, and a node whose span is disjoint from `parent_ranges` contributes
no byte of its span. -/
theorem c5_intersect_ranges_correct (p : SRange) (ps : List SRange) (nodes : List STree)
    (hP : parentsOk p ps) (hN : nodesOk nodes) :
    ∃ out, intersect_ranges (p :: ps) nodes = some out
      ∧ (∀ b, coveredBy out b ↔ ((∃ n ∈ nodes, nodeGapByte n b) ∧ coveredBy (p :: ps) b))
      ∧ out.Pairwise (fun r1 r2 => r1.end_byte ≤ r2.start_byte)
      ∧ (∀ r ∈ out, r.start_byte < r.end_byte)
      ∧ (∀ n ∈ nodes, n.childList = [] →
          ∀ b, inRange n.rng b → coveredBy (p :: ps) b → coveredBy out b)
      ∧ (∀ n ∈ nodes, (∀ b, inRange n.rng b → ¬ coveredBy (p :: ps) b) →
          ∀ b, inRange n.rng b → ¬ coveredBy out b) := by
  obtain ⟨h1, h2, h3, _, _⟩ := nodesLoop_spec nodes p ps hN hP
  refine ⟨(nodesLoop nodes p ps).1, rfl, h1, h3, ?_, ?_, ?_⟩
  · intro r hr
    obtain ⟨n, _, _, _, hpos⟩ := h2 r hr
    exact hpos
  · intro n hn hchild b hb hcov
    rw [h1 b]
    refine ⟨⟨n, hn, hb, ?_⟩, hcov⟩
    intro c hc
    rw [hchild] at hc
    exact absurd hc (List.not_mem_nil c)
  · intro n hn hout b hb hcovout
    rw [h1 b] at hcovout
    exact hout b hb hcovout.2

/-- A node spanning bytes 2–10 with two children spanning 3–4 and 6–8. -/
def c5Node : STree := .node (mkRange 2 10) 0 plainProps [mkLeaf 3 4 plainProps, mkLeaf 6 8 plainProps]

theorem c5_witness :
    ∃ out, intersect_ranges [mkRange 0 usizeMax] [c5Node] = some out
      ∧ (∀ b, coveredBy out b ↔
          ((∃ n ∈ [c5Node], nodeGapByte n b) ∧ coveredBy [mkRange 0 usizeMax] b))
      ∧ out.Pairwise (fun r1 r2 => r1.end_byte ≤ r2.start_byte)
      ∧ (∀ r ∈ out, r.start_byte < r.end_byte)
      ∧ (∀ n ∈ [c5Node], n.childList = [] →
          ∀ b, inRange n.rng b → coveredBy [mkRange 0 usizeMax] b → coveredBy out b)
      ∧ (∀ n ∈ [c5Node], (∀ b, inRange n.rng b → ¬ coveredBy [mkRange 0 usizeMax] b) →
          ∀ b, inRange n.rng b → ¬ coveredBy out b) :=
  c5_intersect_ranges_correct (mkRange 0 usizeMax) [] [c5Node]
    (show (0:Nat) ≤ usizeMax by decide)
    (by
      refine ⟨?_, ?_, trivial⟩
      · show rangesChain (precedingSeed c5Node)
          (c5Node.childList.map STree.rng ++ [followingRange c5Node])
        simp only [c5Node, mkLeaf, mkRange, STree.childList, STree.rng, precedingSeed,
          followingRange, STree.end_byte, List.map, List.cons_append, List.nil_append,
          rangesChain, usizeMax]
        refine ⟨by decide, by decide, by decide, by decide, by decide, by decide, trivial⟩
      · intro m hm
        exact absurd hm (List.not_mem_nil m))

/-! ## Claim C2: balance and stack order of scope events -/

/-- No injections in a properties record. -/
def props_no_inj (p : SProperties) : Bool := p.injections.isEmpty

mutual

/-- No injections in any properties record of the tree. -/
def tree_no_inj : STree → Bool
  | .node _ _ p cs => props_no_inj p && treeList_no_inj cs

/-- `tree_no_inj` over a list of trees. -/
def treeList_no_inj : List STree → Bool
  | [] => true
  | c :: cs => tree_no_inj c && treeList_no_inj cs

end

/-- No injections reachable from a crumb. -/
def crumb_no_inj (cr : Crumb) : Bool :=
  props_no_inj cr.props && treeList_no_inj cr.leftRev && treeList_no_inj cr.right

/-- No injections reachable from a cursor position. -/
def cursor_no_inj (c : SCursor) : Bool :=
  tree_no_inj c.focus && c.crumbs.all crumb_no_inj

/-- The scopes opened by the rooted path of crumbs, innermost first. -/
def crumbStack (cs : List Crumb) : List Scope :=
  cs.filterMap (fun cr => cr.props.scope)

/-- The scopes currently open in a layer: the focused node's own scope if
the cursor sits at its end boundary (its start event has been emitted, its
end event not yet), then the scopes of all ancestors. -/
def layerStack (l : Layer) : List Scope :=
  (if l.at_node_end then l.cursor.node.props.scope.toList else []) ++ crumbStack l.cursor.crumbs

/-- The open-scope stack of the highlighter state (front layer). -/
def stateStack (s : HState) : List Scope :=
  match s.layers with
  | [] => []
  | l :: _ => layerStack l

/-- The single-layer, injection-free state invariant. -/
def c2Inv (s : HState) : Prop :=
  match s.layers with
  | [] => True
  | [l] => cursor_no_inj l.cursor = true
  | _ => False

/-- The scope-event stack machine: push on `ScopeStart`, pop on a matching
`ScopeEnd`, fail (`none`) on a mismatched or unmatched `ScopeEnd`.  A stream
is balanced and stack-ordered from stack `st` iff this returns `some []`. -/
def scopeCheck : List HEvent → List Scope → Option (List Scope)
  | [], st => some st
  | .source _ :: rest, st => scopeCheck rest st
  | .scopeStart sc :: rest, st => scopeCheck rest (sc :: st)
  | .scopeEnd sc :: rest, st =>
    match st with
    | [] => none
    | top :: st' => if top = sc then scopeCheck rest st' else none

/-- How one `next()` result relates the open-scope stack before and after:
source events leave it unchanged, a `ScopeStart` pushes, a `ScopeEnd` pops
its own scope, and a normal end of stream requires an empty stack. -/
def stackStep (before : List Scope) : NextResult → Prop
  | .ev (.source _) s2 => c2Inv s2 ∧ stateStack s2 = before
  | .ev (.scopeStart sc) s2 => c2Inv s2 ∧ stateStack s2 = sc :: before
  | .ev (.scopeEnd sc) s2 => c2Inv s2 ∧ before = sc :: stateStack s2
  | .stop false _ => before = []
  | .stop true _ => True
  | .panicked => True
  | .fuelOut => True

theorem treeList_no_inj_mem {cs : List STree} (h : treeList_no_inj cs = true) :
    ∀ c ∈ cs, tree_no_inj c = true := by
  induction cs with
  | nil => intro c hc; simp at hc
  | cons x xs ih =>
    rw [treeList_no_inj, Bool.and_eq_true] at h
    intro c hc
    rcases List.mem_cons.mp hc with rfl | hc2
    · exact h.1
    · exact ih h.2 c hc2

theorem treeList_no_inj_of_mem {cs : List STree}
    (h : ∀ c ∈ cs, tree_no_inj c = true) : treeList_no_inj cs = true := by
  induction cs with
  | nil => rfl
  | cons x xs ih =>
    rw [treeList_no_inj, Bool.and_eq_true]
    exact ⟨h x (by simp), ih (fun c hc => h c (by simp [hc]))⟩

theorem cursor_no_inj_first_child {c c2 : SCursor}
    (h : cursor_no_inj c = true) (hgo : c.goto_first_child = some c2) :
    cursor_no_inj c2 = true := by
  rw [cursor_no_inj, Bool.and_eq_true] at h
  obtain ⟨hf, hcr⟩ := h
  rcases c with ⟨focus, crumbs⟩
  rcases focus with ⟨r, k, p, cs⟩
  rcases cs with _ | ⟨x, xs⟩
  · simp [SCursor.goto_first_child] at hgo
  · rw [SCursor.goto_first_child] at hgo
    cases hgo
    rw [tree_no_inj, Bool.and_eq_true] at hf
    rw [cursor_no_inj, Bool.and_eq_true]
    constructor
    · exact (Bool.and_eq_true _ _ |>.mp hf.2).1
    · rw [List.all_cons, Bool.and_eq_true]
      refine ⟨?_, hcr⟩
      rw [crumb_no_inj, Bool.and_eq_true, Bool.and_eq_true]
      exact ⟨⟨hf.1, rfl⟩, (Bool.and_eq_true _ _ |>.mp hf.2).2⟩

theorem cursor_no_inj_next_sibling {c c2 : SCursor}
    (h : cursor_no_inj c = true) (hgo : c.goto_next_sibling = some c2) :
    cursor_no_inj c2 = true := by
  rw [cursor_no_inj, Bool.and_eq_true] at h
  obtain ⟨hf, hcr⟩ := h
  rcases c with ⟨focus, crumbs⟩
  rcases crumbs with _ | ⟨cr, rest⟩
  · simp [SCursor.goto_next_sibling] at hgo
  · rcases hr : cr.right with _ | ⟨y, ys⟩
    · rw [SCursor.goto_next_sibling] at hgo
      simp only [hr] at hgo
      exact Option.noConfusion hgo
    · rw [SCursor.goto_next_sibling] at hgo
      simp only [hr] at hgo
      cases hgo
      rw [List.all_cons, Bool.and_eq_true] at hcr
      rw [crumb_no_inj, Bool.and_eq_true, Bool.and_eq_true] at hcr
      obtain ⟨⟨hp, hl⟩, hrt⟩ := hcr.1
      rw [hr, treeList_no_inj, Bool.and_eq_true] at hrt
      rw [cursor_no_inj, Bool.and_eq_true]
      refine ⟨hrt.1, ?_⟩
      rw [List.all_cons, Bool.and_eq_true]
      refine ⟨?_, hcr.2⟩
      rw [crumb_no_inj, Bool.and_eq_true, Bool.and_eq_true]
      refine ⟨⟨hp, ?_⟩, hrt.2⟩
      rw [treeList_no_inj, Bool.and_eq_true]
      exact ⟨hf, hl⟩

theorem cursor_no_inj_parent {c c2 : SCursor}
    (h : cursor_no_inj c = true) (hgo : c.goto_parent = some c2) :
    cursor_no_inj c2 = true := by
  rw [cursor_no_inj, Bool.and_eq_true] at h
  obtain ⟨hf, hcr⟩ := h
  rcases c with ⟨focus, crumbs⟩
  rcases crumbs with _ | ⟨cr, rest⟩
  · simp [SCursor.goto_parent] at hgo
  · rw [SCursor.goto_parent] at hgo
    cases hgo
    rw [List.all_cons, Bool.and_eq_true] at hcr
    rw [crumb_no_inj, Bool.and_eq_true, Bool.and_eq_true] at hcr
    obtain ⟨⟨hp, hl⟩, hrt⟩ := hcr.1
    rw [cursor_no_inj, Bool.and_eq_true]
    refine ⟨?_, hcr.2⟩
    rw [tree_no_inj, Bool.and_eq_true]
    refine ⟨hp, ?_⟩
    refine treeList_no_inj_of_mem ?_
    intro t ht
    rcases List.mem_append.mp ht with ht2 | ht2
    · exact treeList_no_inj_mem hl t (List.mem_reverse.mp ht2)
    · rcases List.mem_cons.mp ht2 with rfl | ht3
      · exact hf
      · exact treeList_no_inj_mem hrt t ht3

theorem cursor_no_inj_advance {l l2 : Layer} (h : cursor_no_inj l.cursor = true)
    (hadv : l.advance = some l2) : cursor_no_inj l2.cursor = true := by
  rw [Layer.advance] at hadv
  by_cases hend : l.at_node_end
  · rw [if_pos hend] at hadv
    rcases hsib : l.cursor.goto_next_sibling with _ | c2
    · rw [hsib] at hadv
      rcases hpar : l.cursor.goto_parent with _ | c3
      · rw [hpar] at hadv
        exact Option.noConfusion hadv
      · rw [hpar] at hadv
        cases hadv
        exact cursor_no_inj_parent h hpar
    · rw [hsib] at hadv
      cases hadv
      exact cursor_no_inj_next_sibling h hsib
  · rw [if_neg hend] at hadv
    rcases hch : l.cursor.goto_first_child with _ | c2
    · rw [hch] at hadv
      cases hadv
      exact h
    · rw [hch] at hadv
      cases hadv
      exact cursor_no_inj_first_child h hch

theorem crumbStack_cons (cr : Crumb) (rest : List Crumb) :
    crumbStack (cr :: rest) = cr.props.scope.toList ++ crumbStack rest := by
  rw [crumbStack, List.filterMap_cons, crumbStack]
  rcases h : cr.props.scope with _ | sc <;> simp [h, Option.toList]

/-- Advancing from a node's start boundary pushes that node's scope (if
any) onto the layer's open-scope stack. -/
theorem layerStack_advance_start {l l2 : Layer} (hend : l.at_node_end = false)
    (hadv : l.advance = some l2) :
    layerStack l2 = l.cursor.node.props.scope.toList ++ layerStack l := by
  rcases l with ⟨⟨focus, crumbs⟩, ranges, ae, lid⟩
  have hae : ae = false := hend
  subst hae
  rcases focus with ⟨r, k, p, cs⟩
  rcases cs with _ | ⟨x, xs⟩
  · simp only [Layer.advance, SCursor.goto_first_child] at hadv
    injection hadv with h5
    subst h5
    simp [layerStack, SCursor.node, STree.props]
  · simp only [Layer.advance, SCursor.goto_first_child] at hadv
    injection hadv with h5
    subst h5
    simp [layerStack, SCursor.node, STree.props, crumbStack_cons]

/-- Advancing from a node's end boundary pops that node's scope (if any)
from the layer's open-scope stack. -/
theorem layerStack_advance_end {l l2 : Layer} (hend : l.at_node_end = true)
    (hadv : l.advance = some l2) :
    l.cursor.node.props.scope.toList ++ layerStack l2 = layerStack l := by
  rcases l with ⟨⟨focus, crumbs⟩, ranges, ae, lid⟩
  have hae : ae = true := hend
  subst hae
  rcases crumbs with _ | ⟨cr, rest⟩
  · simp only [Layer.advance, SCursor.goto_next_sibling, SCursor.goto_parent] at hadv
    exact Option.noConfusion hadv
  · rcases hr : cr.right with _ | ⟨y, ys⟩
    · simp only [Layer.advance, SCursor.goto_next_sibling, SCursor.goto_parent, hr] at hadv
      injection hadv with h5
      subst h5
      simp [layerStack, SCursor.node, STree.props, crumbStack_cons]
    · simp only [Layer.advance, SCursor.goto_next_sibling, SCursor.goto_parent, hr] at hadv
      injection hadv with h5
      subst h5
      rcases cr with ⟨crr, crk, crp, crl, crrt⟩
      simp [layerStack, SCursor.node, STree.props, crumbStack_cons]

/-- The cursor is exhausted only at the root's end boundary; the layer's
stack then holds exactly the root's scope (if any). -/
theorem layerStack_advance_none {l : Layer} (hadv : l.advance = none) :
    l.at_node_end = true ∧ layerStack l = l.cursor.node.props.scope.toList := by
  rcases l with ⟨⟨focus, crumbs⟩, ranges, ae, lid⟩
  rcases ae with _ | _
  · rcases focus with ⟨r, k, p, cs⟩
    rcases cs with _ | ⟨x, xs⟩ <;>
      simp only [Layer.advance, SCursor.goto_first_child] at hadv <;>
      exact Option.noConfusion hadv
  · rcases crumbs with _ | ⟨cr, rest⟩
    · refine ⟨rfl, ?_⟩
      simp [layerStack, SCursor.node, crumbStack]
    · rcases hr : cr.right with _ | ⟨y, ys⟩ <;>
        simp only [Layer.advance, SCursor.goto_next_sibling, SCursor.goto_parent, hr] at hadv <;>
        exact Option.noConfusion hadv

theorem c2Inv_layers_eq {s1 s2 : HState} (h : s2.layers = s1.layers)
    (hinv : c2Inv s1) : c2Inv s2 := by
  rw [c2Inv, h]
  exact hinv

theorem stateStack_layers_eq {s1 s2 : HState} (h : s2.layers = s1.layers) :
    stateStack s2 = stateStack s1 := by
  rw [stateStack, h]
  rfl

/-- One pass of the `next()` layer loop respects the open-scope stack
discipline in any single-layer, injection-free state. -/
theorem next_loop_stack (reg : Registry) :
    ∀ (fuel : Nat) (s : HState), c2Inv s → stackStep (stateStack s) (next_loop reg fuel s) := by
  intro fuel
  induction fuel with
  | zero =>
    intro s _
    rw [next_loop]
    trivial
  | succ fuel ih =>
    intro s hinv
    rw [next_loop]
    rcases hlayers : s.layers with _ | ⟨first, rest⟩
    · simp only [hlayers]
      by_cases hofs : s.source_offset < s.source.length
      · rw [if_pos hofs]
        rcases hemit : emit_source s.source s.source_offset s.source.length
            with _ | ⟨payload, off, pend⟩
        · trivial
        · exact ⟨c2Inv_layers_eq (by rw [hlayers]) hinv, stateStack_layers_eq (by rw [hlayers])⟩
      · rw [if_neg hofs]
        show stateStack s = []
        rw [stateStack, hlayers]
    · rcases rest with _ | ⟨second, more⟩
      · have hcur : cursor_no_inj first.cursor = true := by
          have hinv2 := hinv
          simp only [c2Inv, hlayers] at hinv2
          exact hinv2
        have hstack : stateStack s = layerStack first := by
          rw [stateStack, hlayers]
        have hinjs : first.cursor.node.props.injections = [] := by
          rcases hfoc : first.cursor.focus with ⟨r, k, p, cs⟩
          have hcur2 := hcur
          rw [cursor_no_inj, Bool.and_eq_true] at hcur2
          have h5 := hcur2.1
          rw [hfoc, tree_no_inj, Bool.and_eq_true] at h5
          have hp : props_no_inj p = true := h5.1
          show (first.cursor.focus.props).injections = []
          rw [hfoc]
          show p.injections = []
          rcases hpi : p.injections with _ | ⟨i, is⟩
          · rfl
          · rw [props_no_inj, hpi] at hp
            simp [List.isEmpty] at hp
        simp only [hlayers]
        have hif : (if first.at_node_end then some s
            else match collect_injections s.source first.ranges first.cursor.node
                first.cursor.node.props.injections with
              | none => none
              | some injs => add_layers reg s injs) = some s := by
          by_cases hend : first.at_node_end
          · rw [if_pos hend]
          · rw [if_neg hend, hinjs]
            rfl
        simp only [hif, hlayers]
        rcases hscope : first.cursor.node.props.scope with _ | sc
        · -- scope-free node: silent advance and recursion
          rcases hadv : first.advance with _ | l2
          · have hfront : advance_front s = {s with layers := []} := by
              simp only [advance_front, hlayers, hadv]
            have hinv3 : c2Inv (advance_front s) := by
              rw [hfront]
              trivial
            have hst3 : stateStack (advance_front s) = stateStack s := by
              obtain ⟨_, hsc⟩ := layerStack_advance_none hadv
              rw [hfront, hstack, hsc, hscope]
              rfl
            have h5 := ih (advance_front s) hinv3
            rw [hst3] at h5
            exact h5
          · have hfront : advance_front s = {s with layers := sortLayers [l2]} := by
              simp only [advance_front, hlayers, hadv]
            have hsl : sortLayers [l2] = [l2] := rfl
            rw [hsl] at hfront
            have hinv3 : c2Inv (advance_front s) := by
              rw [hfront]
              show cursor_no_inj l2.cursor = true
              exact cursor_no_inj_advance hcur hadv
            have hst3 : stateStack (advance_front s) = stateStack s := by
              rw [hfront, hstack]
              show layerStack l2 = layerStack first
              by_cases hend : first.at_node_end
              · have h5 := layerStack_advance_end hend hadv
                rw [hscope] at h5
                simpa using h5
              · have hendf : first.at_node_end = false := by
                  cases hb : first.at_node_end
                  · rfl
                  · exact absurd hb hend
                have h5 := layerStack_advance_start hendf hadv
                rw [hscope] at h5
                simpa using h5
            have h5 := ih (advance_front s) hinv3
            rw [hst3] at h5
            exact h5
        · -- scoped node
          show stackStep (stateStack s)
            (if s.source_offset < s.source.length ⊓ first.offset then
                match emit_source s.source s.source_offset (s.source.length ⊓ first.offset) with
                | some (payload, off, pend) =>
                  NextResult.ev (HEvent.source payload)
                    { source := s.source, source_offset := off, layers := [first],
                      utf8_error_len := pend, next_layer_id := s.next_layer_id }
                | none => NextResult.stop true s
              else
                NextResult.ev
                  (if first.at_node_end = true then HEvent.scopeEnd sc else HEvent.scopeStart sc)
                  (advance_front s))
          by_cases hofs : s.source_offset < s.source.length ⊓ first.offset
          · rw [if_pos hofs]
            rcases hemit : emit_source s.source s.source_offset (s.source.length ⊓ first.offset)
                with _ | ⟨payload, off, pend⟩
            · trivial
            · exact ⟨c2Inv_layers_eq (by rw [hlayers]) hinv,
                stateStack_layers_eq (by rw [hlayers])⟩
          · rw [if_neg hofs]
            by_cases hend : first.at_node_end
            · rw [if_pos hend]
              rcases hadv : first.advance with _ | l2
              · have hfront : advance_front s = {s with layers := []} := by
                  simp only [advance_front, hlayers, hadv]
                refine ⟨?_, ?_⟩
                · rw [hfront]
                  trivial
                · obtain ⟨_, hsc⟩ := layerStack_advance_none hadv
                  rw [hfront, hstack, hsc, hscope]
                  rfl
              · have hfront : advance_front s = {s with layers := sortLayers [l2]} := by
                  simp only [advance_front, hlayers, hadv]
                have hsl : sortLayers [l2] = [l2] := rfl
                rw [hsl] at hfront
                refine ⟨?_, ?_⟩
                · rw [hfront]
                  show cursor_no_inj l2.cursor = true
                  exact cursor_no_inj_advance hcur hadv
                · have h5 := layerStack_advance_end hend hadv
                  rw [hscope] at h5
                  rw [hfront, hstack]
                  show layerStack first = sc :: layerStack l2
                  rw [← h5]
                  rfl
            · rw [if_neg hend]
              have hendf : first.at_node_end = false := by
                cases hb : first.at_node_end
                · rfl
                · exact absurd hb hend
              rcases hadv : first.advance with _ | l2
              · obtain ⟨hcontra, _⟩ := layerStack_advance_none hadv
                rw [hendf] at hcontra
                exact absurd hcontra (by simp)
              · have hfront : advance_front s = {s with layers := sortLayers [l2]} := by
                  simp only [advance_front, hlayers, hadv]
                have hsl : sortLayers [l2] = [l2] := rfl
                rw [hsl] at hfront
                refine ⟨?_, ?_⟩
                · rw [hfront]
                  show cursor_no_inj l2.cursor = true
                  exact cursor_no_inj_advance hcur hadv
                · have h5 := layerStack_advance_start hendf hadv
                  rw [hscope] at h5
                  rw [hfront, hstack]
                  show layerStack l2 = sc :: layerStack first
                  rw [h5]
                  rfl
      · have hinv2 := hinv
        simp only [c2Inv, hlayers] at hinv2

/-- `next()` respects the open-scope stack discipline in any single-layer,
injection-free state. -/
theorem next_event_stack (reg : Registry) (fuel : Nat) (s : HState) (hinv : c2Inv s) :
    stackStep (stateStack s) (next_event reg fuel s) := by
  rw [next_event]
  rcases hpend : s.utf8_error_len with _ | e
  · exact next_loop_stack reg fuel s hinv
  · exact ⟨c2Inv_layers_eq rfl hinv, stateStack_layers_eq rfl⟩

/-- Completed runs from a single-layer, injection-free state leave the
stack machine exactly where the state's open scopes say. -/
theorem run_scopeCheck (reg : Registry) :
    ∀ (fuel : Nat) (s : HState), c2Inv s → (run reg fuel s).2 = .finished →
      scopeCheck (run reg fuel s).1 (stateStack s) = some [] := by
  intro fuel
  induction fuel with
  | zero =>
    intro s _ hfin
    rw [run] at hfin
    exact absurd hfin (by simp)
  | succ fuel ih =>
    intro s hinv hfin
    have hstep := next_event_stack reg fuel s hinv
    rcases hres : next_event reg fuel s with ⟨e, s2⟩ | ⟨tr, s2⟩ | _ | _
    · have hrun : run reg (fuel + 1) s = (e :: (run reg fuel s2).1, (run reg fuel s2).2) := by
        rw [run, hres]
      rw [hrun] at hfin
      have hfin2 : (run reg fuel s2).2 = .finished := hfin
      rw [hres] at hstep
      rw [hrun]
      rcases e with pl | sc | sc
      · obtain ⟨hinv2, hstk⟩ := hstep
        show scopeCheck ((run reg fuel s2).1) (stateStack s) = some []
        rw [← hstk]
        exact ih s2 hinv2 hfin2
      · obtain ⟨hinv2, hstk⟩ := hstep
        show scopeCheck ((run reg fuel s2).1) (sc :: stateStack s) = some []
        rw [← hstk]
        exact ih s2 hinv2 hfin2
      · obtain ⟨hinv2, hstk⟩ := hstep
        rw [hstk]
        show (if sc = sc then scopeCheck ((run reg fuel s2).1) (stateStack s2) else none) = some []
        rw [if_pos rfl]
        exact ih s2 hinv2 hfin2
    · have hrun : run reg (fuel + 1) s =
          (if tr then (([] : List HEvent), Outcome.truncated) else ([], Outcome.finished)) := by
        rw [run, hres]
        rcases tr with _ | _ <;> rfl
      rcases tr with _ | _
      · rw [hres] at hstep
        rw [hrun]
        show some (stateStack s) = some []
        rw [hstep]
      · rw [hrun] at hfin
        exact absurd hfin (by simp)
    · have hrun : run reg (fuel + 1) s = ([], Outcome.panicked) := by rw [run, hres]
      rw [hrun] at hfin
      exact absurd hfin (by simp)
    · have hrun : run reg (fuel + 1) s = ([], Outcome.fuelOut) := by rw [run, hres]
      rw [hrun] at hfin
      exact absurd hfin (by simp)

/-- A registry with one language `"y"` whose parse of any assigned ranges
is a childless root spanning bytes 0–4 (the hull of the included ranges)
carrying a `String` scope. -/
def c2MultiReg : Registry :=
  ⟨fun name => if name = [0x79] then
      some ⟨true, fun _ => some (.node (mkRange 0 4) 0 (scopedProps .String) [])⟩
    else none⟩

/-- A host tree whose root injects language `"y"` with content `children`:
the scoped child spans bytes 0–3 (`Comment`), so the injection ranges are
the children's gaps `0–1`, `2–3` and `3–4`, whose hull `0–4` strictly
contains the end of the `Comment` scope. -/
def c2InjTree : STree :=
  .node (mkRange 0 4) 0 ⟨none, [⟨.literal [0x79], [TreeStep.children none]⟩]⟩
    [ .node (mkRange 0 3) 0 (scopedProps .Comment) [.node (mkRange 1 2) 0 plainProps []],
      .node (mkRange 3 4) 0 plainProps [] ]

/-- Counterexample to claim C2 as stated, in both directions the amendment
restricts it.  First, an incomplete UTF-8 sequence at the end of the source
truncates the stream right after `ScopeStart(Comment)` was emitted, so that
start is never balanced by a scope end.  Second, even a stream that
completes normally violates stack order across layers: an injected layer
whose root node spans the hull of its included ranges emits
`ScopeStart(String)` inside the host's `Comment` scope, and
`ScopeEnd(Comment)` then arrives while `String` is the most recently opened
scope, faulting the push/pop machine. -/
theorem c2_counterexample :
    (run emptyRegistry 8 (initState [0xC2] (mkLeaf 0 1 (scopedProps .Comment))) =
        ([.scopeStart .Comment], .truncated)
      ∧ scopeCheck [.scopeStart .Comment] [] = some [.Comment])
    ∧ (run c2MultiReg 16 (initState [0x61, 0x62, 0x63, 0x64] c2InjTree) =
        ([.scopeStart .Comment, .scopeStart .String, .source [0x61, 0x62, 0x63],
          .scopeEnd .Comment, .source [0x64], .scopeEnd .String], .finished)
      ∧ scopeCheck [.scopeStart .Comment, .scopeStart .String, .source [0x61, 0x62, 0x63],
          .scopeEnd .Comment, .source [0x64], .scopeEnd .String] [] = none) :=
  ⟨⟨rfl, rfl⟩, ⟨rfl, rfl⟩⟩

/-- Claim C2 (amended): in every *completed* iteration of the stream over a
*single layer* (an injection-free grammar), the scope events are balanced
and stack-ordered — the push/pop machine (push on `ScopeStart`, pop only
the matching most-recent `ScopeStart` on `ScopeEnd`) never faults and ends
with an empty stack.  Both restrictions are forced by `c2_counterexample`:
a truncated stream (incomplete UTF-8) can abandon open scopes, and a
completed stream with an injected layer can interleave scope intervals
across layers, breaking stack order. -/
theorem c2_scope_balance (reg : Registry) (fuel : Nat) (source : List Nat) (tree : STree)
    (hTree : tree_no_inj tree = true)
    (hfin : (run reg fuel (initState source tree)).2 = .finished) :
    scopeCheck (run reg fuel (initState source tree)).1 [] = some [] := by
  have hinv : c2Inv (initState source tree) := by
    show cursor_no_inj
      (Layer.new tree [⟨0, (0, 0), usizeMax, (usizeMax, usizeMax)⟩] 0).cursor = true
    rw [cursor_no_inj]
    simp [hTree, Layer.new]
  have h5 := run_scopeCheck reg fuel (initState source tree) hinv hfin
  have hstk : stateStack (initState source tree) = [] := rfl
  rw [hstk] at h5
  exact h5

/-- A two-scope tree: a `Comment`-scoped root over bytes 0–2 with a
`String`-scoped child over byte 0–1. -/
def c2Tree : STree :=
  .node (mkRange 0 2) 0 (scopedProps .Comment)
    [.node (mkRange 0 1) 0 (scopedProps .String) []]

theorem c2_witness :
    tree_no_inj c2Tree = true
    ∧ (run emptyRegistry 32 (initState [0x61, 0x62] c2Tree)).2 = .finished
    ∧ scopeCheck (run emptyRegistry 32 (initState [0x61, 0x62] c2Tree)).1 [] = some [] :=
  ⟨rfl, rfl, c2_scope_balance emptyRegistry 32 [0x61, 0x62] c2Tree rfl rfl⟩
